import Mathlib

/-!
Verification of the skeleton post-processing core of `igneous`
(`igneous/tasks/skeletonization/postprocess.py`): the `trim_skeleton`
pipeline (dust removal, loop removal, piece connection, tick removal),
shallowly embedded over rational-coordinate skeletons.

Modelling conventions.

* Vertex coordinates are embedded as exact rationals (`Point`).  The source
  computes euclidean distances with `np.linalg.norm`; since the square root
  of a rational is in general irrational, the vertex-to-vertex physical
  length is threaded through the development as an explicit parameter
  `elen : Point → Point → ℚ`, standing for the euclidean length.  All
  general theorems hold for every instantiation of `elen`, in particular
  the euclidean one.  Concrete inputs of witnesses and counterexamples use
  axis-aligned geometry on which every relevant distance is a natural
  number; they instantiate `elen` with `qlen` (integer square root of the
  squared distance) and the witness statements certify exactness by
  checking `qlen p q ^ 2 = dist2 p q`, so `qlen` agrees with the euclidean
  distance on those points.
* `while` loops of the source (`remove_loops`, `connect_pieces`,
  `_remove_ticks` and its DFS) are embedded with explicit fuel and an
  `Option` result: `none` models non-termination within the given fuel.
* Python dicts (`dgraph`) are embedded as insertion-ordered association
  lists, matching `min(..., key=dgraph.get)` tie-breaking on insertion
  order; `np.argmin`/`np.argmax` take the first extremal index.
-/

set_option maxRecDepth 8000

namespace Igneous

/-! ### Kernel-reducible rational arithmetic

The standard `Rat` operations normalize through `Nat.gcd`, which is defined
by well-founded recursion and does not reduce inside the kernel, so
concrete runs of the embedded algorithms could not be checked by `decide`.
The embedded algorithms therefore use the following structurally recursive
clones, each proved equal to the standard operation. -/

/-- Fuelled Euclid's algorithm. -/
def ngcd : ℕ → ℕ → ℕ → ℕ
  | 0, _, b => b
  | f + 1, a, b => if a = 0 then b else ngcd f (b % a) a

/-- Kernel-reducible `Nat.gcd`. -/
def qgcd (a b : ℕ) : ℕ := ngcd (a + 1) a b

/-- Kernel-reducible `mkRat`. -/
def qmk (n : ℤ) (d : ℕ) : ℚ :=
  if d0 : d = 0 then 0
  else
    have hg : ∀ (f a b : ℕ), a ≤ f → ngcd f a b = Nat.gcd a b := by
      intro f
      induction f with
      | zero =>
        intro a b ha
        interval_cases a
        simp [ngcd]
      | succ f ih =>
        intro a b ha
        unfold ngcd
        by_cases h0 : a = 0
        · simp [h0]
        · have h1 : b % a < a := Nat.mod_lt b (Nat.pos_of_ne_zero h0)
          rw [if_neg h0, ih (b % a) a (by omega)]
          exact (Nat.gcd_rec a b).symm
    have hq : qgcd n.natAbs d = Nat.gcd n.natAbs d := hg _ _ _ (Nat.le_succ _)
    { num := n / (qgcd n.natAbs d : ℕ)
      den := d / qgcd n.natAbs d
      den_nz := by rw [hq]; exact Rat.normalize.den_nz d0 rfl
      reduced := by rw [hq]; exact Rat.normalize.reduced' d0 rfl }

/-- Kernel-reducible rational addition. -/
def qadd (a b : ℚ) : ℚ := qmk (a.num * b.den + b.num * a.den) (a.den * b.den)

/-- Kernel-reducible rational subtraction. -/
def qsub (a b : ℚ) : ℚ := qmk (a.num * b.den - b.num * a.den) (a.den * b.den)

/-- Kernel-reducible rational multiplication. -/
def qmul (a b : ℚ) : ℚ := qmk (a.num * b.num) (a.den * b.den)

/-- Kernel-reducible division by a natural number. -/
def qdivN (a : ℚ) (k : ℕ) : ℚ := qmk a.num (a.den * k)

/-- Kernel-reducible list sum. -/
def qsum (l : List ℚ) : ℚ := l.foldr qadd 0

/-- Rational 3-D point (the source stores nanometer coordinates as floats;
we embed them exactly). -/
abbrev Point := ℚ × ℚ × ℚ

/-- Squared euclidean distance `np.sum((p - q) ** 2)` (kernel-reducible
form; `dist2_eq` restates it with the standard operations). -/
def dist2 (p q : Point) : ℚ :=
  qadd (qadd (qmul (qsub p.1 q.1) (qsub p.1 q.1))
      (qmul (qsub p.2.1 q.2.1) (qsub p.2.1 q.2.1)))
    (qmul (qsub p.2.2 q.2.2) (qsub p.2.2 q.2.2))

/-- Fuelled digit-by-digit integer square root (kernel-reducible). -/
def isqrtF : ℕ → ℕ → ℕ
  | 0, _ => 0
  | _ + 1, 0 => 0
  | f + 1, n =>
    let r := 2 * isqrtF f (n / 4)
    if (r + 1) * (r + 1) ≤ n then r + 1 else r

/-- Integer square root (floor). -/
def isqrt (n : ℕ) : ℕ := isqrtF n n

/-- Integer-square-root based length function used to instantiate the
euclidean length `elen` on concrete inputs.  On points whose squared
distance is the square of a natural number (all concrete inputs below) it
coincides with the euclidean distance. -/
def qlen (p q : Point) : ℚ := (isqrt (dist2 p q).num.toNat : ℚ)

/-- The skeleton value of the source: `vertices` (3-D points), `edges`
(pairs of vertex indices), `radii` (one rational per vertex).  The opaque
`id` attribute is not consulted by any claim and is omitted. -/
structure Skel where
  vertices : List Point
  edges : List (ℕ × ℕ)
  radii : List ℚ
deriving Repr, DecidableEq

/-- Number of vertices. -/
def Skel.n (s : Skel) : ℕ := s.vertices.length

/-- Vertex lookup (total, with junk default out of range as the embedding
of `nodes[i]`; claims only evaluate it in range). -/
def Skel.vert (s : Skel) (i : ℕ) : Point := s.vertices.getD i ((0 : ℚ), (0 : ℚ), (0 : ℚ))

/-- Radius lookup. -/
def Skel.rad (s : Skel) (i : ℕ) : ℚ := s.radii.getD i 0

/-- Modelled from the spec: the external skeleton library's `empty()`
predicate ("Empty skeleton … return input unchanged"); a skeleton with no
vertices is empty. -/
def Skel.isEmptySkel (s : Skel) : Prop := s.vertices = []

instance (s : Skel) : Decidable s.isEmptySkel := by
  unfold Skel.isEmptySkel; infer_instance

/-- Well-formed skeleton: edge endpoints are valid vertex indices, no
self-loop edges, radii aligned with vertices. -/
def Wf (s : Skel) : Prop :=
  (∀ e ∈ s.edges, e.1 < s.n ∧ e.2 < s.n ∧ e.1 ≠ e.2) ∧ s.radii.length = s.n

instance (s : Skel) : Decidable (Wf s) := by
  unfold Wf; infer_instance

/-! ### Undirected graphs as lists of index pairs -/

/-- `u`–`v` is an edge of the list (in either orientation). -/
def EMem (es : List (ℕ × ℕ)) (u v : ℕ) : Prop := (u, v) ∈ es ∨ (v, u) ∈ es

instance (es : List (ℕ × ℕ)) (u v : ℕ) : Decidable (EMem es u v) := by
  unfold EMem; infer_instance

/-- Connectivity: reflexive-transitive closure of edge adjacency. -/
def Conn (es : List (ℕ × ℕ)) (u v : ℕ) : Prop :=
  Relation.ReflTransGen (EMem es) u v

/-- All endpoints occurring in an edge list. -/
def vertsOf (es : List (ℕ × ℕ)) : List ℕ := es.map Prod.fst ++ es.map Prod.snd

/-- Both endpoints of every pair in a list. -/
def endpointsL (l : List (ℕ × ℕ)) : List ℕ :=
  l.foldr (fun e acc => e.1 :: e.2 :: acc) []

/-- One breadth-first expansion step of a reached set. -/
def expand (es : List (ℕ × ℕ)) (S : List ℕ) : List ℕ :=
  (S ++ endpointsL (es.filter (fun e => decide (e.1 ∈ S) || decide (e.2 ∈ S)))).dedup

/-- Iterated expansion. -/
def reachN : ℕ → List (ℕ × ℕ) → List ℕ → List ℕ
  | 0, _, S => S
  | n + 1, es, S => reachN n es (expand es S)

/-- The set of vertices reachable from `u` (breadth-first closure with
enough fuel to saturate). -/
def reachList (es : List (ℕ × ℕ)) (u : ℕ) : List ℕ :=
  reachN ((vertsOf es).length + 1) es [u]

/-- Same elements (lists as sets). -/
def SEq (S T : List ℕ) : Prop := ∀ x, x ∈ S ↔ x ∈ T

/-- Decidable connectivity test used by the embedded algorithms. -/
def connB (es : List (ℕ × ℕ)) (u v : ℕ) : Bool := decide (v ∈ reachList es u)

/-! ### Acyclicity (set semantics on undirected edges) -/

/-- Whether two index pairs denote the same undirected edge. -/
def samePair (e : ℕ × ℕ) (u v : ℕ) : Prop :=
  (e.1 = u ∧ e.2 = v) ∨ (e.1 = v ∧ e.2 = u)

instance (e : ℕ × ℕ) (u v : ℕ) : Decidable (samePair e u v) := by
  unfold samePair; infer_instance

/-- Remove every copy of the undirected edge `u`–`v`. -/
def eraseE (es : List (ℕ × ℕ)) (u v : ℕ) : List (ℕ × ℕ) :=
  es.filter (fun e => decide ¬ samePair e u v)

/-- No cycles: every listed edge is a non-self-loop bridge (its endpoints
are disconnected once the undirected edge is removed). -/
def Acyclic (es : List (ℕ × ℕ)) : Prop :=
  ∀ e ∈ es, e.1 ≠ e.2 ∧ ¬ Conn (eraseE es e.1 e.2) e.1 e.2

/-- Executable acyclicity test. -/
def acyclicB (es : List (ℕ × ℕ)) : Bool :=
  es.all (fun e => !(e.1 == e.2) && !(connB (eraseE es e.1 e.2) e.1 e.2))

/-- Undirected sub-edge-set relation. -/
def USub (es es' : List (ℕ × ℕ)) : Prop := ∀ u v, EMem es u v → EMem es' u v

/-- Relabel the endpoints of every edge. -/
def mapEdges (f : ℕ → ℕ) (es : List (ℕ × ℕ)) : List (ℕ × ℕ) :=
  es.map (fun e => (f e.1, f e.2))

/-! ### Skeleton support operations (split, merge, consolidate)

`components`, `cable_length`, `simple_merge`, `consolidate` and `empty`
live in the external skeleton library (cloudvolume's
`PrecomputedSkeleton`), not in this repository; they are modelled from the
spec §4.5 / §3. -/

/-- Degree of `v` as the number of occurrences of `v` among edge rows
(`np.unique(edges, return_counts=True)` semantics). -/
def degOcc (es : List (ℕ × ℕ)) (v : ℕ) : ℕ :=
  es.countP (fun e => decide (e.1 = v)) + es.countP (fun e => decide (e.2 = v))

/-- Modelled from the spec: *Consolidate* — "Remove vertices with degree 0;
reindex remaining vertices to a compact range; rewrite edges; shrink
radii." -/
def consolidate (s : Skel) : Skel :=
  let keep := (List.range s.n).filter (fun v => decide (0 < degOcc s.edges v))
  ⟨keep.map s.vert, mapEdges (fun v => keep.indexOf v) s.edges, keep.map s.rad⟩

/-- Modelled from the spec: *Simple merge* — "Concatenate
vertex/edge/radius arrays of several skeletons, shifting each successor's
edge indices by the cumulative vertex count of predecessors." -/
def simple_merge (l : List Skel) : Skel :=
  l.foldl
    (fun acc t =>
      ⟨acc.vertices ++ t.vertices,
        acc.edges ++ mapEdges (fun v => v + acc.n) t.edges,
        acc.radii ++ t.radii⟩)
    ⟨[], [], []⟩

/-- Members of the connected class of representative `r` among vertex
indices `[0, n)`. -/
def compMembers (es : List (ℕ × ℕ)) (n r : ℕ) : List ℕ :=
  (List.range n).filter (fun v => connB es r v)

/-- Minimal representatives of the connected classes of `[0, n)`. -/
def compReps (es : List (ℕ × ℕ)) (n : ℕ) : List ℕ :=
  (List.range n).filter (fun v => decide (∀ u < v, connB es u v = false))

/-- The sub-skeleton induced by a vertex-index list `vs` (vertices and
radii gathered in order, edges with both endpoints in `vs` reindexed by
position in `vs`). -/
def subSkel (s : Skel) (vs : List ℕ) : Skel :=
  ⟨vs.map s.vert,
    (s.edges.filter (fun e => decide (e.1 ∈ vs) && decide (e.2 ∈ vs))).map
      (fun e => (vs.indexOf e.1, vs.indexOf e.2)),
    vs.map s.rad⟩

/-- Modelled from the spec: the external library's `components()` —
"Standard undirected connected-components over vertices", component lists
ordered by minimum vertex index (§5). -/
def components (s : Skel) : List Skel :=
  (compReps s.edges s.n).map (fun r => subSkel s (compMembers s.edges s.n r))

/-- Modelled from the spec: cable length — "sum of euclidean lengths of
its edges" — with the euclidean length abstracted as `elen`. -/
def cable_length (elen : Point → Point → ℚ) (s : Skel) : ℚ :=
  qsum (s.edges.map (fun e => elen (s.vert e.1) (s.vert e.2)))

/-! ### Dust removal (`remove_dust`, postprocess.py lines 50–62) -/

/-- `remove_dust`: keep the components whose cable length strictly exceeds
the dust threshold, merge them back and consolidate; empty input is
returned as is. -/
def remove_dust (elen : Point → Point → ℚ) (s : Skel) (dust_threshold : ℚ) : Skel :=
  if s.isEmptySkel then s
  else
    consolidate (simple_merge
      ((components s).filter (fun c => decide (dust_threshold < cable_length elen c))))

/-! ### Piece connection (`connect_pieces`, postprocess.py lines 64–103) -/

/-- `combination_pairs(n)`: all index pairs `(i, i+j+1)` in lexicographic
order. -/
def combination_pairs (n : ℕ) : List (ℕ × ℕ) :=
  ((List.range n).map (fun i => (List.range (n - i - 1)).map (fun j => (i, i + j + 1)))).flatten

/-- `find_connected(nodes, edges)`: the boolean component masks, in label
order, of those connected classes of `[0, n)` that contain at least one
vertex occurring in an edge (each mask represented by its list of member
indices). -/
def find_connected (n : ℕ) (es : List (ℕ × ℕ)) : List (List ℕ) :=
  ((List.range n).filter (fun v =>
      decide (v ∈ vertsOf es) && decide (∀ u < v, connB es u v = false))).map
    (fun r => compMembers es n r)

/-- First element of a list minimizing `f` (ties resolved to the earliest
element, as `np.argmin`/`np.min` + first `np.where` match do). -/
def argminL {α : Type} (f : α → ℚ) : List α → Option α
  | [] => none
  | x :: xs => some (xs.foldl (fun b y => if f y < f b then y else b) x)

/-- The nearest vertex of `Q` to `p` (the `cKDTree.query` step; ties to
the earliest member of `Q`). -/
def nearestIn (elen : Point → Point → ℚ) (s : Skel) (Q : List ℕ) (p : ℕ) : ℕ :=
  (argminL (fun q => elen (s.vert p) (s.vert q)) Q).getD 0

/-- One examined component pair of `connect_pieces`: find `(p*, q*)`
minimizing the distance from `p ∈ P` to its nearest neighbour `q* ∈ Q`,
and return it if the radius gate `radii[p*] + radii[q*] ≥ d` passes. -/
def tryPair (elen : Point → Point → ℚ) (s : Skel) (P Q : List ℕ) : Option (ℕ × ℕ) :=
  match argminL (fun p => elen (s.vert p) (s.vert (nearestIn elen s Q p))) P with
  | none => none
  | some pStar =>
    let qStar := nearestIn elen s Q pStar
    if qadd (s.rad pStar) (s.rad qStar) ≥ elen (s.vert pStar) (s.vert qStar) then
      some (pStar, qStar)
    else none

/-- One full sweep over component pairs (in lexicographic order): the
first bridge some pair admits, if any. -/
def sweepPairs (elen : Point → Point → ℚ) (s : Skel) (es : List (ℕ × ℕ)) :
    Option (ℕ × ℕ) :=
  let comps := find_connected s.n es
  (combination_pairs comps.length).findSome?
    (fun ij => tryPair elen s (comps.getD ij.1 []) (comps.getD ij.2 []))

/-- The `while all_connected` loop of `connect_pieces`: after every added
bridge the components are recomputed from scratch. -/
def connectLoop (elen : Point → Point → ℚ) (s : Skel) :
    ℕ → List (ℕ × ℕ) → Option (List (ℕ × ℕ))
  | 0, _ => none
  | fuel + 1, es =>
    match sweepPairs elen s es with
    | none => some es
    | some e => connectLoop elen s fuel (es ++ [(e.1, e.2)])

/-- `connect_pieces`: repeatedly bridge the closest radius-admissible pair
of components, then consolidate. -/
def connect_pieces (elen : Point → Point → ℚ) (fuel : ℕ) (s : Skel) : Option Skel :=
  if s.isEmptySkel then some s
  else (connectLoop elen s fuel s.edges).map
    (fun es => consolidate ⟨s.vertices, es, s.radii⟩)

/-! ### Loop removal (`remove_loops`, postprocess.py lines 302–407) -/

/-- Row-wise `np.sort(e, axis=1)`. -/
def sortPair (e : ℕ × ℕ) : ℕ × ℕ := if e.1 ≤ e.2 then e else (e.2, e.1)

/-- Ascending list of the distinct members of `l` (`np.unique`). -/
def uniqueSorted (l : List ℕ) : List ℕ :=
  (List.range (l.foldr max 0 + 1)).filter (fun v => decide (v ∈ l))

/-- `remove_row(array, rows2remove)`: both sides are row-sorted, then every
row of the array equal to some row to remove is deleted (the source
collects all matching indices per row and `np.delete`s them). -/
def remove_row (arr rows : List (ℕ × ℕ)) : List (ℕ × ℕ) :=
  let rows2 := rows.map sortPair
  (arr.map sortPair).filter (fun e => decide (e ∉ rows2))

/-- `path2edge(path)`: consecutive pairs of a vertex path. -/
def path2edge (path : List ℕ) : List (ℕ × ℕ) := path.zip path.tail

/-- `networkx` undirected edge insertion: add each edge unless already
present in either orientation. -/
def nxAddEdges (G new : List (ℕ × ℕ)) : List (ℕ × ℕ) :=
  new.foldl (fun acc e => if EMem acc e.1 e.2 then acc else acc ++ [e]) G

/-- `networkx` `remove_edges_from`: drop the listed undirected edges
(missing edges are ignored). -/
def nxRemoveEdges (G rem : List (ℕ × ℕ)) : List (ℕ × ℕ) :=
  G.filter (fun e => decide (¬ ∃ r ∈ rem, samePair e r.1 r.2))

/-- Neighbours of `v` in edge-list order. -/
def nbrs (G : List (ℕ × ℕ)) (v : ℕ) : List ℕ :=
  G.foldr (fun e acc =>
    if e.1 = v then e.2 :: acc else if e.2 = v then e.1 :: acc else acc) []

/-- Breadth-first search step for `nx.shortest_path` (queue of
`(vertex, path-from-source)`; neighbours enqueued in adjacency order). -/
def bfsGo (G : List (ℕ × ℕ)) (tgt : ℕ) :
    ℕ → List (ℕ × List ℕ) → List ℕ → Option (List ℕ)
  | 0, _, _ => none
  | _ + 1, [], _ => none
  | fuel + 1, (v, path) :: queue, visited =>
    if v = tgt then some path
    else
      let cs := ((nbrs G v).dedup).filter (fun c => decide (c ∉ visited))
      bfsGo G tgt fuel (queue ++ cs.map (fun c => (c, path ++ [c]))) (visited ++ cs)

/-- `nx.shortest_path(G, src, tgt)` (hop-count shortest path; tie-breaking
follows the deterministic queue order of this model). -/
def bfsPath (G : List (ℕ × ℕ)) (src tgt : ℕ) : Option (List ℕ) :=
  bfsGo G tgt (2 * G.length + 2) [(src, [src])] [src]

/-- Undirected deduplication of an edge array. -/
def dedupeU (es : List (ℕ × ℕ)) : List (ℕ × ℕ) := nxAddEdges [] es

/-- Scan of the modelled cycle finder: process distinct undirected edges in
order, growing an acyclic prefix; the first edge closing a walk (or a
self-loop) yields the cycle, namely the closing edge together with the
path already connecting its endpoints. -/
def findCycleGo : List (ℕ × ℕ) → List (ℕ × ℕ) → List (ℕ × ℕ)
  | [], _ => []
  | e :: rest, acc =>
    if e.1 = e.2 then [e]
    else if connB acc e.1 e.2 then
      match bfsPath acc e.1 e.2 with
      | some p => path2edge p ++ [e]
      | none => [e]
    else findCycleGo rest (e :: acc)

/-- Modelled from the spec: `igneous.skeletontricks.find_cycle` (native
code not under `src/`) — "Find any cycle (a cyclically ordered set of
edges closing back on itself). If none, stop." and §9: "The source relies
on a native cycle-finding routine.  A re-implementation may use any
correct cycle detector"; duplicate rows of the edge array denote the same
undirected edge (the spec's data model has no parallel edges).  Returns
`[]` exactly on acyclic graphs. -/
def find_cycle (es : List (ℕ × ℕ)) : List (ℕ × ℕ) :=
  findCycleGo (dedupeU es) []

/-- First element of a list maximizing `f` (`np.argmax` keeps the first
maximum). -/
def argmaxL {α : Type} (f : α → ℚ) : List α → Option α
  | [] => none
  | x :: xs => some (xs.foldl (fun b y => if f b < f y then y else b) x)

/-- `skel.vertices[i,:]` with out-of-range reads defaulting to the origin
(never exercised on well-formed inputs). -/
def ptOf (nodes : List Point) (i : ℕ) : Point :=
  nodes.getD i ((0 : ℚ), (0 : ℚ), (0 : ℚ))

/-- `branch_cycle` of `_remove_loops`: the vertices of the returned cycle whose
degree in the full edge list is at least 3. -/
def branchCycleOf (edges cyc : List (ℕ × ℕ)) : List ℕ :=
  (uniqueSorted (endpointsL (cyc.map sortPair))).filter (fun v => decide (3 ≤ degOcc edges v))

/-- `np.mean(nodes[branch_cycle], axis=0)`: coordinatewise mean of the
branch-cycle vertices. -/
def centroidOf (nodes : List Point) (B : List ℕ) : Point :=
  (qdivN (qsum ((B.map (ptOf nodes)).map (fun p => p.1))) B.length,
    qdivN (qsum ((B.map (ptOf nodes)).map (fun p => p.2.1))) B.length,
    qdivN (qsum ((B.map (ptOf nodes)).map (fun p => p.2.2))) B.length)

/-- One iteration body of the `_remove_loops` `while` loop, dispatching on
the number of branch vertices on the detected cycle, returning the updated
`(G, edges)` double bookkeeping. -/
def removeLoopStep (nodes : List Point) (G edges : List (ℕ × ℕ))
    (cyc : List (ℕ × ℕ)) : List (ℕ × ℕ) × List (ℕ × ℕ) :=
  let edges_cycle := cyc.map sortPair
  let nodes_cycle := uniqueSorted (endpointsL edges_cycle)
  let branch_cycle := branchCycleOf edges cyc
  if branch_cycle.length = 1 then
    let b := branch_cycle.getD 0 0
    let end_node := (argmaxL (fun v => dist2 (ptOf nodes v) (ptOf nodes b)) nodes_cycle).getD 0
    (nxAddEdges (nxRemoveEdges G edges_cycle) [(b, end_node)],
      remove_row edges edges_cycle ++ [(b, end_node)])
  else if branch_cycle.length = 2 then
    let path := (bfsPath G (branch_cycle.getD 0 0) (branch_cycle.getD 1 0)).getD []
    let edge_path := (path2edge path).map sortPair
    let rows := edges_cycle.filter (fun r => decide (r ∉ edge_path))
    (nxRemoveEdges G rows, remove_row edges rows)
  else if branch_cycle.length = 0 then
    (nxRemoveEdges G edges_cycle, remove_row edges edges_cycle)
  else
    let centroid := centroidOf nodes branch_cycle
    let intersect_node :=
      (argminL (fun i => dist2 (ptOf nodes i) centroid) (List.range nodes.length)).getD 0
    let star := (branch_cycle.filter (fun b => decide (b ≠ intersect_node))).map
      (fun b => (b, intersect_node))
    (nxAddEdges (nxRemoveEdges G edges_cycle) star,
      remove_row edges edges_cycle ++ star)

/-- The `while True` loop of `_remove_loops` (fuelled). -/
def loopIter (nodes : List Point) :
    ℕ → List (ℕ × ℕ) → List (ℕ × ℕ) → Option (List (ℕ × ℕ))
  | 0, _, _ => none
  | fuel + 1, G, edges =>
    let cyc := find_cycle edges
    if cyc = [] then some edges
    else
      let st := removeLoopStep nodes G edges cyc
      loopIter nodes fuel st.1 st.2

/-- `_remove_loops` on a single component: eliminate every cycle, keeping
vertices and radii. -/
def removeLoopsSingle (fuel : ℕ) (s : Skel) : Option Skel :=
  (loopIter s.vertices fuel (nxAddEdges [] s.edges) s.edges).map
    (fun es => ⟨s.vertices, es, s.radii⟩)

/-- `remove_loops`: loop removal per component, merged and consolidated. -/
def remove_loops (fuel : ℕ) (s : Skel) : Option Skel :=
  if s.isEmptySkel then some s
  else ((components s).mapM (removeLoopsSingle fuel)).map
    (fun l => consolidate (simple_merge l))

/-! ### Tick removal (`remove_ticks`, postprocess.py lines 105–300) -/

/-- Association-list update-or-append for the distance supergraph
(`defaultdict` assignment: existing keys are overwritten in place, new
keys appended). -/
def dgUpdate (dg : List ((ℕ × ℕ) × ℚ)) (k : ℕ × ℕ) (v : ℚ) :
    List ((ℕ × ℕ) × ℚ) :=
  if dg.any (fun kv => kv.1 = k) then
    dg.map (fun kv => if kv.1 = k then (k, v) else kv)
  else dg ++ [(k, v)]

/-- Iterative depth-first traversal of `_create_distance_graph`: frames of
`(node, parent, accumulated distance, root critical vertex)`, popping from
the top and emitting a superedge whenever a critical vertex other than the
current root is reached. -/
def dfsGo (elen : Point → Point → ℚ) (nodes : List Point) (adj : ℕ → List ℕ)
    (crit : List ℕ) :
    ℕ → List (ℕ × Option ℕ × ℚ × ℕ) → List ((ℕ × ℕ) × ℚ) →
      Option (List ((ℕ × ℕ) × ℚ))
  | 0, stack, dg => if stack = [] then some dg else none
  | _ + 1, [], dg => some dg
  | fuel + 1, (node, parent, dist, root) :: stack, dg =>
    let pt := fun i => nodes.getD i ((0 : ℚ), (0 : ℚ), (0 : ℚ))
    let emit := node ∈ crit ∧ node ≠ root
    let dg1 := if emit then dgUpdate dg (root, node) dist else dg
    let dist1 := if emit then 0 else dist
    let root1 := if emit then node else root
    let newFrames := ((adj node).filter (fun c => decide (some c ≠ parent))).foldl
      (fun acc c => (c, some node, qadd dist1 (elen (pt node) (pt c)), root1) :: acc) []
    dfsGo elen nodes adj crit fuel (newFrames ++ stack) dg1

/-- `_create_distance_graph`: the critical-point distance supergraph of a
single connected component, built by iterative DFS from the first terminal
(`none` when the source would raise — no terminal — or the DFS does not
terminate within the fuel, as on cyclic inputs). -/
def _create_distance_graph (elen : Point → Point → ℚ) (fuel : ℕ) (s : Skel) :
    Option (List ((ℕ × ℕ) × ℚ)) :=
  let terminal_nodes := (uniqueSorted (endpointsL s.edges)).filter
    (fun v => decide (degOcc s.edges v = 1))
  let branch_nodes := (uniqueSorted (endpointsL s.edges)).filter
    (fun v => decide (3 ≤ degOcc s.edges v))
  let crit := terminal_nodes ++ branch_nodes
  match terminal_nodes with
  | [] => none
  | t :: _ =>
    dfsGo elen s.vertices (fun v => (nbrs s.edges v).dedup) crit fuel
      [(t, none, 0, t)] []

/-- Initial `branch_counts` table: `defaultdict(int)` filled only at the
indices of `np.unique` counts that are `≥ 3`. -/
def initBranchCounts (es : List (ℕ × ℕ)) : ℕ → ℤ :=
  let unique_nodes := uniqueSorted (endpointsL es)
  let branch_sel := unique_nodes.filter (fun v => decide (3 ≤ degOcc es v))
  fun v => if v ∈ branch_sel then (degOcc es v : ℤ) else 0

/-- `fuse_edge(edg1)`: remove the superedges containing the fused vertex,
re-insert one superedge between the two remaining endpoints carrying the
summed weight.  `tuple(set)` order is unspecified in the source; this
model orders the new key ascending.  Outside the two-endpoint case the
source would build a malformed key; the model drops the entry. -/
def fuse_edge (x : ℕ) (dg : List ((ℕ × ℕ) × ℚ)) : List ((ℕ × ℕ) × ℚ) :=
  let unify := dg.filter (fun kv => decide (kv.1.1 = x ∨ kv.1.2 = x))
  let rest := dg.filter (fun kv => decide (¬ (kv.1.1 = x ∨ kv.1.2 = x)))
  let newDist := qsum (unify.map (fun kv => kv.2))
  let eps := (uniqueSorted (endpointsL (unify.map (fun kv => kv.1)))).filter
    (fun v => decide (v ≠ x))
  match eps with
  | [a, b] => rest ++ [((a, b), newDist)]
  | [a] => rest ++ [((a, a), newDist)]
  | _ => rest

/-- Pointwise update of the branch-count table. -/
def bcSet (bc : ℕ → ℤ) (k : ℕ) (v : ℤ) : ℕ → ℤ :=
  fun w => if w = k then v else bc w

/-- The pruning loop of `_remove_ticks` (`while len(dgraph) > 1`): select
the minimum-weight superedge with a terminal endpoint, stop on the
single-path or threshold conditions, else delete its full-graph path,
decrement branch counts and fuse degenerate vertices. -/
def ticksLoop (terminal : List ℕ) (threshold : ℚ) :
    ℕ → List ((ℕ × ℕ) × ℚ) → List (ℕ × ℕ) → (ℕ → ℤ) →
      Option (List (ℕ × ℕ))
  | 0, _, _, _ => none
  | fuel + 1, dg, G, bc =>
    if dg.length ≤ 1 then some G
    else
      let tse := dg.filter (fun kv =>
        decide (kv.1.1 ∈ terminal ∨ kv.1.2 ∈ terminal))
      match argminL (fun kv => kv.2) tse with
      | none => none
      | some kv =>
        let e1 := kv.1.1
        let e2 := kv.1.2
        if bc e1 = 1 ∧ bc e2 = 1 then some G
        else if kv.2 ≥ threshold then some G
        else
          match bfsPath G e1 e2 with
          | none => none
          | some p =>
            let G1 := nxRemoveEdges G (path2edge p)
            let dg1 := dg.filter (fun kv2 => decide (kv2.1 ≠ kv.1))
            let bc1 := bcSet bc e1 (bc e1 - 1)
            let bc2 := bcSet bc1 e2 (bc1 e2 - 1)
            let dg2 := if bc2 e1 = 2 then fuse_edge e1 dg1 else dg1
            let bc3 := if bc2 e1 = 2 then bcSet bc2 e1 0 else bc2
            let dg3 := if bc3 e2 = 2 then fuse_edge e2 dg2 else dg2
            let bc4 := if bc3 e2 = 2 then bcSet bc3 e2 0 else bc3
            ticksLoop terminal threshold fuel dg3 G1 bc4

/-- `_remove_ticks` on a single connected component. -/
def removeTicksSingle (elen : Point → Point → ℚ) (fuel : ℕ) (s : Skel)
    (threshold : ℚ) : Option Skel :=
  if s.isEmptySkel then some s
  else
    match _create_distance_graph elen fuel s with
    | none => none
    | some dg =>
      let terminal := (uniqueSorted (endpointsL s.edges)).filter
        (fun v => decide (degOcc s.edges v = 1))
      match ticksLoop terminal threshold fuel dg (nxAddEdges [] s.edges)
          (initBranchCounts s.edges) with
      | none => none
      | some G => some (consolidate ⟨s.vertices, G, s.radii⟩)

/-- `remove_ticks`: tick removal per component, merged and consolidated. -/
def remove_ticks (elen : Point → Point → ℚ) (fuel : ℕ) (s : Skel)
    (threshold : ℚ) : Option Skel :=
  if s.isEmptySkel then some s
  else ((components s).mapM (fun c => removeTicksSingle elen fuel c threshold)).map
    (fun l => consolidate (simple_merge l))

/-! ### Structural theory of merge / components / consolidate -/

/-- Two-skeleton merge (the step of `simple_merge`'s fold). -/
def app2 (a t : Skel) : Skel :=
  ⟨a.vertices ++ t.vertices,
    a.edges ++ mapEdges (fun v => v + a.n) t.edges,
    a.radii ++ t.radii⟩

/-- Edge-endpoint bound (block well-formedness). -/
def WfE (s : Skel) : Prop := ∀ e ∈ s.edges, e.1 < s.n ∧ e.2 < s.n

instance (s : Skel) : Decidable (WfE s) := by
  unfold WfE
  infer_instance

/-- A block suitable for reassembly: bounded edges, connected, nonempty,
aligned radii. -/
def GoodBlock (c : Skel) : Prop :=
  WfE c ∧ (∀ i j, i < c.n → j < c.n → Conn c.edges i j) ∧ 0 < c.n ∧
    c.radii.length = c.n

/-- No isolated vertices. -/
def NoIso (c : Skel) : Prop := ∀ v < c.n, 0 < degOcc c.edges v

/-! ### The pipeline (`trim_skeleton`, postprocess.py lines 18–23) -/

/-- `trim_skeleton`: dust removal, loop removal, piece connection, tick
removal, in that order. -/
def trim_skeleton (elen : Point → Point → ℚ) (fuel : ℕ) (s : Skel)
    (dust_threshold tick_threshold : ℚ) : Option Skel := do
  let s1 := remove_dust elen s dust_threshold
  let s2 ← remove_loops fuel s1
  let s3 ← connect_pieces elen fuel s2
  remove_ticks elen fuel s3 tick_threshold

/-! ### Concrete inputs for witnesses and counterexamples

All geometry is axis-aligned so that every relevant distance is a natural
number, on which `qlen` coincides with the euclidean distance (certified
through `dist2` inside the theorems). -/

/-- A Y-shaped skeleton: branch vertex at the origin, three axis-aligned
arms of length 2000 nm. -/
def Ysk : Skel :=
  ⟨[((0 : ℚ), (0 : ℚ), (0 : ℚ)), ((2000 : ℚ), (0 : ℚ), (0 : ℚ)),
      ((0 : ℚ), (2000 : ℚ), (0 : ℚ)), ((0 : ℚ), (0 : ℚ), (2000 : ℚ))],
    [(0, 1), (0, 2), (0, 3)],
    [1, 1, 1, 1]⟩

/-- `trim_skeleton qlen 20 Ysk 4000 6000`: the tick pass prunes one arm,
leaving a two-edge path of cable length 4000. -/
def YskTrimmed : Skel :=
  ⟨[((0 : ℚ), (0 : ℚ), (0 : ℚ)), ((0 : ℚ), (2000 : ℚ), (0 : ℚ)),
      ((0 : ℚ), (0 : ℚ), (2000 : ℚ))],
    [(0, 1), (0, 2)],
    [1, 1, 1]⟩

/-- Two collinear three-vertex paths along the x axis with a 10 nm gap
between vertices 2 and 3, all radii 3 (spec §8 scenario 5). -/
def GapSk : Skel :=
  ⟨[((0 : ℚ), 0, 0), ((10 : ℚ), 0, 0), ((20 : ℚ), 0, 0), ((30 : ℚ), 0, 0),
      ((40 : ℚ), 0, 0), ((50 : ℚ), 0, 0)],
    [(0, 1), (1, 2), (3, 4), (4, 5)],
    [3, 3, 3, 3, 3, 3]⟩

/-- The radius-6 variant of `GapSk` (spec §8 scenario 4). -/
def Gap6Sk : Skel :=
  ⟨[((0 : ℚ), 0, 0), ((10 : ℚ), 0, 0), ((20 : ℚ), 0, 0), ((30 : ℚ), 0, 0),
      ((40 : ℚ), 0, 0), ((50 : ℚ), 0, 0)],
    [(0, 1), (1, 2), (3, 4), (4, 5)],
    [6, 6, 6, 6, 6, 6]⟩

/-- Triangle-with-chords skeleton: a 3-cycle on vertices `0, 1, 2`, each pair
of cycle vertices also joined by a two-edge path through a private midpoint
(vertices `3, 4, 5`), and vertex `6` placed at the centroid of `{0, 1, 2}`. -/
def TriSk : Skel :=
  ⟨[((0 : ℚ), 0, 0), ((12 : ℚ), 0, 0), ((6 : ℚ), 9, 0), ((6 : ℚ), -9, 0),
      ((15 : ℚ), 6, 0), ((-3 : ℚ), 6, 0), ((6 : ℚ), 3, 0)],
    [(0, 1), (1, 2), (0, 2), (0, 3), (3, 1), (1, 4), (4, 2), (0, 5), (5, 2)],
    [1, 1, 1, 1, 1, 1, 1]⟩

/-- The number of distinct undirected edges of `es` lying on some cycle:
self-loops, plus edges whose endpoints remain connected once the edge is
removed. -/
def cycEdgeCount (es : List (ℕ × ℕ)) : ℕ :=
  (dedupeU es).countP (fun e => decide (e.1 = e.2) || connB (eraseE es e.1 e.2) e.1 e.2)

/-! ### Theorems -/

theorem ngcd_eq : ∀ (f a b : ℕ), a ≤ f → ngcd f a b = Nat.gcd a b := by
  intro f
  induction f with
  | zero =>
    intro a b ha
    interval_cases a
    simp [ngcd]
  | succ f ih =>
    intro a b ha
    unfold ngcd
    by_cases h0 : a = 0
    · simp [h0]
    · have h1 : b % a < a := Nat.mod_lt b (Nat.pos_of_ne_zero h0)
      rw [if_neg h0, ih (b % a) a (by omega)]
      exact (Nat.gcd_rec a b).symm

theorem qgcd_eq (a b : ℕ) : qgcd a b = Nat.gcd a b :=
  ngcd_eq (a + 1) a b (Nat.le_succ a)

theorem qmk_eq_mkRat (n : ℤ) (d : ℕ) : qmk n d = mkRat n d := by
  rw [qmk, Rat.mkRat_def]
  split
  · rfl
  · rw [Rat.normalize_eq]
    refine Rat.ext ?_ ?_ <;> simp [qgcd_eq]

theorem qadd_eq (a b : ℚ) : qadd a b = a + b := by
  rw [qadd, qmk_eq_mkRat]
  exact (Rat.add_def' a b).symm

theorem qsub_eq (a b : ℚ) : qsub a b = a - b := by
  rw [qsub, qmk_eq_mkRat]
  exact (Rat.sub_def' a b).symm

theorem qmul_eq (a b : ℚ) : qmul a b = a * b := by
  rw [qmul, qmk_eq_mkRat, ← Rat.normalize_eq_mkRat (Nat.mul_ne_zero a.den_nz b.den_nz)]
  exact (Rat.mul_def a b).symm

theorem qdivN_eq (a : ℚ) (k : ℕ) : qdivN a k = a / (k : ℚ) := by
  rw [qdivN, qmk_eq_mkRat, Rat.mkRat_eq_div]
  rcases Nat.eq_zero_or_pos k with rfl | hk
  · simp
  · rw [Nat.cast_mul, div_mul_eq_div_div, Rat.num_div_den]

theorem qsum_eq (l : List ℚ) : qsum l = l.sum := by
  induction l with
  | nil => rfl
  | cons x xs ih => rw [qsum, List.foldr_cons, qadd_eq, List.sum_cons, ← qsum, ih]

theorem dist2_eq (p q : Point) :
    dist2 p q = (p.1 - q.1) ^ 2 + (p.2.1 - q.2.1) ^ 2 + (p.2.2 - q.2.2) ^ 2 := by
  rw [dist2, qadd_eq, qadd_eq, qmul_eq, qmul_eq, qmul_eq, qsub_eq, qsub_eq, qsub_eq]
  ring

theorem EMem.swap {es : List (ℕ × ℕ)} {u v : ℕ} (h : EMem es u v) : EMem es v u :=
  h.elim .inr .inl

theorem EMem.mono {es es' : List (ℕ × ℕ)} (hsub : es ⊆ es') {u v : ℕ}
    (h : EMem es u v) : EMem es' u v :=
  h.elim (fun m => .inl (hsub m)) (fun m => .inr (hsub m))

theorem Conn.refl {es : List (ℕ × ℕ)} {u : ℕ} : Conn es u u :=
  Relation.ReflTransGen.refl

theorem Conn.trans {es : List (ℕ × ℕ)} {u v w : ℕ}
    (h1 : Conn es u v) (h2 : Conn es v w) : Conn es u w :=
  Relation.ReflTransGen.trans h1 h2

theorem Conn.symm {es : List (ℕ × ℕ)} {u v : ℕ} (h : Conn es u v) : Conn es v u :=
  Relation.ReflTransGen.symmetric (fun _ _ hab => hab.symm) h

theorem Conn.single {es : List (ℕ × ℕ)} {u v : ℕ} (h : EMem es u v) : Conn es u v :=
  Relation.ReflTransGen.single h

theorem Conn.sub {es es' : List (ℕ × ℕ)} (hsub : es ⊆ es') {u v : ℕ}
    (h : Conn es u v) : Conn es' u v := by
  induction h with
  | refl => exact Conn.refl
  | tail _ hstep ih => exact ih.tail (hstep.mono hsub)

theorem mem_vertsOf_of_emem {es : List (ℕ × ℕ)} {u v : ℕ} (h : EMem es u v) :
    u ∈ vertsOf es ∧ v ∈ vertsOf es := by
  rcases h with h | h
  · exact ⟨List.mem_append_left _ (List.mem_map_of_mem Prod.fst h),
      List.mem_append_right _ (List.mem_map_of_mem Prod.snd h)⟩
  · exact ⟨List.mem_append_right _ (List.mem_map_of_mem Prod.snd h),
      List.mem_append_left _ (List.mem_map_of_mem Prod.fst h)⟩

theorem mem_endpointsL {l : List (ℕ × ℕ)} {x : ℕ} :
    x ∈ endpointsL l ↔ ∃ e ∈ l, x = e.1 ∨ x = e.2 := by
  induction l with
  | nil => simp [endpointsL]
  | cons e tl ih =>
    simp only [endpointsL, List.foldr_cons, List.mem_cons] at *
    constructor
    · rintro (h | h | h)
      · exact ⟨e, .inl rfl, .inl h⟩
      · exact ⟨e, .inl rfl, .inr h⟩
      · obtain ⟨e', he', hx⟩ := ih.mp h
        exact ⟨e', .inr he', hx⟩
    · rintro ⟨e', (rfl | he'), hx⟩
      · rcases hx with h | h
        · exact .inl h
        · exact .inr (.inl h)
      · exact .inr (.inr (ih.mpr ⟨e', he', hx⟩))

theorem mem_expand {es : List (ℕ × ℕ)} {S : List ℕ} {x : ℕ} :
    x ∈ expand es S ↔
      x ∈ S ∨ ∃ e ∈ es, (e.1 ∈ S ∨ e.2 ∈ S) ∧ (x = e.1 ∨ x = e.2) := by
  unfold expand
  rw [List.mem_dedup, List.mem_append, mem_endpointsL]
  constructor
  · rintro (h | ⟨e, he, hx⟩)
    · exact .inl h
    · rw [List.mem_filter] at he
      refine .inr ⟨e, he.1, ?_, hx⟩
      have := he.2
      simp only [Bool.or_eq_true, decide_eq_true_eq] at this
      exact this
  · rintro (h | ⟨e, he, hS, hx⟩)
    · exact .inl h
    · refine .inr ⟨e, ?_, hx⟩
      rw [List.mem_filter]
      exact ⟨he, by simp only [Bool.or_eq_true, decide_eq_true_eq]; exact hS⟩

theorem subset_expand {es : List (ℕ × ℕ)} {S : List ℕ} : S ⊆ expand es S :=
  fun _ hx => mem_expand.mpr (.inl hx)

theorem SEq.self {S : List ℕ} : SEq S S := fun _ => Iff.rfl

theorem expand_congr {es : List (ℕ × ℕ)} {S T : List ℕ} (h : SEq S T) :
    SEq (expand es S) (expand es T) := by
  intro x
  rw [mem_expand, mem_expand]
  constructor
  · rintro (hx | ⟨e, he, hS, hx⟩)
    · exact .inl ((h x).mp hx)
    · exact .inr ⟨e, he, hS.imp (h e.1).mp (h e.2).mp, hx⟩
  · rintro (hx | ⟨e, he, hS, hx⟩)
    · exact .inl ((h x).mpr hx)
    · exact .inr ⟨e, he, hS.imp (h e.1).mpr (h e.2).mpr, hx⟩

theorem reachN_congr {es : List (ℕ × ℕ)} :
    ∀ (n : ℕ) {S T : List ℕ}, SEq S T → SEq (reachN n es S) (reachN n es T)
  | 0, _, _, h => h
  | n + 1, _, _, h => reachN_congr n (expand_congr h)

theorem reachN_closed_stable {es : List (ℕ × ℕ)} :
    ∀ (n : ℕ) {S : List ℕ}, expand es S ⊆ S → SEq (reachN n es S) S
  | 0, _, _ => SEq.self
  | n + 1, S, h => by
    have heq : SEq (expand es S) S := fun x => ⟨fun hx => h hx, fun hx => subset_expand hx⟩
    intro x
    show x ∈ reachN n es (expand es S) ↔ x ∈ S
    exact (reachN_congr n heq x).trans (reachN_closed_stable n h x)

theorem expand_growth {es : List (ℕ × ℕ)} {S : List ℕ}
    (h : ¬ expand es S ⊆ S) :
    S.toFinset.card + 1 ≤ (expand es S).toFinset.card := by
  have hsub : S.toFinset ⊆ (expand es S).toFinset := by
    intro x hx
    rw [List.mem_toFinset] at *
    exact subset_expand hx
  obtain ⟨x, hx, hxS⟩ : ∃ x ∈ expand es S, x ∉ S := by
    by_contra hc
    push_neg at hc
    exact h hc
  have : S.toFinset ⊂ (expand es S).toFinset := by
    refine ⟨hsub, fun hss => hxS ?_⟩
    rw [← List.mem_toFinset]
    exact hss (List.mem_toFinset.mpr hx)
  exact Nat.succ_le_of_lt (Finset.card_lt_card this)

theorem reachN_saturates {es : List (ℕ × ℕ)} :
    ∀ (n : ℕ) (S : List ℕ),
      (∀ x, x ∈ expand es (reachN n es S) → x ∈ reachN n es S) ∨
        S.toFinset.card + n ≤ (reachN n es S).toFinset.card
  | 0, S => .inr (by simp [reachN])
  | n + 1, S => by
    rcases reachN_saturates n (expand es S) with h | h
    · exact .inl h
    · by_cases hc : expand es S ⊆ S
      · left
        have heq : SEq (reachN n es (expand es S)) S :=
          fun x => by
            have h1 := @reachN_congr es n (expand es S) S
              (fun y => ⟨fun hy => hc hy, fun hy => subset_expand hy⟩) x
            exact h1.trans (reachN_closed_stable n hc x)
        intro x hx
        show x ∈ reachN n es (expand es S)
        have hx' : x ∈ expand es S := by
          have := (expand_congr heq x).mp hx
          rcases (mem_expand.mp this) with h1 | h1
          · exact subset_expand h1
          · exact mem_expand.mpr (.inr h1)
        exact (heq x).mpr (hc hx')
      · right
        calc S.toFinset.card + (n + 1) = (S.toFinset.card + 1) + n := by ring
        _ ≤ (expand es S).toFinset.card + n := by
              have := expand_growth hc; omega
        _ ≤ (reachN n es (expand es S)).toFinset.card := h

theorem reachN_bounded {es : List (ℕ × ℕ)} :
    ∀ (n : ℕ) (S : List ℕ) (x : ℕ), x ∈ reachN n es S → x ∈ S ∨ x ∈ vertsOf es
  | 0, _, _, hx => .inl hx
  | n + 1, S, x, hx => by
    rcases reachN_bounded n (expand es S) x hx with h | h
    · rcases mem_expand.mp h with h1 | ⟨e, he, _, hxe⟩
      · exact .inl h1
      · right
        rcases hxe with rfl | rfl
        · exact List.mem_append_left _ (List.mem_map_of_mem Prod.fst he)
        · exact List.mem_append_right _ (List.mem_map_of_mem Prod.snd he)
    · exact .inr h

/-- The breadth-first closure is closed under one more expansion. -/
theorem reachList_closed {es : List (ℕ × ℕ)} {u : ℕ} :
    ∀ x, x ∈ expand es (reachList es u) → x ∈ reachList es u := by
  rcases @reachN_saturates es ((vertsOf es).length + 1) [u] with h | h
  · exact h
  · exfalso
    have hsub : (reachN ((vertsOf es).length + 1) es [u]).toFinset ⊆
        insert u (vertsOf es).toFinset := by
      intro x hx
      rw [List.mem_toFinset] at hx
      rcases reachN_bounded _ [u] x hx with h1 | h1
      · simp at h1; simp [h1]
      · exact Finset.mem_insert_of_mem (List.mem_toFinset.mpr h1)
    have h1 := Finset.card_le_card hsub
    have h2 : (insert u (vertsOf es).toFinset).card ≤ (vertsOf es).toFinset.card + 1 :=
      Finset.card_insert_le _ _
    have h3 : (vertsOf es).toFinset.card ≤ (vertsOf es).length :=
      (vertsOf es).toFinset_card_le
    have h4 : (([u] : List ℕ).toFinset).card = 1 := by simp
    rw [h4] at h
    omega

theorem reachN_mono {es : List (ℕ × ℕ)} :
    ∀ (n : ℕ) (S : List ℕ), S ⊆ reachN n es S
  | 0, _ => fun _ h => h
  | n + 1, S => fun _ hx => reachN_mono n (expand es S) (subset_expand hx)

theorem self_mem_reachList {es : List (ℕ × ℕ)} {u : ℕ} : u ∈ reachList es u :=
  reachN_mono _ [u] (List.mem_singleton_self u)

theorem reachN_sound {es : List (ℕ × ℕ)} {u : ℕ} :
    ∀ (n : ℕ) (S : List ℕ), (∀ s ∈ S, Conn es u s) →
      ∀ x ∈ reachN n es S, Conn es u x
  | 0, _, hS, x, hx => hS x hx
  | n + 1, S, hS, x, hx => by
    refine reachN_sound n (expand es S) ?_ x hx
    intro s hs
    rcases mem_expand.mp hs with h | ⟨e, he, hS', hse⟩
    · exact hS s h
    · rcases hS' with h1 | h1
      · rcases hse with rfl | rfl
        · exact hS _ h1
        · exact (hS _ h1).tail (.inl he)
      · rcases hse with rfl | rfl
        · exact (hS _ h1).tail (.inr he)
        · exact hS _ h1

/-- Correctness of the breadth-first closure: membership coincides with
graph connectivity. -/
theorem reachList_iff_conn {es : List (ℕ × ℕ)} {u v : ℕ} :
    v ∈ reachList es u ↔ Conn es u v := by
  constructor
  · intro hv
    exact reachN_sound _ [u] (fun s hs => by
      rw [List.mem_singleton] at hs; subst hs; exact Conn.refl) v hv
  · intro hconn
    induction hconn with
    | refl => exact self_mem_reachList
    | tail _ hstep ih =>
      refine reachList_closed _ (mem_expand.mpr (.inr ?_))
      rcases hstep with h | h
      · exact ⟨_, h, .inl ih, .inr rfl⟩
      · exact ⟨_, h, .inr ih, .inl rfl⟩

theorem connB_iff_conn {es : List (ℕ × ℕ)} {u v : ℕ} :
    connB es u v = true ↔ Conn es u v := by
  unfold connB
  rw [decide_eq_true_eq]
  exact reachList_iff_conn

theorem conn_ne_mem {es : List (ℕ × ℕ)} {x y : ℕ} (h : Conn es x y) :
    x = y ∨ (x ∈ vertsOf es ∧ y ∈ vertsOf es) := by
  induction h with
  | refl => exact .inl rfl
  | tail hxy hstep ih =>
    right
    obtain ⟨h1, h2⟩ := mem_vertsOf_of_emem hstep
    rcases ih with rfl | ⟨ha, _⟩
    · exact ⟨h1, h2⟩
    · exact ⟨ha, h2⟩

theorem mem_eraseE {es : List (ℕ × ℕ)} {u v : ℕ} {e : ℕ × ℕ} :
    e ∈ eraseE es u v ↔ e ∈ es ∧ ¬ samePair e u v := by
  unfold eraseE
  rw [List.mem_filter, decide_eq_true_eq]

theorem eraseE_subset {es : List (ℕ × ℕ)} {u v : ℕ} : eraseE es u v ⊆ es :=
  fun _ he => (mem_eraseE.mp he).1

theorem emem_eraseE {es : List (ℕ × ℕ)} {u v a b : ℕ} :
    EMem (eraseE es u v) a b ↔ EMem es a b ∧ ¬ samePair (a, b) u v := by
  unfold EMem
  rw [mem_eraseE, mem_eraseE]
  constructor
  · rintro (⟨h1, h2⟩ | ⟨h1, h2⟩)
    · exact ⟨.inl h1, h2⟩
    · refine ⟨.inr h1, fun hc => h2 ?_⟩
      unfold samePair at *
      tauto
  · rintro ⟨h1 | h1, h2⟩
    · exact .inl ⟨h1, h2⟩
    · refine .inr ⟨h1, fun hc => h2 ?_⟩
      unfold samePair at *
      tauto

theorem eraseE_comm {es : List (ℕ × ℕ)} {u v : ℕ} :
    eraseE es u v = eraseE es v u := by
  unfold eraseE
  refine List.filter_congr (fun e _ => ?_)
  have : samePair e u v ↔ samePair e v u := by unfold samePair; tauto
  simp [this]

theorem acyclicB_iff {es : List (ℕ × ℕ)} : acyclicB es = true ↔ Acyclic es := by
  unfold acyclicB Acyclic
  rw [List.all_eq_true]
  refine forall_congr' (fun e => forall_congr' (fun he => ?_))
  rw [Bool.and_eq_true, Bool.not_eq_true', Bool.not_eq_true', beq_eq_false_iff_ne,
    Bool.eq_false_iff]
  exact and_congr Iff.rfl (not_congr connB_iff_conn)

theorem acyclic_emem {es : List (ℕ × ℕ)} (h : Acyclic es) {u v : ℕ}
    (he : EMem es u v) : u ≠ v ∧ ¬ Conn (eraseE es u v) u v := by
  rcases he with he | he
  · exact h (u, v) he
  · obtain ⟨h1, h2⟩ := h (v, u) he
    refine ⟨h1.symm, fun hc => h2 ?_⟩
    rw [eraseE_comm]
    exact hc.symm

theorem Conn.usub {es es' : List (ℕ × ℕ)} (h : USub es es') {u v : ℕ}
    (hc : Conn es u v) : Conn es' u v := by
  induction hc with
  | refl => exact Conn.refl
  | tail _ hstep ih => exact ih.tail (h _ _ hstep)

theorem usub_eraseE {es es' : List (ℕ × ℕ)} (h : USub es es') (u v : ℕ) :
    USub (eraseE es u v) (eraseE es' u v) := by
  intro a b hab
  rw [emem_eraseE] at *
  exact ⟨h a b hab.1, hab.2⟩

/-- An undirected subgraph of an acyclic graph is acyclic. -/
theorem acyclic_usub {es es' : List (ℕ × ℕ)} (hsub : USub es' es)
    (h : Acyclic es) : Acyclic es' := by
  intro e he
  have hmem : EMem es e.1 e.2 := hsub e.1 e.2 (.inl he)
  obtain ⟨h1, h2⟩ := acyclic_emem h hmem
  exact ⟨h1, fun hc => h2 (hc.usub (usub_eraseE hsub e.1 e.2))⟩

/-- Decomposition of connectivity over a graph extended with one edge. -/
theorem conn_cons_decomp {es : List (ℕ × ℕ)} {a b x y : ℕ}
    (h : Conn ((a, b) :: es) x y) :
    Conn es x y ∨ (Conn es x a ∧ Conn es b y) ∨ (Conn es x b ∧ Conn es a y) := by
  induction h with
  | refl => exact .inl Conn.refl
  | @tail y' y hxy hstep ih =>
    have hstep' : EMem es y' y ∨ samePair (y', y) a b := by
      rcases hstep with h1 | h1
      · rcases List.mem_cons.mp h1 with h2 | h2
        · right; left; exact ⟨congrArg Prod.fst h2, congrArg Prod.snd h2⟩
        · exact .inl (.inl h2)
      · rcases List.mem_cons.mp h1 with h2 | h2
        · right; right; exact ⟨congrArg Prod.snd h2, congrArg Prod.fst h2⟩
        · exact .inl (.inr h2)
    rcases hstep' with h1 | h1
    · rcases ih with h2 | ⟨h2, h3⟩ | ⟨h2, h3⟩
      · exact .inl (h2.tail h1)
      · exact .inr (.inl ⟨h2, h3.tail h1⟩)
      · exact .inr (.inr ⟨h2, h3.tail h1⟩)
    · rcases h1 with ⟨rfl, rfl⟩ | ⟨rfl, rfl⟩
      · rcases ih with h2 | ⟨h2, _⟩ | ⟨h2, _⟩
        · exact .inr (.inl ⟨h2, Conn.refl⟩)
        · exact .inr (.inl ⟨h2, Conn.refl⟩)
        · exact .inl h2
      · rcases ih with h2 | ⟨h2, _⟩ | ⟨h2, _⟩
        · exact .inr (.inr ⟨h2, Conn.refl⟩)
        · exact .inl h2
        · exact .inr (.inr ⟨h2, Conn.refl⟩)

/-- Adding an edge between two vertices that are not yet connected
preserves acyclicity. -/
theorem acyclic_cons {es : List (ℕ × ℕ)} {a b : ℕ} (h : Acyclic es)
    (hne : a ≠ b) (hnc : ¬ Conn es a b) : Acyclic ((a, b) :: es) := by
  intro e he
  rcases List.mem_cons.mp he with rfl | he'
  · refine ⟨hne, fun hc => hnc ?_⟩
    have herase : eraseE ((a, b) :: es) a b = eraseE es a b := by
      unfold eraseE
      rw [List.filter_cons, if_neg]
      intro hdec
      rw [decide_eq_true_eq] at hdec
      exact hdec (Or.inl ⟨rfl, rfl⟩)
    rw [herase] at hc
    exact hc.usub (fun u v huv => (emem_eraseE.mp huv).1)
  · obtain ⟨h1, h2⟩ := h e he'
    refine ⟨h1, fun hc => ?_⟩
    by_cases hsp : samePair (a, b) e.1 e.2
    · apply hnc
      rcases hsp with ⟨rfl, rfl⟩ | ⟨rfl, rfl⟩
      · exact Conn.single (.inl he')
      · exact Conn.single (.inr he')
    · have herase : eraseE ((a, b) :: es) e.1 e.2 = (a, b) :: eraseE es e.1 e.2 := by
        unfold eraseE
        rw [List.filter_cons, if_pos (decide_eq_true hsp)]
      rw [herase] at hc
      rcases conn_cons_decomp hc with h3 | ⟨h3, h4⟩ | ⟨h3, h4⟩
      · exact h2 h3
      · apply hnc
        have c1 : Conn es e.1 a := h3.usub (fun u v huv => (emem_eraseE.mp huv).1)
        have c2 : Conn es b e.2 := h4.usub (fun u v huv => (emem_eraseE.mp huv).1)
        exact (c1.symm.trans
          (Conn.single (show EMem es e.1 e.2 from .inl he'))).trans c2.symm
      · apply hnc
        have c1 : Conn es e.1 b := h3.usub (fun u v huv => (emem_eraseE.mp huv).1)
        have c2 : Conn es a e.2 := h4.usub (fun u v huv => (emem_eraseE.mp huv).1)
        exact (c2.trans
          (Conn.single (show EMem es e.2 e.1 from .inr he'))).trans c1

theorem mem_vertsOf {es : List (ℕ × ℕ)} {x : ℕ} :
    x ∈ vertsOf es ↔ ∃ e ∈ es, x = e.1 ∨ x = e.2 := by
  unfold vertsOf
  rw [List.mem_append, List.mem_map, List.mem_map]
  constructor
  · rintro (⟨e, he, rfl⟩ | ⟨e, he, rfl⟩)
    · exact ⟨e, he, .inl rfl⟩
    · exact ⟨e, he, .inr rfl⟩
  · rintro ⟨e, he, rfl | rfl⟩
    · exact .inl ⟨e, he, rfl⟩
    · exact .inr ⟨e, he, rfl⟩

theorem vertsOf_subset {es es' : List (ℕ × ℕ)} (h : es ⊆ es') :
    ∀ x ∈ vertsOf es, x ∈ vertsOf es' := by
  intro x hx
  obtain ⟨e, he, hxe⟩ := mem_vertsOf.mp hx
  exact mem_vertsOf.mpr ⟨e, h he, hxe⟩

theorem emem_mapEdges {f : ℕ → ℕ} {es : List (ℕ × ℕ)} {a b : ℕ} :
    EMem (mapEdges f es) a b ↔
      ∃ e ∈ es, (a = f e.1 ∧ b = f e.2) ∨ (a = f e.2 ∧ b = f e.1) := by
  unfold EMem mapEdges
  rw [List.mem_map, List.mem_map]
  constructor
  · rintro (⟨e, he, hab⟩ | ⟨e, he, hab⟩)
    · exact ⟨e, he, .inl ⟨(congrArg Prod.fst hab).symm, (congrArg Prod.snd hab).symm⟩⟩
    · exact ⟨e, he, .inr ⟨(congrArg Prod.snd hab).symm, (congrArg Prod.fst hab).symm⟩⟩
  · rintro ⟨e, he, ⟨rfl, rfl⟩ | ⟨rfl, rfl⟩⟩
    · exact .inl ⟨e, he, rfl⟩
    · exact .inr ⟨e, he, rfl⟩

/-- A walk in a relabeled graph pulls back along an injective relabeling. -/
theorem conn_map_pullback {f : ℕ → ℕ} {es : List (ℕ × ℕ)}
    (hinj : ∀ x ∈ vertsOf es, ∀ y ∈ vertsOf es, f x = f y → x = y)
    {a b : ℕ} (h : Conn (mapEdges f es) a b) :
    a = b ∨ ∃ u v, u ∈ vertsOf es ∧ v ∈ vertsOf es ∧ f u = a ∧ f v = b ∧
      Conn es u v := by
  induction h with
  | refl => exact .inl rfl
  | @tail m y hxy hstep ih =>
    obtain ⟨e, he, hcase⟩ := emem_mapEdges.mp hstep
    have he1 : e.1 ∈ vertsOf es := mem_vertsOf.mpr ⟨e, he, .inl rfl⟩
    have he2 : e.2 ∈ vertsOf es := mem_vertsOf.mpr ⟨e, he, .inr rfl⟩
    rcases hcase with ⟨hm, hy⟩ | ⟨hm, hy⟩
    · rcases ih with rfl | ⟨u, v, hu, hv, hfu, hfv, hconn⟩
      · exact .inr ⟨e.1, e.2, he1, he2, hm.symm, hy.symm, Conn.single (.inl he)⟩
      · have : v = e.1 := hinj v hv e.1 he1 (hfv.trans hm)
        subst this
        exact .inr ⟨u, e.2, hu, he2, hfu, hy.symm, hconn.tail (.inl he)⟩
    · rcases ih with rfl | ⟨u, v, hu, hv, hfu, hfv, hconn⟩
      · exact .inr ⟨e.2, e.1, he2, he1, hm.symm, hy.symm, Conn.single (.inr he)⟩
      · have : v = e.2 := hinj v hv e.2 he2 (hfv.trans hm)
        subst this
        exact .inr ⟨u, e.1, hu, he1, hfu, hy.symm, hconn.tail (.inr he)⟩

theorem eraseE_mapEdges {f : ℕ → ℕ} {es : List (ℕ × ℕ)} {u v : ℕ}
    (hu : u ∈ vertsOf es) (hv : v ∈ vertsOf es)
    (hinj : ∀ x ∈ vertsOf es, ∀ y ∈ vertsOf es, f x = f y → x = y) :
    eraseE (mapEdges f es) (f u) (f v) = mapEdges f (eraseE es u v) := by
  unfold eraseE mapEdges
  rw [List.filter_map]
  congr 1
  refine List.filter_congr (fun e he => ?_)
  have he1 : e.1 ∈ vertsOf es := mem_vertsOf.mpr ⟨e, he, .inl rfl⟩
  have he2 : e.2 ∈ vertsOf es := mem_vertsOf.mpr ⟨e, he, .inr rfl⟩
  have : samePair (f e.1, f e.2) (f u) (f v) ↔ samePair e u v := by
    unfold samePair
    constructor
    · rintro (⟨h1, h2⟩ | ⟨h1, h2⟩)
      · exact .inl ⟨hinj _ he1 _ hu h1, hinj _ he2 _ hv h2⟩
      · exact .inr ⟨hinj _ he1 _ hv h1, hinj _ he2 _ hu h2⟩
    · rintro (⟨h1, h2⟩ | ⟨h1, h2⟩)
      · exact .inl ⟨congrArg f h1, congrArg f h2⟩
      · exact .inr ⟨congrArg f h1, congrArg f h2⟩
  simp [Function.comp, this]

/-- Injective relabeling preserves acyclicity. -/
theorem acyclic_mapEdges {f : ℕ → ℕ} {es : List (ℕ × ℕ)}
    (hinj : ∀ x ∈ vertsOf es, ∀ y ∈ vertsOf es, f x = f y → x = y)
    (h : Acyclic es) : Acyclic (mapEdges f es) := by
  intro e' he'
  obtain ⟨e, he, rfl⟩ := List.mem_map.mp he'
  have he1 : e.1 ∈ vertsOf es := mem_vertsOf.mpr ⟨e, he, .inl rfl⟩
  have he2 : e.2 ∈ vertsOf es := mem_vertsOf.mpr ⟨e, he, .inr rfl⟩
  obtain ⟨hne, hnc⟩ := h e he
  constructor
  · intro hc
    exact hne (hinj _ he1 _ he2 hc)
  · intro hc
    rw [show ((f e.1, f e.2) : ℕ × ℕ).1 = f e.1 from rfl,
      show ((f e.1, f e.2) : ℕ × ℕ).2 = f e.2 from rfl,
      eraseE_mapEdges he1 he2 hinj] at hc
    have hinj' : ∀ x ∈ vertsOf (eraseE es e.1 e.2), ∀ y ∈ vertsOf (eraseE es e.1 e.2),
        f x = f y → x = y := by
      intro x hx y hy
      exact hinj x (vertsOf_subset eraseE_subset x hx) y (vertsOf_subset eraseE_subset y hy)
    rcases conn_map_pullback hinj' hc with hc' | ⟨u, v, hu, hv, hfu, hfv, hconn⟩
    · exact hne (hinj _ he1 _ he2 hc')
    · have hu' : u = e.1 := hinj u (vertsOf_subset eraseE_subset u hu) e.1 he1 hfu
      have hv' : v = e.2 := hinj v (vertsOf_subset eraseE_subset v hv) e.2 he2 hfv
      subst hu'; subst hv'
      exact hnc hconn

/-- Decomposition of connectivity over a union with disjoint supports. -/
theorem conn_append_disjoint {es1 es2 : List (ℕ × ℕ)}
    (hd : ∀ x ∈ vertsOf es1, x ∉ vertsOf es2) {x y : ℕ}
    (h : Conn (es1 ++ es2) x y) :
    x = y ∨ Conn es1 x y ∨ Conn es2 x y := by
  induction h with
  | refl => exact .inl rfl
  | @tail m y hxy hstep ih =>
    have hstep' : EMem es1 m y ∨ EMem es2 m y := by
      rcases hstep with h1 | h1 <;> rw [List.mem_append] at h1
      · rcases h1 with h2 | h2
        · exact .inl (.inl h2)
        · exact .inr (.inl h2)
      · rcases h1 with h2 | h2
        · exact .inl (.inr h2)
        · exact .inr (.inr h2)
    rcases hstep' with h1 | h1
    · rcases ih with rfl | h2 | h2
      · exact .inr (.inl (Conn.single h1))
      · exact .inr (.inl (h2.tail h1))
      · rcases conn_ne_mem h2 with rfl | ⟨_, hm2⟩
        · exact .inr (.inl (Conn.single h1))
        · exact absurd hm2 (hd m (mem_vertsOf_of_emem h1).1)
    · rcases ih with rfl | h2 | h2
      · exact .inr (.inr (Conn.single h1))
      · rcases conn_ne_mem h2 with rfl | ⟨_, hm2⟩
        · exact .inr (.inr (Conn.single h1))
        · exact absurd (mem_vertsOf_of_emem h1).1 (hd m hm2)
      · exact .inr (.inr (h2.tail h1))

/-- The union of two acyclic graphs with disjoint vertex supports is
acyclic. -/
theorem acyclic_append_disjoint {es1 es2 : List (ℕ × ℕ)}
    (hd : ∀ x ∈ vertsOf es1, x ∉ vertsOf es2)
    (h1 : Acyclic es1) (h2 : Acyclic es2) : Acyclic (es1 ++ es2) := by
  intro e he
  have herase : eraseE (es1 ++ es2) e.1 e.2 =
      eraseE es1 e.1 e.2 ++ eraseE es2 e.1 e.2 := by
    unfold eraseE
    exact List.filter_append _ _
  have hd' : ∀ x ∈ vertsOf (eraseE es1 e.1 e.2), x ∉ vertsOf (eraseE es2 e.1 e.2) := by
    intro x hx hx2
    exact hd x (vertsOf_subset eraseE_subset x hx) (vertsOf_subset eraseE_subset x hx2)
  rcases List.mem_append.mp he with hmem | hmem
  · obtain ⟨hne, hnc⟩ := h1 e hmem
    refine ⟨hne, fun hc => ?_⟩
    rw [herase] at hc
    rcases conn_append_disjoint hd' hc with hc' | hc' | hc'
    · exact hne hc'
    · exact hnc hc'
    · rcases conn_ne_mem hc' with hc'' | ⟨hm, _⟩
      · exact hne hc''
      · exact hd e.1 (mem_vertsOf.mpr ⟨e, hmem, .inl rfl⟩)
          (vertsOf_subset eraseE_subset _ hm)
  · obtain ⟨hne, hnc⟩ := h2 e hmem
    refine ⟨hne, fun hc => ?_⟩
    rw [herase] at hc
    rcases conn_append_disjoint hd' hc with hc' | hc' | hc'
    · exact hne hc'
    · rcases conn_ne_mem hc' with hc'' | ⟨hm, _⟩
      · exact hne hc''
      · exact hd e.1 (vertsOf_subset eraseE_subset _ hm)
          (mem_vertsOf.mpr ⟨e, hmem, .inl rfl⟩)
    · exact hnc hc'

theorem app2_n (a t : Skel) : (app2 a t).n = a.n + t.n := by
  unfold app2 Skel.n
  exact List.length_append _ _

theorem mapEdges_comp (f g : ℕ → ℕ) (es : List (ℕ × ℕ)) :
    mapEdges f (mapEdges g es) = mapEdges (fun v => f (g v)) es := by
  unfold mapEdges
  rw [List.map_map]
  rfl

theorem mapEdges_congr {f g : ℕ → ℕ} (h : ∀ v, f v = g v) (es : List (ℕ × ℕ)) :
    mapEdges f es = mapEdges g es := by
  unfold mapEdges
  exact List.map_congr_left (fun e _ => by rw [h e.1, h e.2])

theorem mapEdges_id (es : List (ℕ × ℕ)) : mapEdges (fun v => v) es = es := by
  unfold mapEdges
  exact List.map_id' es

theorem app2_assoc (a b c : Skel) : app2 (app2 a b) c = app2 a (app2 b c) := by
  unfold app2
  congr 1
  · exact (List.append_assoc _ _ _)
  · show (a.edges ++ mapEdges (fun v => v + a.n) b.edges) ++
        mapEdges (fun v => v + (app2 a b).n) c.edges =
      a.edges ++ mapEdges (fun v => v + a.n) (b.edges ++ mapEdges (fun v => v + b.n) c.edges)
    rw [List.append_assoc]
    congr 1
    show mapEdges (fun v => v + a.n) b.edges ++ mapEdges (fun v => v + (app2 a b).n) c.edges
      = mapEdges (fun v => v + a.n) (b.edges ++ mapEdges (fun v => v + b.n) c.edges)
    unfold mapEdges
    rw [List.map_append, List.map_map]
    congr 1
    rw [app2_n]
    refine List.map_congr_left (fun e _ => ?_)
    show (e.1 + (a.n + b.n), e.2 + (a.n + b.n)) = (e.1 + b.n + a.n, e.2 + b.n + a.n)
    refine congrArg₂ Prod.mk ?_ ?_ <;> omega
  · exact (List.append_assoc _ _ _)

theorem app2_empty_left (t : Skel) : app2 ⟨[], [], []⟩ t = t := by
  unfold app2
  show Skel.mk t.vertices (mapEdges (fun v => v + Skel.n ⟨[], [], []⟩) t.edges) t.radii = t
  rw [show Skel.n ⟨[], [], []⟩ = 0 from rfl,
    mapEdges_congr (fun v => Nat.add_zero v), mapEdges_id]

theorem simple_merge_eq_foldl (l : List Skel) :
    simple_merge l = l.foldl app2 ⟨[], [], []⟩ := rfl

theorem foldl_app2 (l : List Skel) (a : Skel) :
    l.foldl app2 a = app2 a (simple_merge l) := by
  induction l generalizing a with
  | nil =>
    show a = app2 a ⟨[], [], []⟩
    unfold app2
    show a = Skel.mk (a.vertices ++ []) (a.edges ++ mapEdges (fun v => v + a.n) []) (a.radii ++ [])
    rw [List.append_nil, List.append_nil]
    show a = Skel.mk a.vertices (a.edges ++ []) a.radii
    rw [List.append_nil]
  | cons c l ih =>
    show (c :: l).foldl app2 a = _
    rw [List.foldl_cons, ih (app2 a c), app2_assoc]
    show _ = app2 a ((c :: l).foldl app2 ⟨[], [], []⟩)
    rw [List.foldl_cons, app2_empty_left, ih c]

/-- `simple_merge` peels off its head as an `app2`. -/
theorem simple_merge_cons (c : Skel) (l : List Skel) :
    simple_merge (c :: l) = app2 c (simple_merge l) := by
  rw [simple_merge_eq_foldl, List.foldl_cons, app2_empty_left, foldl_app2]

theorem map_getD_range {α : Type} (l : List α) (d : α) :
    (List.range l.length).map (fun i => l.getD i d) = l := by
  induction l with
  | nil => rfl
  | cons a tl ih =>
    rw [List.length_cons, List.range_succ_eq_map, List.map_cons, List.map_map]
    show (a :: tl).getD 0 d :: _ = a :: tl
    refine congrArg₂ List.cons rfl ?_
    show (List.range tl.length).map (fun i => tl.getD i d) = tl
    exact ih

theorem indexOf_map_inj {f : ℕ → ℕ} (hf : ∀ a b, f a = f b → a = b)
    (l : List ℕ) (v : ℕ) : (l.map f).indexOf (f v) = l.indexOf v := by
  induction l with
  | nil => rfl
  | cons a tl ih =>
    rw [List.map_cons]
    by_cases hav : a = v
    · subst hav
      simp [List.indexOf_cons_self]
    · have h1 : (f a == f v) = false := by
        rw [beq_eq_false_iff_ne]
        intro hc
        exact hav (hf a v hc)
      have h2 : (a == v) = false := by
        rw [beq_eq_false_iff_ne]
        exact hav
      rw [List.indexOf_cons, List.indexOf_cons, h1, h2]
      show List.indexOf (f v) (List.map f tl) + 1 = List.indexOf v tl + 1
      rw [ih]

theorem indexOf_range {v n : ℕ} (h : v < n) : (List.range n).indexOf v = v := by
  induction n with
  | zero => omega
  | succ n ih =>
    rw [List.range_succ]
    by_cases hv : v < n
    · rw [List.indexOf_append_of_mem (List.mem_range.mpr hv)]
      exact ih hv
    · have hvn : v = n := by omega
      subst hvn
      rw [List.indexOf_append_of_not_mem (by simp), List.length_range]
      simp [List.indexOf_cons_self]

/-- Membership characterization of a component class. -/
theorem mem_compMembers {es : List (ℕ × ℕ)} {n r v : ℕ} :
    v ∈ compMembers es n r ↔ v < n ∧ Conn es r v := by
  unfold compMembers
  rw [List.mem_filter, List.mem_range, connB_iff_conn]

/-- Membership characterization of the class representatives. -/
theorem mem_compReps {es : List (ℕ × ℕ)} {n v : ℕ} :
    v ∈ compReps es n ↔ v < n ∧ ∀ u < v, ¬ Conn es u v := by
  unfold compReps
  rw [List.mem_filter, List.mem_range, decide_eq_true_eq]
  constructor
  · rintro ⟨h1, h2⟩
    refine ⟨h1, fun u hu hc => ?_⟩
    have hb := h2 u hu
    rw [Bool.eq_false_iff] at hb
    exact hb (connB_iff_conn.mpr hc)
  · rintro ⟨h1, h2⟩
    refine ⟨h1, fun u hu => ?_⟩
    exact Bool.eq_false_iff.mpr (fun hb => h2 u hu (connB_iff_conn.mp hb))

theorem filter_range_lt {k n : ℕ} (h : k ≤ n) :
    (List.range n).filter (fun v => decide (v < k)) = List.range k := by
  induction n with
  | zero =>
    have hk : k = 0 := by omega
    subst hk
    rfl
  | succ n ih =>
    by_cases hk : k = n + 1
    · subst hk
      refine List.filter_eq_self.mpr (fun v hv => ?_)
      rw [List.mem_range] at hv
      exact decide_eq_true hv
    · have h1 : k ≤ n := by omega
      rw [List.range_succ, List.filter_append, ih h1]
      have : List.filter (fun v => decide (v < k)) [n] = [] := by
        simp only [List.filter_cons, List.filter_nil]
        rw [if_neg]
        simp
        omega
      rw [this, List.append_nil]

/-- Pushing a walk forward along a relabeling. -/
theorem conn_map_forward {f : ℕ → ℕ} {es : List (ℕ × ℕ)} {u v : ℕ}
    (h : Conn es u v) : Conn (mapEdges f es) (f u) (f v) := by
  induction h with
  | refl => exact Conn.refl
  | tail _ hstep ih =>
    refine ih.tail ?_
    rcases hstep with h1 | h1
    · exact .inl (List.mem_map_of_mem _ h1)
    · exact .inr (List.mem_map_of_mem _ h1)

theorem app2_edges (c t : Skel) :
    (app2 c t).edges = c.edges ++ mapEdges (fun v => v + c.n) t.edges := rfl

/-- Decomposition of connectivity over a two-block merge. -/
theorem conn_app2 {c t : Skel} (hwf : WfE c) {u v : ℕ}
    (h : Conn (app2 c t).edges u v) :
    u = v ∨ Conn c.edges u v ∨
      ∃ a b, u = a + c.n ∧ v = b + c.n ∧ Conn t.edges a b := by
  rw [app2_edges] at h
  have hd : ∀ x ∈ vertsOf c.edges, x ∉ vertsOf (mapEdges (fun w => w + c.n) t.edges) := by
    intro x hx hx2
    obtain ⟨e, he, hxe⟩ := mem_vertsOf.mp hx
    obtain ⟨e', he', hxe'⟩ := mem_vertsOf.mp hx2
    obtain ⟨e0, he0, rfl⟩ := List.mem_map.mp he'
    have h1 := hwf e he
    rcases hxe with rfl | rfl <;> rcases hxe' with h2 | h2
    · have h3 : e.1 = e0.1 + c.n := h2
      omega
    · have h3 : e.1 = e0.2 + c.n := h2
      omega
    · have h3 : e.2 = e0.1 + c.n := h2
      omega
    · have h3 : e.2 = e0.2 + c.n := h2
      omega
  rcases conn_append_disjoint hd h with h1 | h1 | h1
  · exact .inl h1
  · exact .inr (.inl h1)
  · have hinj : ∀ x ∈ vertsOf t.edges, ∀ y ∈ vertsOf t.edges,
        x + c.n = y + c.n → x = y := fun x _ y _ hxy => by omega
    rcases conn_map_pullback hinj h1 with rfl | ⟨a, b, _, _, hfa, hfb, hab⟩
    · exact .inl rfl
    · exact .inr (.inr ⟨a, b, hfa.symm, hfb.symm, hab⟩)

theorem conn_app2_left {c t : Skel} {u v : ℕ} (h : Conn c.edges u v) :
    Conn (app2 c t).edges u v := by
  rw [app2_edges]
  exact h.sub (List.subset_append_left _ _)

theorem conn_app2_right {c t : Skel} {u v : ℕ} (h : Conn t.edges u v) :
    Conn (app2 c t).edges (u + c.n) (v + c.n) := by
  rw [app2_edges]
  exact (@conn_map_forward (fun w => w + c.n) _ _ _ h).sub (List.subset_append_right _ _)

/-- No connectivity across the block boundary. -/
theorem conn_app2_cross {c t : Skel} (hwf : WfE c) {u v : ℕ}
    (hu : u < c.n) (hv : c.n ≤ v) : ¬ Conn (app2 c t).edges u v := by
  intro h
  rcases conn_app2 hwf h with rfl | h1 | ⟨a, b, rfl, rfl, _⟩
  · omega
  · rcases conn_ne_mem h1 with rfl | ⟨_, hm⟩
    · omega
    · obtain ⟨e, he, hve⟩ := mem_vertsOf.mp hm
      have := hwf e he
      rcases hve with rfl | rfl <;> omega
  · omega

theorem compMembers_app2_zero {c t : Skel} (hG : GoodBlock c) :
    compMembers (app2 c t).edges (app2 c t).n 0 = List.range c.n := by
  obtain ⟨hwf, hconn, hpos, _⟩ := hG
  unfold compMembers
  rw [app2_n]
  have : ∀ v ∈ List.range (c.n + t.n),
      connB (app2 c t).edges 0 v = decide (v < c.n) := by
    intro v _
    by_cases hv : v < c.n
    · rw [decide_eq_true hv]
      exact connB_iff_conn.mpr (conn_app2_left (hconn 0 v hpos hv))
    · have h1 : ¬ Conn (app2 c t).edges 0 v :=
        conn_app2_cross hwf hpos (by omega)
      rw [← connB_iff_conn] at h1
      simp only [Bool.not_eq_true] at h1
      rw [h1]
      simp [hv]
  rw [List.filter_congr this, filter_range_lt (Nat.le_add_right _ _)]

theorem compMembers_app2_shift {c t : Skel} (hG : GoodBlock c) {r : ℕ}
    (hr : r < t.n) :
    compMembers (app2 c t).edges (app2 c t).n (r + c.n) =
      (compMembers t.edges t.n r).map (fun v => v + c.n) := by
  obtain ⟨hwf, _, _, _⟩ := hG
  unfold compMembers
  rw [app2_n, List.range_add, List.filter_append]
  have h1 : (List.range c.n).filter (fun v => connB (app2 c t).edges (r + c.n) v) = [] := by
    rw [List.filter_eq_nil_iff]
    intro v hv
    rw [List.mem_range] at hv
    intro hc
    rw [connB_iff_conn] at hc
    exact conn_app2_cross hwf hv (Nat.le_add_left _ _) hc.symm
  rw [h1, List.nil_append]
  have h2 : (List.range t.n).map (c.n + ·) = (List.range t.n).map (fun v => v + c.n) :=
    List.map_congr_left (fun v _ => Nat.add_comm c.n v)
  rw [h2, List.filter_map]
  congr 1
  refine List.filter_congr (fun w _ => ?_)
  show connB (app2 c t).edges (r + c.n) (w + c.n) = connB t.edges r w
  by_cases hc : Conn t.edges r w
  · rw [connB_iff_conn.mpr hc, connB_iff_conn.mpr (conn_app2_right hc)]
  · have : ¬ Conn (app2 c t).edges (r + c.n) (w + c.n) := by
      intro h
      rcases conn_app2 hwf h with heq | h1 | ⟨a, b, ha, hb, hab⟩
      · have hrw : r = w := by omega
        subst hrw
        exact hc Conn.refl
      · rcases conn_ne_mem h1 with heq | ⟨hm, _⟩
        · have hrw : r = w := by omega
          subst hrw
          exact hc Conn.refl
        · obtain ⟨e, he, hve⟩ := mem_vertsOf.mp hm
          have := hwf e he
          rcases hve with h3 | h3 <;> omega
      · have har : a = r := by omega
        have hbw : b = w := by omega
        subst har; subst hbw
        exact hc hab
    rw [← connB_iff_conn] at hc this
    simp only [Bool.not_eq_true] at hc this
    rw [hc, this]

theorem compReps_app2 {c t : Skel} (hG : GoodBlock c) :
    compReps (app2 c t).edges (app2 c t).n =
      0 :: (compReps t.edges t.n).map (fun v => v + c.n) := by
  obtain ⟨hwf, hconn, hpos, _⟩ := hG
  unfold compReps
  rw [app2_n, List.range_add, List.filter_append]
  have h1 : (List.range c.n).filter
      (fun v => decide (∀ u < v, connB (app2 c t).edges u v = false)) = [0] := by
    have hc1 : ∀ v ∈ List.range c.n,
        (decide (∀ u < v, connB (app2 c t).edges u v = false)) = decide (v = 0) := by
      intro v hv
      rw [List.mem_range] at hv
      by_cases hv0 : v = 0
      · subst hv0
        simp
      · have : ¬ (∀ u < v, connB (app2 c t).edges u v = false) := by
          intro hall
          have h0 := hall 0 (by omega)
          rw [Bool.eq_false_iff] at h0
          exact h0 (connB_iff_conn.mpr (conn_app2_left (hconn 0 v hpos hv)))
        simp [this, hv0]
    rw [List.filter_congr hc1]
    have : ∀ n, 0 < n → (List.range n).filter (fun v => decide (v = 0)) = [0] := by
      intro n hn
      induction n with
      | zero => omega
      | succ m ih =>
        rw [List.range_succ, List.filter_append]
        rcases Nat.eq_zero_or_pos m with rfl | hm
        · rfl
        · rw [ih hm]
          have : List.filter (fun v => decide (v = 0)) [m] = [] := by
            simp only [List.filter_cons, List.filter_nil]
            rw [if_neg]
            simp
            omega
          rw [this, List.append_nil]
    exact this c.n hpos
  rw [h1]
  have h2 : (List.range t.n).map (c.n + ·) = (List.range t.n).map (fun v => v + c.n) :=
    List.map_congr_left (fun v _ => Nat.add_comm c.n v)
  rw [h2, List.filter_map]
  show _ = [0] ++ _
  congr 1
  refine congrArg _ (List.filter_congr (fun w hw => ?_))
  rw [List.mem_range] at hw
  show (decide (∀ u < w + c.n, connB (app2 c t).edges u (w + c.n) = false))
    = decide (∀ u < w, connB t.edges u w = false)
  rcases Decidable.em (∀ u < w, connB t.edges u w = false) with hrep | hrep
  · rw [decide_eq_true hrep]
    refine decide_eq_true ?_
    intro u hu
    rw [Bool.eq_false_iff]
    intro hcb
    have hc := connB_iff_conn.mp hcb
    by_cases huc : u < c.n
    · exact conn_app2_cross hwf huc (Nat.le_add_left _ _) hc
    · rcases conn_app2 hwf hc with heq | h3 | ⟨a, b, ha, hb, hab⟩
      · omega
      · rcases conn_ne_mem h3 with heq | ⟨hm, _⟩
        · omega
        · obtain ⟨e, he, hve⟩ := mem_vertsOf.mp hm
          have := hwf e he
          rcases hve with h4 | h4 <;> omega
      · have hbw : b = w := by omega
        subst hbw
        have h5 := hrep a (by omega)
        rw [Bool.eq_false_iff] at h5
        exact h5 (connB_iff_conn.mpr hab)
  · rw [decide_eq_false hrep]
    refine decide_eq_false ?_
    intro hall
    apply hrep
    intro u hu
    have := hall (u + c.n) (by omega)
    rw [Bool.eq_false_iff] at *
    intro hcb
    exact this (connB_iff_conn.mpr (conn_app2_right (connB_iff_conn.mp hcb)))

theorem subSkel_app2_left {c t : Skel} (hG : GoodBlock c) :
    subSkel (app2 c t) (List.range c.n) = c := by
  obtain ⟨hwf, _, _, hrad⟩ := hG
  unfold subSkel
  have hv : (List.range c.n).map (app2 c t).vert = c.vertices := by
    have h1 : ∀ i ∈ List.range c.n, (app2 c t).vert i = c.vert i := by
      intro i hi
      rw [List.mem_range] at hi
      unfold Skel.vert app2
      exact List.getD_append _ _ _ _ hi
    rw [List.map_congr_left h1]
    exact map_getD_range c.vertices _
  have hr : (List.range c.n).map (app2 c t).rad = c.radii := by
    have h1 : ∀ i ∈ List.range c.n, (app2 c t).rad i = c.radii.getD i 0 := by
      intro i hi
      rw [List.mem_range] at hi
      unfold Skel.rad app2
      exact List.getD_append _ _ _ _ (by rw [hrad]; exact hi)
    rw [List.map_congr_left h1, show c.n = c.radii.length from hrad.symm]
    exact map_getD_range c.radii _
  have he : ((app2 c t).edges.filter
      (fun e => decide (e.1 ∈ List.range c.n) && decide (e.2 ∈ List.range c.n))).map
      (fun e => ((List.range c.n).indexOf e.1, (List.range c.n).indexOf e.2)) = c.edges := by
    rw [app2_edges, List.filter_append]
    have hfc : c.edges.filter
        (fun e => decide (e.1 ∈ List.range c.n) && decide (e.2 ∈ List.range c.n)) = c.edges :=
      List.filter_eq_self.mpr (fun e he => by
        obtain ⟨h1, h2⟩ := hwf e he
        simp [List.mem_range, h1, h2])
    have hft : (mapEdges (fun v => v + c.n) t.edges).filter
        (fun e => decide (e.1 ∈ List.range c.n) && decide (e.2 ∈ List.range c.n)) = [] := by
      rw [List.filter_eq_nil_iff]
      intro e he
      obtain ⟨e0, _, rfl⟩ := List.mem_map.mp he
      have h1 : ((fun v => v + c.n) e0.1) ∉ List.range c.n := by
        rw [List.mem_range]
        show ¬ e0.1 + c.n < c.n
        omega
      simp [h1]
    rw [hfc, hft, List.append_nil]
    have : ∀ e ∈ c.edges,
        (((List.range c.n).indexOf e.1, (List.range c.n).indexOf e.2) : ℕ × ℕ) = e := by
      intro e he
      obtain ⟨h1, h2⟩ := hwf e he
      rw [indexOf_range h1, indexOf_range h2]
    rw [List.map_congr_left this]
    exact List.map_id' c.edges
  rw [hv, hr, he]

theorem subSkel_app2_shift {c t : Skel} (hG : GoodBlock c) {vs : List ℕ} :
    subSkel (app2 c t) (vs.map (fun v => v + c.n)) = subSkel t vs := by
  obtain ⟨hwf, _, _, hrad⟩ := hG
  unfold subSkel
  have hinj : ∀ a b : ℕ, a + c.n = b + c.n → a = b := fun a b h => by omega
  have hmem : ∀ x : ℕ, x + c.n ∈ vs.map (fun v => v + c.n) ↔ x ∈ vs := by
    intro x
    constructor
    · intro hx
      obtain ⟨y, hy, hxy⟩ := List.mem_map.mp hx
      have : y = x := hinj y x hxy
      subst this
      exact hy
    · exact fun hx => List.mem_map_of_mem _ hx
  have hnotmem : ∀ x : ℕ, x < c.n → x ∉ vs.map (fun v => v + c.n) := by
    intro x hx hc
    obtain ⟨y, _, hxy⟩ := List.mem_map.mp hc
    have : y + c.n = x := hxy
    omega
  have hv : (vs.map (fun v => v + c.n)).map (app2 c t).vert = vs.map t.vert := by
    rw [List.map_map]
    refine List.map_congr_left (fun v _ => ?_)
    show (app2 c t).vert (v + c.n) = t.vert v
    unfold Skel.vert app2
    show (c.vertices ++ t.vertices).getD (v + c.n) ((0:ℚ), (0:ℚ), (0:ℚ)) = _
    rw [List.getD_append_right _ _ _ _
      (show c.vertices.length ≤ v + c.n from Nat.le_add_left _ _)]
    congr 1
    show v + c.n - c.n = v
    omega
  have hr : (vs.map (fun v => v + c.n)).map (app2 c t).rad = vs.map t.rad := by
    rw [List.map_map]
    refine List.map_congr_left (fun v _ => ?_)
    show (app2 c t).rad (v + c.n) = t.rad v
    unfold Skel.rad app2
    show (c.radii ++ t.radii).getD (v + c.n) 0 = _
    rw [List.getD_append_right _ _ _ _
      (show c.radii.length ≤ v + c.n from by rw [hrad]; exact Nat.le_add_left _ _), hrad]
    congr 1
    omega
  have he : ((app2 c t).edges.filter
        (fun e => decide (e.1 ∈ vs.map (fun v => v + c.n)) &&
          decide (e.2 ∈ vs.map (fun v => v + c.n)))).map
      (fun e => ((vs.map (fun v => v + c.n)).indexOf e.1,
        (vs.map (fun v => v + c.n)).indexOf e.2)) =
      (t.edges.filter (fun e => decide (e.1 ∈ vs) && decide (e.2 ∈ vs))).map
        (fun e => (vs.indexOf e.1, vs.indexOf e.2)) := by
    rw [app2_edges, List.filter_append]
    have hfc : c.edges.filter
        (fun e => decide (e.1 ∈ vs.map (fun v => v + c.n)) &&
          decide (e.2 ∈ vs.map (fun v => v + c.n))) = [] := by
      rw [List.filter_eq_nil_iff]
      intro e he
      obtain ⟨h1, _⟩ := hwf e he
      simp [hnotmem e.1 h1]
    rw [hfc, List.nil_append]
    unfold mapEdges
    rw [List.filter_map]
    have hpc : ∀ e ∈ t.edges,
        ((fun e => decide (e.1 ∈ vs.map (fun v => v + c.n)) &&
            decide (e.2 ∈ vs.map (fun v => v + c.n))) ∘
          (fun e : ℕ × ℕ => (e.1 + c.n, e.2 + c.n))) e =
        (fun e => decide (e.1 ∈ vs) && decide (e.2 ∈ vs)) e := by
      intro e _
      show (decide (e.1 + c.n ∈ vs.map (fun v => v + c.n)) &&
        decide (e.2 + c.n ∈ vs.map (fun v => v + c.n))) = _
      rw [decide_eq_decide.mpr (hmem e.1), decide_eq_decide.mpr (hmem e.2)]
    have hstep : List.filter ((fun e => decide (e.1 ∈ vs.map (fun v => v + c.n)) &&
          decide (e.2 ∈ vs.map (fun v => v + c.n))) ∘
          (fun e : ℕ × ℕ => (e.1 + c.n, e.2 + c.n))) t.edges =
        List.filter (fun e => decide (e.1 ∈ vs) && decide (e.2 ∈ vs)) t.edges :=
      List.filter_congr hpc
    rw [hstep, List.map_map]
    refine List.map_congr_left (fun e _ => ?_)
    show ((vs.map (fun v => v + c.n)).indexOf (e.1 + c.n),
      (vs.map (fun v => v + c.n)).indexOf (e.2 + c.n)) = (vs.indexOf e.1, vs.indexOf e.2)
    rw [indexOf_map_inj hinj, indexOf_map_inj hinj]
  rw [hv, hr, he]

/-- Splitting the components of a two-block merge. -/
theorem components_app2 {c t : Skel} (hG : GoodBlock c) :
    components (app2 c t) = c :: components t := by
  unfold components
  rw [compReps_app2 hG, List.map_cons]
  congr 1
  · rw [compMembers_app2_zero hG]
    exact subSkel_app2_left hG
  · rw [List.map_map]
    refine List.map_congr_left (fun r hr => ?_)
    have hrn : r < t.n := (mem_compReps.mp hr).1
    show subSkel (app2 c t) (compMembers (app2 c t).edges (app2 c t).n (r + c.n)) = _
    rw [compMembers_app2_shift hG hrn]
    exact subSkel_app2_shift hG

/-- Reassembly: the components of a merge of good blocks are exactly the
blocks. -/
theorem components_simple_merge (l : List Skel) (hl : ∀ c ∈ l, GoodBlock c) :
    components (simple_merge l) = l := by
  induction l with
  | nil => rfl
  | cons c tl ih =>
    rw [simple_merge_cons, components_app2 (hl c (List.mem_cons_self c tl)),
      ih (fun d hd => hl d (List.mem_cons_of_mem c hd))]

/-- Walks inside a component class transfer to the extracted
sub-skeleton. -/
theorem conn_subSkel {s : Skel} (hwf : WfE s) {r : ℕ}
    {u v : ℕ} (hu : u ∈ compMembers s.edges s.n r) (h : Conn s.edges u v)
    (hr : Conn s.edges r u) :
    Conn (subSkel s (compMembers s.edges s.n r)).edges
      ((compMembers s.edges s.n r).indexOf u)
      ((compMembers s.edges s.n r).indexOf v) := by
  induction h with
  | refl => exact Conn.refl
  | @tail m y hxy hstep ih =>
    have hm : m ∈ compMembers s.edges s.n r := by
      rcases conn_ne_mem hxy with rfl | ⟨_, hmem⟩
      · exact hu
      · obtain ⟨e, he, hve⟩ := mem_vertsOf.mp hmem
        have hb := hwf e he
        refine mem_compMembers.mpr ⟨?_, hr.trans hxy⟩
        rcases hve with rfl | rfl
        · exact hb.1
        · exact hb.2
    have hy : y ∈ compMembers s.edges s.n r := by
      have hmem := (mem_vertsOf_of_emem hstep).2
      obtain ⟨e, he, hve⟩ := mem_vertsOf.mp hmem
      have hb := hwf e he
      refine mem_compMembers.mpr ⟨?_, (hr.trans hxy).tail hstep⟩
      rcases hve with rfl | rfl
      · exact hb.1
      · exact hb.2
    refine ih.tail ?_
    rcases hstep with he | he
    · refine .inl ?_
      show ((compMembers s.edges s.n r).indexOf m,
        (compMembers s.edges s.n r).indexOf y) ∈ (subSkel s (compMembers s.edges s.n r)).edges
      refine List.mem_map.mpr ⟨(m, y), ?_, rfl⟩
      refine List.mem_filter.mpr ⟨he, ?_⟩
      simp only [Bool.and_eq_true, decide_eq_true_eq]
      exact ⟨hm, hy⟩
    · refine .inr ?_
      show ((compMembers s.edges s.n r).indexOf y,
        (compMembers s.edges s.n r).indexOf m) ∈ (subSkel s (compMembers s.edges s.n r)).edges
      refine List.mem_map.mpr ⟨(y, m), ?_, rfl⟩
      refine List.mem_filter.mpr ⟨he, ?_⟩
      simp only [Bool.and_eq_true, decide_eq_true_eq]
      exact ⟨hy, hm⟩

/-- Every extracted component of a well-formed skeleton is a good block. -/
theorem components_goodBlock {s : Skel} (hwf : WfE s) :
    ∀ c ∈ components s, GoodBlock c := by
  intro c hc
  obtain ⟨r, hrmem, rfl⟩ := List.mem_map.mp hc
  obtain ⟨hrn, _⟩ := mem_compReps.mp hrmem
  have hnodup : (compMembers s.edges s.n r).Nodup :=
    (List.nodup_range s.n).filter _
  have hrin : r ∈ compMembers s.edges s.n r :=
    mem_compMembers.mpr ⟨hrn, Conn.refl⟩
  have hlen : (subSkel s (compMembers s.edges s.n r)).n =
      (compMembers s.edges s.n r).length := by
    unfold subSkel Skel.n
    exact List.length_map _ _
  refine ⟨?_, ?_, ?_, ?_⟩
  · intro e he
    obtain ⟨e0, he0, rfl⟩ := List.mem_map.mp he
    have hfil := List.mem_filter.mp he0
    have hb := hfil.2
    simp only [Bool.and_eq_true, decide_eq_true_eq] at hb
    rw [hlen]
    exact ⟨List.indexOf_lt_length.mpr hb.1, List.indexOf_lt_length.mpr hb.2⟩
  · intro i j hi hj
    rw [hlen] at hi hj
    set vs := compMembers s.edges s.n r with hvs
    have hui : vs.getD i 0 ∈ vs := by
      rw [List.getD_eq_getElem vs 0 hi]
      exact List.getElem_mem hi
    have huj : vs.getD j 0 ∈ vs := by
      rw [List.getD_eq_getElem vs 0 hj]
      exact List.getElem_mem hj
    have hci : Conn s.edges r (vs.getD i 0) := (mem_compMembers.mp hui).2
    have hcj : Conn s.edges r (vs.getD j 0) := (mem_compMembers.mp huj).2
    have := conn_subSkel hwf hui (hci.symm.trans hcj) hci
    rw [List.getD_eq_getElem vs 0 hi, List.getD_eq_getElem vs 0 hj,
      List.indexOf_getElem hnodup, List.indexOf_getElem hnodup] at this
    exact this
  · rw [hlen]
    exact List.length_pos.mpr (fun hnil => List.not_mem_nil r (hnil ▸ hrin))
  · unfold subSkel Skel.n
    rw [List.length_map, List.length_map]

theorem degOcc_pos_of_mem_vertsOf {es : List (ℕ × ℕ)} {v : ℕ}
    (h : v ∈ vertsOf es) : 0 < degOcc es v := by
  obtain ⟨e, he, hve⟩ := mem_vertsOf.mp h
  unfold degOcc
  rcases hve with rfl | rfl
  · have : 0 < es.countP (fun e' => decide (e'.1 = e.1)) :=
      List.countP_pos_iff.mpr ⟨e, he, by simp⟩
    omega
  · have : 0 < es.countP (fun e' => decide (e'.2 = e.2)) :=
      List.countP_pos_iff.mpr ⟨e, he, by simp⟩
    omega

/-- A connected block with at least one edge has no isolated vertex. -/
theorem noIso_of_goodBlock {c : Skel} (hG : GoodBlock c) (hedges : c.edges ≠ []) :
    NoIso c := by
  obtain ⟨hwf, hconn, hpos, _⟩ := hG
  intro v hv
  by_cases h2 : 2 ≤ c.n
  · have hu : ∃ u, u < c.n ∧ u ≠ v := by
      rcases Nat.eq_zero_or_pos v with rfl | hv0
      · exact ⟨1, by omega, by omega⟩
      · exact ⟨0, by omega, by omega⟩
    obtain ⟨u, hun, hune⟩ := hu
    have := hconn v u hv hun
    rcases conn_ne_mem this with rfl | ⟨hm, _⟩
    · exact absurd rfl hune
    · exact degOcc_pos_of_mem_vertsOf hm
  · have hn1 : c.n = 1 := by omega
    have hv0 : v = 0 := by omega
    subst hv0
    obtain ⟨e, he⟩ := List.exists_mem_of_ne_nil c.edges hedges
    have hb := hwf e he
    have he1 : e.1 = 0 := by omega
    refine degOcc_pos_of_mem_vertsOf ?_
    exact mem_vertsOf.mpr ⟨e, he, .inl he1.symm⟩

theorem degOcc_append (es1 es2 : List (ℕ × ℕ)) (v : ℕ) :
    degOcc (es1 ++ es2) v = degOcc es1 v + degOcc es2 v := by
  unfold degOcc
  rw [List.countP_append, List.countP_append]
  omega

theorem degOcc_mapShift (es : List (ℕ × ℕ)) (k w : ℕ) :
    degOcc (mapEdges (fun v => v + k) es) (w + k) = degOcc es w := by
  unfold degOcc mapEdges
  rw [List.countP_map, List.countP_map]
  have e1 : List.countP ((fun e : ℕ × ℕ => decide (e.1 = w + k)) ∘
        fun e : ℕ × ℕ => ((fun v => v + k) e.1, (fun v => v + k) e.2)) es =
      List.countP (fun e : ℕ × ℕ => decide (e.1 = w)) es :=
    List.countP_congr (fun a _ => by
      show decide (a.1 + k = w + k) = true ↔ decide (a.1 = w) = true
      simp only [decide_eq_true_eq]
      omega)
  have e2 : List.countP ((fun e : ℕ × ℕ => decide (e.2 = w + k)) ∘
        fun e : ℕ × ℕ => ((fun v => v + k) e.1, (fun v => v + k) e.2)) es =
      List.countP (fun e : ℕ × ℕ => decide (e.2 = w)) es :=
    List.countP_congr (fun a _ => by
      show decide (a.2 + k = w + k) = true ↔ decide (a.2 = w) = true
      simp only [decide_eq_true_eq]
      omega)
  rw [e1, e2]

/-- Structural facts preserved by `app2`. -/
theorem app2_props {c t : Skel} (hc : GoodBlock c) (hcI : NoIso c)
    (ht : WfE t ∧ t.radii.length = t.n ∧ NoIso t) :
    WfE (app2 c t) ∧ (app2 c t).radii.length = (app2 c t).n ∧ NoIso (app2 c t) := by
  obtain ⟨hwf, _, _, hrad⟩ := hc
  obtain ⟨htwf, htrad, htiso⟩ := ht
  refine ⟨?_, ?_, ?_⟩
  · intro e he
    rw [app2_edges] at he
    rw [app2_n]
    rcases List.mem_append.mp he with h1 | h1
    · have := hwf e h1
      omega
    · obtain ⟨e0, he0, rfl⟩ := List.mem_map.mp h1
      have := htwf e0 he0
      constructor
      · show e0.1 + c.n < c.n + t.n
        omega
      · show e0.2 + c.n < c.n + t.n
        omega
  · show (c.radii ++ t.radii).length = (app2 c t).n
    rw [List.length_append, app2_n, hrad, htrad]
  · intro v hv
    rw [app2_n] at hv
    rw [app2_edges, degOcc_append]
    by_cases hvc : v < c.n
    · have := hcI v hvc
      omega
    · have hvw : v = (v - c.n) + c.n := by omega
      rw [hvw, degOcc_mapShift]
      have := htiso (v - c.n) (by omega)
      omega

theorem simple_merge_props (l : List Skel)
    (hl : ∀ c ∈ l, GoodBlock c ∧ NoIso c) :
    WfE (simple_merge l) ∧ (simple_merge l).radii.length = (simple_merge l).n ∧
      NoIso (simple_merge l) := by
  induction l with
  | nil =>
    refine ⟨fun e he => absurd he (List.not_mem_nil e), rfl, fun v hv => ?_⟩
    exact absurd hv (by show ¬ v < 0; omega)
  | cons c tl ih =>
    rw [simple_merge_cons]
    obtain ⟨hG, hI⟩ := hl c (List.mem_cons_self c tl)
    exact app2_props hG hI (ih (fun d hd => hl d (List.mem_cons_of_mem c hd)))

/-- `consolidate` is the identity on skeletons without isolated
vertices. -/
theorem consolidate_id {t : Skel} (hwf : WfE t) (hrad : t.radii.length = t.n)
    (hiso : NoIso t) : consolidate t = t := by
  unfold consolidate
  dsimp only
  have hkeep : (List.range t.n).filter (fun v => decide (0 < degOcc t.edges v)) =
      List.range t.n :=
    List.filter_eq_self.mpr (fun v hv =>
      decide_eq_true (hiso v (List.mem_range.mp hv)))
  rw [hkeep]
  have hv : (List.range t.n).map t.vert = t.vertices := map_getD_range t.vertices _
  have hr : (List.range t.n).map t.rad = t.radii := by
    show (List.range t.n).map (fun i => t.radii.getD i 0) = t.radii
    rw [← hrad]
    exact map_getD_range t.radii _
  have he : mapEdges (fun v => (List.range t.n).indexOf v) t.edges = t.edges := by
    unfold mapEdges
    have : ∀ e ∈ t.edges,
        (((List.range t.n).indexOf e.1, (List.range t.n).indexOf e.2) : ℕ × ℕ) = e := by
      intro e he
      obtain ⟨h1, h2⟩ := hwf e he
      rw [indexOf_range h1, indexOf_range h2]
    rw [List.map_congr_left this]
    exact List.map_id' t.edges
  rw [hv, hr, he]

theorem components_of_empty {s : Skel} (h : s.isEmptySkel) : components s = [] := by
  have hn : s.n = 0 := by
    unfold Skel.n
    rw [h]
    rfl
  unfold components compReps
  rw [hn]
  rfl

/-- On nonempty input, `remove_dust` is exactly the merge of the
retained components (the final consolidate is a no-op). -/
theorem remove_dust_eq {elen : Point → Point → ℚ} {s : Skel} {θ : ℚ}
    (hwf : WfE s) (hθ : 0 ≤ θ) (hne : ¬ s.isEmptySkel) :
    remove_dust elen s θ =
      simple_merge ((components s).filter (fun c => decide (θ < cable_length elen c))) := by
  unfold remove_dust
  rw [if_neg hne]
  have hgood : ∀ c ∈ (components s).filter (fun c => decide (θ < cable_length elen c)),
      GoodBlock c :=
    fun c hc => components_goodBlock hwf c (List.mem_filter.mp hc).1
  have hiso : ∀ c ∈ (components s).filter (fun c => decide (θ < cable_length elen c)),
      NoIso c := by
    intro c hc
    obtain ⟨hcm, hp⟩ := List.mem_filter.mp hc
    refine noIso_of_goodBlock (components_goodBlock hwf c hcm) ?_
    intro hnil
    rw [decide_eq_true_eq] at hp
    have hz : cable_length elen c = 0 := by
      unfold cable_length
      rw [hnil]
      rfl
    rw [hz] at hp
    linarith
  obtain ⟨hmwf, hmrad, hmiso⟩ := simple_merge_props _ (fun c hc => ⟨hgood c hc, hiso c hc⟩)
  exact consolidate_id hmwf hmrad hmiso

/-- The components of `remove_dust`'s output are exactly the retained
components of the input. -/
theorem remove_dust_components (elen : Point → Point → ℚ) {s : Skel} (θ : ℚ)
    (hwf : WfE s) (hθ : 0 ≤ θ) :
    components (remove_dust elen s θ) =
      (components s).filter (fun c => decide (θ < cable_length elen c)) := by
  by_cases hemp : s.isEmptySkel
  · unfold remove_dust
    rw [if_pos hemp, components_of_empty hemp]
    rfl
  · rw [remove_dust_eq hwf hθ hemp]
    exact components_simple_merge _
      (fun c hc => components_goodBlock hwf c (List.mem_filter.mp hc).1)

theorem simple_merge_pos_n {l : List Skel} {c : Skel} (hc : c ∈ l) (hpos : 0 < c.n) :
    0 < (simple_merge l).n := by
  induction l with
  | nil => exact absurd hc (List.not_mem_nil c)
  | cons d tl ih =>
    rw [simple_merge_cons, app2_n]
    rcases List.mem_cons.mp hc with rfl | hc'
    · omega
    · have := ih hc'
      omega

/-- The dust-removal pass is idempotent (exactly, not merely up to
relabeling). -/
theorem remove_dust_idem (elen : Point → Point → ℚ) {s : Skel} (θ : ℚ)
    (hwf : WfE s) (hθ : 0 ≤ θ) :
    remove_dust elen (remove_dust elen s θ) θ = remove_dust elen s θ := by
  by_cases hemp : s.isEmptySkel
  · have h1 : remove_dust elen s θ = s := by
      unfold remove_dust
      rw [if_pos hemp]
    rw [h1]
    unfold remove_dust
    rw [if_pos hemp]
  · have heq := @remove_dust_eq elen _ θ hwf hθ hemp
    set kept := (components s).filter (fun c => decide (θ < cable_length elen c)) with hk
    have hgood : ∀ c ∈ kept, GoodBlock c :=
      fun c hc => components_goodBlock hwf c (List.mem_filter.mp hc).1
    have hiso : ∀ c ∈ kept, NoIso c := by
      intro c hc
      obtain ⟨hcm, hp⟩ := List.mem_filter.mp hc
      refine noIso_of_goodBlock (components_goodBlock hwf c hcm) ?_
      intro hnil
      rw [decide_eq_true_eq] at hp
      have hz : cable_length elen c = 0 := by
        unfold cable_length
        rw [hnil]
        rfl
      rw [hz] at hp
      linarith
    by_cases hknil : kept = []
    · rw [heq, hknil]
      show remove_dust elen ⟨[], [], []⟩ θ = simple_merge []
      unfold remove_dust
      rw [if_pos (show Skel.isEmptySkel ⟨[], [], []⟩ from rfl)]
      rfl
    · obtain ⟨c0, hc0⟩ := List.exists_mem_of_ne_nil kept hknil
      have hpos : 0 < (simple_merge kept).n :=
        simple_merge_pos_n hc0 (hgood c0 hc0).2.2.1
      have hnemp : ¬ (simple_merge kept).isEmptySkel := by
        unfold Skel.isEmptySkel
        intro hv
        unfold Skel.n at hpos
        rw [hv] at hpos
        simp at hpos
      obtain ⟨hmwf, hmrad, hmiso⟩ := simple_merge_props kept
        (fun c hc => ⟨hgood c hc, hiso c hc⟩)
      rw [heq]
      unfold remove_dust
      rw [if_neg hnemp]
      rw [components_simple_merge kept hgood]
      have hfil : kept.filter (fun c => decide (θ < cable_length elen c)) = kept :=
        List.filter_eq_self.mpr (fun c hc => (List.mem_filter.mp hc).2)
      rw [hfil]
      exact consolidate_id hmwf hmrad hmiso

/-! ### Selector lemmas (`np.argmin` / `np.argmax` / `min`) -/

theorem argminL_foldl_spec {α : Type} (f : α → ℚ) (xs : List α) (x : α) :
    (xs.foldl (fun b y => if f y < f b then y else b) x ∈ x :: xs) ∧
    (f (xs.foldl (fun b y => if f y < f b then y else b) x) ≤ f x) ∧
    (∀ y ∈ xs, f (xs.foldl (fun b y => if f y < f b then y else b) x) ≤ f y) := by
  induction xs generalizing x with
  | nil => exact ⟨List.mem_singleton_self x, le_refl _, fun y hy => absurd hy (List.not_mem_nil y)⟩
  | cons z zs ih =>
    rw [List.foldl_cons]
    by_cases hlt : f z < f x
    · rw [if_pos hlt]
      obtain ⟨h1, h2, h3⟩ := ih z
      refine ⟨?_, ?_, ?_⟩
      · rcases List.mem_cons.mp h1 with h | h
        · exact List.mem_cons_of_mem x (List.mem_cons.mpr (.inl h))
        · exact List.mem_cons_of_mem x (List.mem_cons_of_mem z h)
      · exact h2.trans hlt.le
      · intro y hy
        rcases List.mem_cons.mp hy with rfl | h
        · exact h2
        · exact h3 y h
    · rw [if_neg hlt]
      obtain ⟨h1, h2, h3⟩ := ih x
      refine ⟨?_, h2, ?_⟩
      · rcases List.mem_cons.mp h1 with h | h
        · exact List.mem_cons.mpr (.inl h)
        · exact List.mem_cons_of_mem x (List.mem_cons_of_mem z h)
      · intro y hy
        rcases List.mem_cons.mp hy with rfl | h
        · exact h2.trans (not_lt.mp hlt)
        · exact h3 y h

theorem argminL_mem {α : Type} {f : α → ℚ} {l : List α} {x : α}
    (h : argminL f l = some x) : x ∈ l := by
  cases l with
  | nil => exact absurd h (by simp [argminL])
  | cons z zs =>
    unfold argminL at h
    rw [Option.some_inj] at h
    subst h
    exact (argminL_foldl_spec f zs z).1

theorem argminL_le {α : Type} {f : α → ℚ} {l : List α} {x : α}
    (h : argminL f l = some x) : ∀ y ∈ l, f x ≤ f y := by
  cases l with
  | nil => exact absurd h (by simp [argminL])
  | cons z zs =>
    unfold argminL at h
    rw [Option.some_inj] at h
    subst h
    intro y hy
    rcases List.mem_cons.mp hy with rfl | h
    · exact (argminL_foldl_spec f zs y).2.1
    · exact (argminL_foldl_spec f zs z).2.2 y h

theorem argminL_isSome {α : Type} (f : α → ℚ) {l : List α} (h : l ≠ []) :
    ∃ x, argminL f l = some x := by
  cases l with
  | nil => exact absurd rfl h
  | cons z zs => exact ⟨_, rfl⟩

theorem argmaxL_foldl_spec {α : Type} (f : α → ℚ) (xs : List α) (x : α) :
    (xs.foldl (fun b y => if f b < f y then y else b) x ∈ x :: xs) ∧
    (f x ≤ f (xs.foldl (fun b y => if f b < f y then y else b) x)) ∧
    (∀ y ∈ xs, f y ≤ f (xs.foldl (fun b y => if f b < f y then y else b) x)) := by
  induction xs generalizing x with
  | nil => exact ⟨List.mem_singleton_self x, le_refl _, fun y hy => absurd hy (List.not_mem_nil y)⟩
  | cons z zs ih =>
    rw [List.foldl_cons]
    by_cases hlt : f x < f z
    · rw [if_pos hlt]
      obtain ⟨h1, h2, h3⟩ := ih z
      refine ⟨?_, hlt.le.trans h2, ?_⟩
      · rcases List.mem_cons.mp h1 with h | h
        · exact List.mem_cons_of_mem x (List.mem_cons.mpr (.inl h))
        · exact List.mem_cons_of_mem x (List.mem_cons_of_mem z h)
      · intro y hy
        rcases List.mem_cons.mp hy with rfl | h
        · exact h2
        · exact h3 y h
    · rw [if_neg hlt]
      obtain ⟨h1, h2, h3⟩ := ih x
      refine ⟨?_, h2, ?_⟩
      · rcases List.mem_cons.mp h1 with h | h
        · exact List.mem_cons.mpr (.inl h)
        · exact List.mem_cons_of_mem x (List.mem_cons_of_mem z h)
      · intro y hy
        rcases List.mem_cons.mp hy with rfl | h
        · exact (not_lt.mp hlt).trans h2
        · exact h3 y h

theorem argmaxL_mem {α : Type} {f : α → ℚ} {l : List α} {x : α}
    (h : argmaxL f l = some x) : x ∈ l := by
  cases l with
  | nil => exact absurd h (by simp [argmaxL])
  | cons z zs =>
    unfold argmaxL at h
    rw [Option.some_inj] at h
    subst h
    exact (argmaxL_foldl_spec f zs z).1

theorem argmaxL_ge {α : Type} {f : α → ℚ} {l : List α} {x : α}
    (h : argmaxL f l = some x) : ∀ y ∈ l, f y ≤ f x := by
  cases l with
  | nil => exact absurd h (by simp [argmaxL])
  | cons z zs =>
    unfold argmaxL at h
    rw [Option.some_inj] at h
    subst h
    intro y hy
    rcases List.mem_cons.mp hy with rfl | h
    · exact (argmaxL_foldl_spec f zs y).2.1
    · exact (argmaxL_foldl_spec f zs z).2.2 y h

/-! ### Claim C1 -/

/-- C1 counterexample.  The claim's consequent — "every component of
`trim_skeleton`'s output has cable length > `dust_threshold`, or the input
had no such component" — fails on the code: the Y skeleton has one
component of cable length 6000 > 4000, yet after the full pipeline (the
tick pass prunes one 2000 nm arm) the surviving component has cable length
4000 ≤ 4000.  The last conjunct certifies that `qlen` equals the euclidean
edge length on this input (`qmul` is rational multiplication,
`qmul_eq`). -/
theorem C1_counterexample :
    (∃ c ∈ components Ysk, 4000 < cable_length qlen c) ∧
    trim_skeleton qlen 20 Ysk 4000 6000 = some YskTrimmed ∧
    (∃ c ∈ components YskTrimmed, cable_length qlen c ≤ 4000) ∧
    (∀ e ∈ Ysk.edges,
      qmul (qlen (Ysk.vert e.1) (Ysk.vert e.2)) (qlen (Ysk.vert e.1) (Ysk.vert e.2)) =
        dist2 (Ysk.vert e.1) (Ysk.vert e.2)) :=
  ⟨by decide, by decide, by decide, by decide⟩

/-- C1 (amended).  `remove_dust` returns a skeleton whose connected
components are exactly those components of the input whose cable length
strictly exceeds `dust_threshold`, kept in their original relative order;
an empty input is returned empty.  Every component of **`remove_dust`'s**
output (not of `trim_skeleton`'s: later passes can cut a surviving
component below the threshold) has cable length > `dust_threshold`. -/
theorem C1_theorem (elen : Point → Point → ℚ) {s : Skel} (θ : ℚ)
    (hwf : Wf s) (hθ : 0 ≤ θ) :
    components (remove_dust elen s θ) =
      (components s).filter (fun c => decide (θ < cable_length elen c)) ∧
    (∀ c ∈ components (remove_dust elen s θ), θ < cable_length elen c) ∧
    (s.isEmptySkel → remove_dust elen s θ = s) := by
  have hwfE : WfE s := fun e he => ⟨(hwf.1 e he).1, (hwf.1 e he).2.1⟩
  refine ⟨remove_dust_components elen θ hwfE hθ, ?_, ?_⟩
  · intro c hc
    rw [remove_dust_components elen θ hwfE hθ] at hc
    have := (List.mem_filter.mp hc).2
    rwa [decide_eq_true_eq] at this
  · intro hemp
    unfold remove_dust
    rw [if_pos hemp]

/-- C1 witness: the amended theorem applied to the concrete Y skeleton at
`dust_threshold = 4000`. -/
theorem C1_witness :
    Wf Ysk ∧ (0 : ℚ) ≤ 4000 ∧
      (∀ c ∈ components (remove_dust qlen Ysk 4000), 4000 < cable_length qlen c) :=
  ⟨by decide, by decide, (C1_theorem qlen 4000 (by decide) (by decide)).2.1⟩

/-! ### Claim C2 -/

theorem nearestIn_mem {elen : Point → Point → ℚ} {s : Skel} {Q : List ℕ}
    (hQ : Q ≠ []) (p : ℕ) : nearestIn elen s Q p ∈ Q := by
  obtain ⟨x, hx⟩ := argminL_isSome (fun q => elen (s.vert p) (s.vert q)) hQ
  unfold nearestIn
  rw [hx]
  exact argminL_mem hx

theorem nearestIn_le {elen : Point → Point → ℚ} {s : Skel} {Q : List ℕ}
    (hQ : Q ≠ []) (p : ℕ) :
    ∀ q' ∈ Q, elen (s.vert p) (s.vert (nearestIn elen s Q p)) ≤
      elen (s.vert p) (s.vert q') := by
  obtain ⟨x, hx⟩ := argminL_isSome (fun q => elen (s.vert p) (s.vert q)) hQ
  unfold nearestIn
  rw [hx]
  exact argminL_le hx

set_option maxHeartbeats 1600000 in
/-- C2.  In `connect_pieces`, an examined pair of components is bridged
exactly at the pair `(p*, q*)` minimizing the vertex-to-vertex distance
(`p* ∈ P` with its nearest neighbour `q* ∈ Q`), and exactly when the
radius gate `radius(p*) + radius(q*) ≥ d(p*, q*)` passes; a successful
sweep restarts the loop on the extended edge list; in particular, on the
two collinear paths of three vertices with a 10 nm gap and all radii 3, no
bridge is added and two components remain (the last conjunct certifies
`qlen` equals the euclidean distance on that input). -/
theorem C2_theorem (elen : Point → Point → ℚ) (s : Skel) :
    (∀ P Q p q, Q ≠ [] → tryPair elen s P Q = some (p, q) →
        p ∈ P ∧ q ∈ Q ∧
        s.rad p + s.rad q ≥ elen (s.vert p) (s.vert q) ∧
        (∀ p' ∈ P, ∀ q' ∈ Q,
          elen (s.vert p) (s.vert q) ≤ elen (s.vert p') (s.vert q'))) ∧
    (∀ P Q, P ≠ [] → Q ≠ [] → tryPair elen s P Q = none →
        ∃ p ∈ P, ∃ q ∈ Q,
          s.rad p + s.rad q < elen (s.vert p) (s.vert q) ∧
          (∀ p' ∈ P, ∀ q' ∈ Q,
            elen (s.vert p) (s.vert q) ≤ elen (s.vert p') (s.vert q'))) ∧
    (∀ fuel es e, sweepPairs elen s es = some e →
        connectLoop elen s (fuel + 1) es = connectLoop elen s fuel (es ++ [(e.1, e.2)])) ∧
    connect_pieces qlen 10 GapSk = some GapSk ∧
    (components GapSk).length = 2 ∧
    (∀ i ∈ List.range 6, ∀ j ∈ List.range 6,
      qmul (qlen (GapSk.vert i) (GapSk.vert j)) (qlen (GapSk.vert i) (GapSk.vert j)) =
        dist2 (GapSk.vert i) (GapSk.vert j)) := by
  refine ⟨?_, ?_, ?_, by decide, by decide, by decide⟩
  · intro P Q p q hQ htry
    unfold tryPair at htry
    cases hmin : argminL (fun p => elen (s.vert p) (s.vert (nearestIn elen s Q p))) P with
    | none => rw [hmin] at htry; exact absurd htry (by simp)
    | some pStar =>
      rw [hmin] at htry
      dsimp only at htry
      by_cases hgate : qadd (s.rad pStar) (s.rad (nearestIn elen s Q pStar)) ≥
          elen (s.vert pStar) (s.vert (nearestIn elen s Q pStar))
      · rw [if_pos hgate, Option.some_inj] at htry
        have hp : pStar = p := congrArg Prod.fst htry
        have hq : nearestIn elen s Q pStar = q := congrArg Prod.snd htry
        subst hp
        subst hq
        rw [qadd_eq] at hgate
        refine ⟨argminL_mem hmin, nearestIn_mem hQ pStar, hgate, ?_⟩
        intro p' hp' q' hq'
        have h1 := argminL_le hmin p' hp'
        have h2 := @nearestIn_le elen s Q hQ p' q' hq'
        exact h1.trans h2
      · rw [if_neg hgate] at htry
        exact absurd htry (by simp)
  · intro P Q hP hQ htry
    unfold tryPair at htry
    obtain ⟨pStar, hmin⟩ := argminL_isSome
      (fun p => elen (s.vert p) (s.vert (nearestIn elen s Q p))) hP
    rw [hmin] at htry
    dsimp only at htry
    by_cases hgate : qadd (s.rad pStar) (s.rad (nearestIn elen s Q pStar)) ≥
        elen (s.vert pStar) (s.vert (nearestIn elen s Q pStar))
    · rw [if_pos hgate] at htry
      exact absurd htry (by simp)
    · rw [qadd_eq, ge_iff_le, not_le] at hgate
      refine ⟨pStar, argminL_mem hmin, nearestIn elen s Q pStar,
        nearestIn_mem hQ pStar, hgate, ?_⟩
      intro p' hp' q' hq'
      exact (argminL_le hmin p' hp').trans (@nearestIn_le elen s Q hQ p' q' hq')
  · intro fuel es e h
    show (match sweepPairs elen s es with
      | none => some es
      | some e => connectLoop elen s fuel (es ++ [(e.1, e.2)])) = _
    rw [h]

/-- C2 witness: the bridging direction of the characterization applied to
the radius-6 variant, where the closest pair `(2, 3)` at distance 10
passes the gate `6 + 6 ≥ 10` and is returned. -/
theorem C2_witness :
    ([3, 4, 5] : List ℕ) ≠ [] ∧
    tryPair qlen Gap6Sk [0, 1, 2] [3, 4, 5] = some (2, 3) ∧
    (2 ∈ ([0, 1, 2] : List ℕ) ∧ 3 ∈ ([3, 4, 5] : List ℕ) ∧
      Gap6Sk.rad 2 + Gap6Sk.rad 3 ≥ qlen (Gap6Sk.vert 2) (Gap6Sk.vert 3) ∧
      (∀ p' ∈ ([0, 1, 2] : List ℕ), ∀ q' ∈ ([3, 4, 5] : List ℕ),
        qlen (Gap6Sk.vert 2) (Gap6Sk.vert 3) ≤ qlen (Gap6Sk.vert p') (Gap6Sk.vert q'))) :=
  ⟨by decide, by decide,
    (C2_theorem qlen Gap6Sk).1 [0, 1, 2] [3, 4, 5] 2 3 (by decide) (by decide)⟩

/-! ### Claim C10 -/

theorem mem_find_connected {n : ℕ} {es : List (ℕ × ℕ)} {comp : List ℕ}
    (h : comp ∈ find_connected n es) :
    ∃ r, r ∈ vertsOf es ∧ r < n ∧ comp = compMembers es n r := by
  unfold find_connected at h
  obtain ⟨r, hr, rfl⟩ := List.mem_map.mp h
  have hf := List.mem_filter.mp hr
  have h1 := hf.2
  simp only [Bool.and_eq_true, decide_eq_true_eq] at h1
  exact ⟨r, h1.1, List.mem_range.mp hf.1, rfl⟩

theorem combination_pairs_mem {n : ℕ} {ij : ℕ × ℕ}
    (h : ij ∈ combination_pairs n) : ij.1 < n ∧ ij.2 < n := by
  unfold combination_pairs at h
  rw [List.mem_flatten] at h
  obtain ⟨l, hl, hij⟩ := h
  obtain ⟨i, hi, rfl⟩ := List.mem_map.mp hl
  obtain ⟨j, hj, rfl⟩ := List.mem_map.mp hij
  rw [List.mem_range] at hi hj
  constructor
  · exact hi
  · show i + j + 1 < n
    omega

theorem find_connected_nonempty {n : ℕ} {es : List (ℕ × ℕ)} {comp : List ℕ}
    (h : comp ∈ find_connected n es) : comp ≠ [] := by
  obtain ⟨r, _, hrn, rfl⟩ := mem_find_connected h
  intro hnil
  have : r ∈ compMembers es n r := mem_compMembers.mpr ⟨hrn, Conn.refl⟩
  rw [hnil] at this
  exact List.not_mem_nil r this

theorem degOcc_zero_not_vertsOf {es : List (ℕ × ℕ)} {v : ℕ}
    (h : degOcc es v = 0) : v ∉ vertsOf es := by
  intro hv
  have := degOcc_pos_of_mem_vertsOf hv
  omega

/-- Every vertex index of `consolidate`'s output touches an edge. -/
theorem consolidate_noIso (s : Skel) : NoIso (consolidate s) := by
  intro i hi
  unfold consolidate at hi ⊢
  dsimp only at hi ⊢
  set keep := (List.range s.n).filter (fun v => decide (0 < degOcc s.edges v)) with hkeep
  unfold Skel.n at hi
  rw [List.length_map] at hi
  have hnodup : keep.Nodup := (List.nodup_range s.n).filter _
  have hv : keep.getD i 0 ∈ keep := by
    rw [List.getD_eq_getElem keep 0 hi]
    exact List.getElem_mem hi
  have hdeg : 0 < degOcc s.edges (keep.getD i 0) := by
    have := (List.mem_filter.mp hv).2
    rwa [decide_eq_true_eq] at this
  have hidx : keep.indexOf (keep.getD i 0) = i := by
    rw [List.getD_eq_getElem keep 0 hi]
    exact List.indexOf_getElem hnodup i hi
  unfold degOcc at hdeg ⊢
  rcases Nat.lt_or_ge 0 (s.edges.countP (fun e => decide (e.1 = keep.getD i 0))) with hc | hc
  · obtain ⟨e, he, hp⟩ := List.countP_pos_iff.mp hc
    rw [decide_eq_true_eq] at hp
    have : 0 < (mapEdges (fun v => keep.indexOf v) s.edges).countP
        (fun e => decide (e.1 = i)) := by
      refine List.countP_pos_iff.mpr ⟨(keep.indexOf e.1, keep.indexOf e.2), ?_, ?_⟩
      · exact List.mem_map_of_mem _ he
      · rw [decide_eq_true_eq]
        show keep.indexOf e.1 = i
        rw [hp, hidx]
    omega
  · have hc2 : 0 < s.edges.countP (fun e => decide (e.2 = keep.getD i 0)) := by omega
    obtain ⟨e, he, hp⟩ := List.countP_pos_iff.mp hc2
    rw [decide_eq_true_eq] at hp
    have : 0 < (mapEdges (fun v => keep.indexOf v) s.edges).countP
        (fun e => decide (e.2 = i)) := by
      refine List.countP_pos_iff.mpr ⟨(keep.indexOf e.1, keep.indexOf e.2), ?_, ?_⟩
      · exact List.mem_map_of_mem _ he
      · rw [decide_eq_true_eq]
        show keep.indexOf e.2 = i
        rw [hp, hidx]
    omega

/-- C10.  `connect_pieces` determines components solely from vertices
occurring in edges: a degree-0 vertex belongs to no `find_connected`
component, is never an endpoint of a bridge produced by a sweep over an
edge list in which it is still isolated, and the final consolidate leaves
no isolated vertex in the output. -/
theorem C10_theorem (elen : Point → Point → ℚ) (s : Skel) {v : ℕ}
    (hdeg : degOcc s.edges v = 0) :
    (∀ comp ∈ find_connected s.n s.edges, v ∉ comp) ∧
    (∀ es e, degOcc es v = 0 → sweepPairs elen s es = some e →
      e.1 ≠ v ∧ e.2 ≠ v) ∧
    (∀ fuel T, connect_pieces elen fuel s = some T → NoIso T) := by
  have hnotin : ∀ (es : List (ℕ × ℕ)) (n : ℕ), degOcc es v = 0 →
      ∀ comp ∈ find_connected n es, v ∉ comp := by
    intro es n hz comp hcomp hvin
    obtain ⟨r, hrV, _, rfl⟩ := mem_find_connected hcomp
    have hconn := (mem_compMembers.mp hvin).2
    have hnv := degOcc_zero_not_vertsOf hz
    rcases conn_ne_mem hconn with rfl | ⟨_, hm⟩
    · exact hnv hrV
    · exact hnv hm
  refine ⟨hnotin s.edges s.n hdeg, ?_, ?_⟩
  · intro es e hz hsweep
    unfold sweepPairs at hsweep
    obtain ⟨ij, hij, htry⟩ := List.exists_of_findSome?_eq_some hsweep
    obtain ⟨hi, hj⟩ := combination_pairs_mem hij
    have hPmem : (find_connected s.n es).getD ij.1 [] ∈ find_connected s.n es := by
      rw [List.getD_eq_getElem _ _ hi]
      exact List.getElem_mem hi
    have hQmem : (find_connected s.n es).getD ij.2 [] ∈ find_connected s.n es := by
      rw [List.getD_eq_getElem _ _ hj]
      exact List.getElem_mem hj
    have hQne := find_connected_nonempty hQmem
    unfold tryPair at htry
    cases hmin : argminL (fun p => elen (s.vert p)
        (s.vert (nearestIn elen s ((find_connected s.n es).getD ij.2 []) p)))
        ((find_connected s.n es).getD ij.1 []) with
    | none => rw [hmin] at htry; exact absurd htry (by simp)
    | some pStar =>
      rw [hmin] at htry
      dsimp only at htry
      by_cases hgate : qadd (s.rad pStar)
          (s.rad (nearestIn elen s ((find_connected s.n es).getD ij.2 []) pStar)) ≥
          elen (s.vert pStar)
            (s.vert (nearestIn elen s ((find_connected s.n es).getD ij.2 []) pStar))
      · rw [if_pos hgate, Option.some_inj] at htry
        subst htry
        constructor
        · intro hc
          exact hnotin es s.n hz _ hPmem (hc ▸ argminL_mem hmin)
        · intro hc
          exact hnotin es s.n hz _ hQmem (hc ▸ nearestIn_mem hQne pStar)
      · rw [if_neg hgate] at htry
        exact absurd htry (by simp)
  · intro fuel T hconn
    unfold connect_pieces at hconn
    by_cases hemp : s.isEmptySkel
    · rw [if_pos hemp, Option.some_inj] at hconn
      subst hconn
      intro w hw
      unfold Skel.n at hw
      rw [hemp] at hw
      exact absurd hw (by simp)
    · rw [if_neg hemp] at hconn
      obtain ⟨es, _, rfl⟩ := Option.map_eq_some'.mp hconn
      exact consolidate_noIso _

/-- C10 witness: `GapSk` extended with an isolated seventh vertex of huge
radius sitting inside the gap; it joins no component and the consolidated
output has no isolated vertex. -/
theorem C10_witness :
    degOcc (Skel.edges ⟨[((0 : ℚ), 0, 0), ((10 : ℚ), 0, 0), ((20 : ℚ), 0, 0),
        ((30 : ℚ), 0, 0), ((40 : ℚ), 0, 0), ((50 : ℚ), 0, 0), ((25 : ℚ), 0, 0)],
      [(0, 1), (1, 2), (3, 4), (4, 5)], [3, 3, 3, 3, 3, 3, 100]⟩) 6 = 0 ∧
    (∀ comp ∈ find_connected
      (Skel.n ⟨[((0 : ℚ), 0, 0), ((10 : ℚ), 0, 0), ((20 : ℚ), 0, 0),
          ((30 : ℚ), 0, 0), ((40 : ℚ), 0, 0), ((50 : ℚ), 0, 0), ((25 : ℚ), 0, 0)],
        [(0, 1), (1, 2), (3, 4), (4, 5)], [3, 3, 3, 3, 3, 3, 100]⟩)
      (Skel.edges ⟨[((0 : ℚ), 0, 0), ((10 : ℚ), 0, 0), ((20 : ℚ), 0, 0),
          ((30 : ℚ), 0, 0), ((40 : ℚ), 0, 0), ((50 : ℚ), 0, 0), ((25 : ℚ), 0, 0)],
        [(0, 1), (1, 2), (3, 4), (4, 5)], [3, 3, 3, 3, 3, 3, 100]⟩), 6 ∉ comp) := by
  refine ⟨by decide, ?_⟩
  exact (C10_theorem qlen ⟨[((0 : ℚ), 0, 0), ((10 : ℚ), 0, 0), ((20 : ℚ), 0, 0),
      ((30 : ℚ), 0, 0), ((40 : ℚ), 0, 0), ((50 : ℚ), 0, 0), ((25 : ℚ), 0, 0)],
    [(0, 1), (1, 2), (3, 4), (4, 5)], [3, 3, 3, 3, 3, 3, 100]⟩ (by decide)).1

/-! ### Claim C7 -/

/-- C7 counterexample.  `trim_skeleton (trim_skeleton s d t) d t` is not
structurally identical to `trim_skeleton s d t`: on the Y skeleton the
first application leaves a component of cable length exactly 4000, which
the second application's dust pass deletes, so the vertex sets differ
(three vertices versus none). -/
theorem C7_counterexample :
    trim_skeleton qlen 20 Ysk 4000 6000 = some YskTrimmed ∧
    trim_skeleton qlen 20 YskTrimmed 4000 6000 = some ⟨[], [], []⟩ ∧
    YskTrimmed.vertices ≠ [] :=
  ⟨by decide, by decide, by decide⟩

/-- C7 (amended).  Idempotence fails for the full pipeline (see the
counterexample: a later pass may cut a component's cable length to at or
below `dust_threshold`, which a second run then deletes); the
dust-removal pass on its own is idempotent, exactly and not merely up to
consolidation ordering. -/
theorem C7_theorem (elen : Point → Point → ℚ) {s : Skel} (θ : ℚ)
    (hwf : Wf s) (hθ : 0 ≤ θ) :
    remove_dust elen (remove_dust elen s θ) θ = remove_dust elen s θ :=
  remove_dust_idem elen θ (fun e he => ⟨(hwf.1 e he).1, (hwf.1 e he).2.1⟩) hθ

/-- C7 witness: dust idempotence at the concrete Y skeleton. -/
theorem C7_witness :
    Wf Ysk ∧ (0 : ℚ) ≤ 4000 ∧
      remove_dust qlen (remove_dust qlen Ysk 4000) 4000 = remove_dust qlen Ysk 4000 :=
  ⟨by decide, by decide, C7_theorem qlen 4000 (by decide) (by decide)⟩

/-! ### Helper lemmas for C5/C6/C9 -/

theorem sortPair_eq_of_le {a b : ℕ} (h : a ≤ b) : sortPair (a, b) = (a, b) := by
  unfold sortPair
  dsimp only
  rw [if_pos h]

theorem sortPair_eq_of_gt {a b : ℕ} (h : ¬ a ≤ b) : sortPair (a, b) = (b, a) := by
  unfold sortPair
  dsimp only
  rw [if_neg h]

theorem sortPair_swap (e : ℕ × ℕ) : sortPair (e.2, e.1) = sortPair e := by
  rcases e with ⟨a, b⟩
  dsimp only
  by_cases h1 : a ≤ b
  · by_cases h2 : b ≤ a
    · rw [sortPair_eq_of_le h2, sortPair_eq_of_le h1, Nat.le_antisymm h1 h2]
    · rw [sortPair_eq_of_gt h2, sortPair_eq_of_le h1]
  · have h2 : b ≤ a := by omega
    rw [sortPair_eq_of_le h2, sortPair_eq_of_gt h1]

theorem sortPair_sortPair (e : ℕ × ℕ) : sortPair (sortPair e) = sortPair e := by
  rcases e with ⟨a, b⟩
  by_cases h1 : a ≤ b
  · rw [sortPair_eq_of_le h1]
    exact sortPair_eq_of_le h1
  · rw [sortPair_eq_of_gt h1]
    exact sortPair_eq_of_le (by omega)

theorem sortPair_mem_map_of_emem {edges : List (ℕ × ℕ)} {e : ℕ × ℕ}
    (h : EMem edges e.1 e.2) : sortPair e ∈ edges.map sortPair := by
  rcases h with h | h
  · exact List.mem_map.mpr ⟨(e.1, e.2), h, rfl⟩
  · exact List.mem_map.mpr ⟨(e.2, e.1), h, sortPair_swap e⟩

theorem emem_of_mem_map_sortPair {edges : List (ℕ × ℕ)} {u v : ℕ}
    (h : (u, v) ∈ edges.map sortPair) : EMem edges u v := by
  obtain ⟨e, he, hse⟩ := List.mem_map.mp h
  rcases e with ⟨a, b⟩
  by_cases h1 : a ≤ b
  · rw [sortPair_eq_of_le h1] at hse
    exact Or.inl (hse ▸ he)
  · rw [sortPair_eq_of_gt h1] at hse
    have ha : a = v := congrArg Prod.snd hse
    have hb : b = u := congrArg Prod.fst hse
    exact Or.inr (by rw [← ha, ← hb]; exact he)

theorem usub_remove_row (edges rows : List (ℕ × ℕ)) :
    USub (remove_row edges rows) edges := by
  intro u v h
  unfold remove_row at h
  dsimp only at h
  rcases h with h | h
  · exact emem_of_mem_map_sortPair (List.mem_filter.mp h).1
  · exact (emem_of_mem_map_sortPair (List.mem_filter.mp h).1).symm

theorem length_filter_lt_of_mem_not {α : Type} {p : α → Bool} {l : List α} {x : α}
    (hx : x ∈ l) (hpx : p x = false) : (l.filter p).length < l.length := by
  induction l with
  | nil => cases hx
  | cons a tl ih =>
    rw [List.filter_cons]
    rcases List.mem_cons.mp hx with rfl | h'
    · rw [if_neg (by rw [hpx]; exact Bool.false_ne_true)]
      have := List.length_filter_le p tl
      simp only [List.length_cons]
      omega
    · by_cases hpa : p a = true
      · rw [if_pos hpa]
        simp only [List.length_cons]
        exact Nat.succ_lt_succ (ih h')
      · rw [if_neg hpa]
        have := ih h'
        simp only [List.length_cons]
        omega

theorem le_foldr_max {l : List ℕ} {x : ℕ} (h : x ∈ l) : x ≤ l.foldr max 0 := by
  induction l with
  | nil => cases h
  | cons a tl ih =>
    rw [List.foldr_cons]
    rcases List.mem_cons.mp h with rfl | h'
    · exact Nat.le_max_left _ _
    · exact Nat.le_trans (ih h') (Nat.le_max_right _ _)

theorem mem_uniqueSorted {l : List ℕ} {x : ℕ} : x ∈ uniqueSorted l ↔ x ∈ l := by
  unfold uniqueSorted
  rw [List.mem_filter, List.mem_range, decide_eq_true_eq]
  constructor
  · exact fun h => h.2
  · exact fun h => ⟨Nat.lt_succ_of_le (le_foldr_max h), h⟩

theorem mem_vertsOf_of_degOcc_pos {es : List (ℕ × ℕ)} {v : ℕ}
    (h : 0 < degOcc es v) : v ∈ vertsOf es := by
  unfold degOcc at h
  have h' : 0 < es.countP (fun e => decide (e.1 = v)) ∨
      0 < es.countP (fun e => decide (e.2 = v)) := by omega
  rcases h' with h' | h'
  · obtain ⟨e, he, hd⟩ := List.countP_pos_iff.mp h'
    exact mem_vertsOf.mpr ⟨e, he, Or.inl (of_decide_eq_true hd).symm⟩
  · obtain ⟨e, he, hd⟩ := List.countP_pos_iff.mp h'
    exact mem_vertsOf.mpr ⟨e, he, Or.inr (of_decide_eq_true hd).symm⟩

/-! ### C5 -/

/-- C5.  Whenever the detected cycle carries at least three branch vertices
`B = branchCycleOf edges cyc`, one loop-removal step removes every cycle edge
from both the working graph and the edge array and adds, for some vertex
`vStar`, an edge from every member of `B` other than `vStar` itself to
`vStar`; `vStar` minimises the squared euclidean distance to the centroid of
`B` over all skeleton vertices, and the centroid is the coordinatewise mean
of the coordinates of `B`. -/
theorem C5_theorem (nodes : List Point) (G edges cyc : List (ℕ × ℕ))
    (hB : 3 ≤ (branchCycleOf edges cyc).length) :
    ∃ vStar : ℕ,
      removeLoopStep nodes G edges cyc =
        (nxAddEdges (nxRemoveEdges G (cyc.map sortPair))
            (((branchCycleOf edges cyc).filter (fun b => decide (b ≠ vStar))).map
              (fun b => (b, vStar))),
          remove_row edges (cyc.map sortPair) ++
            ((branchCycleOf edges cyc).filter (fun b => decide (b ≠ vStar))).map
              (fun b => (b, vStar))) ∧
      (∀ i, i < nodes.length →
        dist2 (ptOf nodes vStar) (centroidOf nodes (branchCycleOf edges cyc)) ≤
          dist2 (ptOf nodes i) (centroidOf nodes (branchCycleOf edges cyc))) ∧
      centroidOf nodes (branchCycleOf edges cyc) =
        ((((branchCycleOf edges cyc).map (ptOf nodes)).map (fun p => p.1)).sum /
            ((branchCycleOf edges cyc).length : ℚ),
          (((branchCycleOf edges cyc).map (ptOf nodes)).map (fun p => p.2.1)).sum /
            ((branchCycleOf edges cyc).length : ℚ),
          (((branchCycleOf edges cyc).map (ptOf nodes)).map (fun p => p.2.2)).sum /
            ((branchCycleOf edges cyc).length : ℚ)) := by
  refine ⟨(argminL (fun i => dist2 (ptOf nodes i)
      (centroidOf nodes (branchCycleOf edges cyc))) (List.range nodes.length)).getD 0,
    ?_, ?_, ?_⟩
  · simp only [removeLoopStep]
    rw [if_neg (show ¬ (branchCycleOf edges cyc).length = 1 by omega),
      if_neg (show ¬ (branchCycleOf edges cyc).length = 2 by omega),
      if_neg (show ¬ (branchCycleOf edges cyc).length = 0 by omega)]
  · intro i hi
    have hpos : 0 < (List.range nodes.length).length := by
      rw [List.length_range]
      omega
    obtain ⟨x, hx⟩ := argminL_isSome (fun i => dist2 (ptOf nodes i)
      (centroidOf nodes (branchCycleOf edges cyc))) (List.length_pos.mp hpos)
    rw [hx]
    exact argminL_le hx i (List.mem_range.mpr hi)
  · unfold centroidOf
    rw [qdivN_eq, qdivN_eq, qdivN_eq, qsum_eq, qsum_eq, qsum_eq]

set_option maxHeartbeats 1600000 in
/-- C5 witness: on `TriSk` the detected cycle is the triangle `0, 1, 2`; all
three of its vertices are branch vertices, and the step rewires them to the
vertex nearest the centroid `(6, 3, 0)` — vertex `6`, placed there. -/
theorem C5_witness :
    3 ≤ (branchCycleOf TriSk.edges (find_cycle TriSk.edges)).length ∧
    (∃ vStar : ℕ,
      removeLoopStep TriSk.vertices (nxAddEdges [] TriSk.edges) TriSk.edges
          (find_cycle TriSk.edges) =
        (nxAddEdges (nxRemoveEdges (nxAddEdges [] TriSk.edges)
              ((find_cycle TriSk.edges).map sortPair))
            (((branchCycleOf TriSk.edges (find_cycle TriSk.edges)).filter
                (fun b => decide (b ≠ vStar))).map (fun b => (b, vStar))),
          remove_row TriSk.edges ((find_cycle TriSk.edges).map sortPair) ++
            ((branchCycleOf TriSk.edges (find_cycle TriSk.edges)).filter
                (fun b => decide (b ≠ vStar))).map (fun b => (b, vStar))) ∧
      (∀ i, i < TriSk.vertices.length →
        dist2 (ptOf TriSk.vertices vStar)
            (centroidOf TriSk.vertices (branchCycleOf TriSk.edges (find_cycle TriSk.edges))) ≤
          dist2 (ptOf TriSk.vertices i)
            (centroidOf TriSk.vertices (branchCycleOf TriSk.edges (find_cycle TriSk.edges)))) ∧
      centroidOf TriSk.vertices (branchCycleOf TriSk.edges (find_cycle TriSk.edges)) =
        ((((branchCycleOf TriSk.edges (find_cycle TriSk.edges)).map
              (ptOf TriSk.vertices)).map (fun p => p.1)).sum /
            ((branchCycleOf TriSk.edges (find_cycle TriSk.edges)).length : ℚ),
          (((branchCycleOf TriSk.edges (find_cycle TriSk.edges)).map
              (ptOf TriSk.vertices)).map (fun p => p.2.1)).sum /
            ((branchCycleOf TriSk.edges (find_cycle TriSk.edges)).length : ℚ),
          (((branchCycleOf TriSk.edges (find_cycle TriSk.edges)).map
              (ptOf TriSk.vertices)).map (fun p => p.2.2)).sum /
            ((branchCycleOf TriSk.edges (find_cycle TriSk.edges)).length : ℚ))) :=
  ⟨by decide, C5_theorem TriSk.vertices (nxAddEdges [] TriSk.edges) TriSk.edges
    (find_cycle TriSk.edges) (by decide)⟩

/-! ### C6 -/

set_option maxHeartbeats 1600000 in
/-- C6 counterexample.  On the Y skeleton the distance supergraph has three
superedges, and vertex `1` is terminal in it (it appears in exactly one
superedge key), yet `branch_counts` initialises it to `0`, not to its
supergraph degree `1`: the `defaultdict` is populated only for vertices of
skeleton degree at least 3, so the claimed invariant fails already on entry
to the pruning loop, and with it the claimed reading of the
both-endpoints-at-count-1 stop condition. -/
theorem C6_counterexample :
    _create_distance_graph qlen 20 Ysk =
      some [((1, 0), (2000 : ℚ)), ((0, 3), (2000 : ℚ)), ((0, 2), (2000 : ℚ))] ∧
    ([((1, 0), (2000 : ℚ)), ((0, 3), (2000 : ℚ)), ((0, 2), (2000 : ℚ))].countP
        (fun kv => decide (kv.1.1 = 1 ∨ kv.1.2 = 1)) = 1) ∧
    initBranchCounts Ysk.edges 1 = 0 ∧ ((0 : ℤ) ≠ 1) :=
  ⟨by decide, by decide, by decide, by decide⟩

/-- C6 (amended).  The tick-removal branch-count table is initialised to the
skeleton degree on vertices of skeleton degree at least 3 and to `0` on every
other vertex; in particular a vertex that is terminal in the distance
supergraph starts at `0`, not at its supergraph degree `1` as claimed. -/
theorem C6_theorem (es : List (ℕ × ℕ)) (v : ℕ) :
    initBranchCounts es v = if 3 ≤ degOcc es v then (degOcc es v : ℤ) else 0 := by
  unfold initBranchCounts
  by_cases h : 3 ≤ degOcc es v
  · have hmem : v ∈ (uniqueSorted (endpointsL es)).filter
        (fun w => decide (3 ≤ degOcc es w)) := by
      rw [List.mem_filter, mem_uniqueSorted, mem_endpointsL, decide_eq_true_eq]
      obtain ⟨e, he, hve⟩ := mem_vertsOf.mp (@mem_vertsOf_of_degOcc_pos es v (by omega))
      exact ⟨⟨e, he, hve⟩, h⟩
    rw [if_pos hmem, if_pos h]
  · have hmem : v ∉ (uniqueSorted (endpointsL es)).filter
        (fun w => decide (3 ≤ degOcc es w)) := by
      rw [List.mem_filter, decide_eq_true_eq]
      exact fun hc => h hc.2
    rw [if_neg hmem, if_neg h]

/-! ### C9 -/

set_option maxHeartbeats 1600000 in
/-- C9 counterexample.  On `TriSk` the detected cycle is the triangle and all
three of its vertices are branch vertices (the three-or-more case); the step
leaves the number of distinct undirected edges lying on cycles unchanged at
`9`, refuting the claimed strict decrease. -/
theorem C9_counterexample :
    find_cycle TriSk.edges = [(0, 1), (1, 2), (0, 2)] ∧
    (branchCycleOf TriSk.edges (find_cycle TriSk.edges)).length = 3 ∧
    cycEdgeCount TriSk.edges = 9 ∧
    cycEdgeCount (removeLoopStep TriSk.vertices (nxAddEdges [] TriSk.edges)
        TriSk.edges (find_cycle TriSk.edges)).2 = 9 :=
  ⟨by decide, by decide, by decide, by decide⟩

/-- C9 (amended).  The cycle-elimination loop exits as soon as the cycle
detector returns no cycle; the no-branch-vertex case strictly decreases the
number of edge rows (it only removes rows), and the two-branch-vertex case
adds no edge — its output edge set is a subset of the input's, as undirected
edges.  The claimed strict decrease of the number of edges lying on cycles
fails in the three-or-more case: see the counterexample. -/
theorem C9_theorem :
    (∀ (nodes : List Point) (fuel : ℕ) (G es : List (ℕ × ℕ)),
      find_cycle es = [] → loopIter nodes (fuel + 1) G es = some es) ∧
    (∀ (nodes : List Point) (G edges cyc : List (ℕ × ℕ)),
      cyc ≠ [] → (∀ e ∈ cyc, EMem edges e.1 e.2) →
      (branchCycleOf edges cyc).length = 0 →
      (removeLoopStep nodes G edges cyc).2.length < edges.length) ∧
    (∀ (nodes : List Point) (G edges cyc : List (ℕ × ℕ)),
      (branchCycleOf edges cyc).length = 2 →
      USub (removeLoopStep nodes G edges cyc).2 edges) := by
  refine ⟨?_, ?_, ?_⟩
  · intro nodes fuel G es h
    simp only [loopIter]
    rw [if_pos h]
  · intro nodes G edges cyc hne hpres hB
    simp only [removeLoopStep]
    rw [if_neg (show ¬ (branchCycleOf edges cyc).length = 1 by omega),
      if_neg (show ¬ (branchCycleOf edges cyc).length = 2 by omega),
      if_pos hB]
    dsimp only
    cases cyc with
    | nil => exact absurd rfl hne
    | cons c rest =>
      have hc : EMem edges c.1 c.2 := hpres c (List.mem_cons_self c rest)
      unfold remove_row
      dsimp only
      have hx1 : sortPair c ∈ edges.map sortPair := sortPair_mem_map_of_emem hc
      have hmem2 : sortPair c ∈ ((c :: rest).map sortPair).map sortPair :=
        List.mem_map.mpr ⟨sortPair c,
          List.mem_map.mpr ⟨c, List.mem_cons_self c rest, rfl⟩, sortPair_sortPair c⟩
      have hx2 : decide (sortPair c ∉ ((c :: rest).map sortPair).map sortPair) = false :=
        decide_eq_false (not_not_intro hmem2)
      have hlt := @length_filter_lt_of_mem_not _
        (fun e => decide (e ∉ ((c :: rest).map sortPair).map sortPair)) _ _ hx1 hx2
      have hlen : (edges.map sortPair).length = edges.length := by simp
      omega
  · intro nodes G edges cyc hB
    simp only [removeLoopStep]
    rw [if_neg (show ¬ (branchCycleOf edges cyc).length = 1 by omega), if_pos hB]
    dsimp only
    exact usub_remove_row edges _

/-- C9 witness: the exit equation on an acyclic single edge; the strict
decrease of the zero-branch-vertex case on a bare triangle; and the
no-addition property of the two-branch-vertex case on a theta graph. -/
theorem C9_witness :
    (find_cycle [(0, 1)] = [] ∧
      loopIter [] 5 [] [(0, 1)] = some [(0, 1)]) ∧
    ((([(0, 1), (1, 2), (0, 2)] : List (ℕ × ℕ)) ≠ [] ∧
        (∀ e ∈ ([(0, 1), (1, 2), (0, 2)] : List (ℕ × ℕ)),
          EMem [(0, 1), (1, 2), (0, 2)] e.1 e.2) ∧
        (branchCycleOf [(0, 1), (1, 2), (0, 2)] [(0, 1), (1, 2), (0, 2)]).length = 0) ∧
      (removeLoopStep [] [] [(0, 1), (1, 2), (0, 2)] [(0, 1), (1, 2), (0, 2)]).2.length <
        ([(0, 1), (1, 2), (0, 2)] : List (ℕ × ℕ)).length) ∧
    ((branchCycleOf [(0, 1), (0, 2), (2, 1), (0, 3), (3, 1)]
        [(0, 1), (0, 2), (2, 1)]).length = 2 ∧
      USub (removeLoopStep [] [] [(0, 1), (0, 2), (2, 1), (0, 3), (3, 1)]
        [(0, 1), (0, 2), (2, 1)]).2 [(0, 1), (0, 2), (2, 1), (0, 3), (3, 1)]) :=
  ⟨⟨by decide, C9_theorem.1 [] 4 [] [(0, 1)] (by decide)⟩,
    ⟨⟨by decide, by decide, by decide⟩,
      C9_theorem.2.1 [] [] [(0, 1), (1, 2), (0, 2)] [(0, 1), (1, 2), (0, 2)]
        (by decide) (by decide) (by decide)⟩,
    ⟨by decide, C9_theorem.2.2 [] [] [(0, 1), (0, 2), (2, 1), (0, 3), (3, 1)]
      [(0, 1), (0, 2), (2, 1)] (by decide)⟩⟩

/-! ### Undirected membership utilities -/

theorem emem_symm {es : List (ℕ × ℕ)} {u v : ℕ} (h : EMem es u v) : EMem es v u :=
  Or.symm h

theorem emem_cons {e : ℕ × ℕ} {es : List (ℕ × ℕ)} {u v : ℕ} :
    EMem (e :: es) u v ↔ samePair e u v ∨ EMem es u v := by
  constructor
  · intro h
    rcases h with h | h <;> rcases List.mem_cons.mp h with h1 | h1
    · exact Or.inl (Or.inl ⟨(congrArg Prod.fst h1).symm, (congrArg Prod.snd h1).symm⟩)
    · exact Or.inr (Or.inl h1)
    · exact Or.inl (Or.inr ⟨(congrArg Prod.fst h1).symm, (congrArg Prod.snd h1).symm⟩)
    · exact Or.inr (Or.inr h1)
  · intro h
    rcases h with hsp | hm
    · unfold samePair at hsp
      rcases hsp with ⟨h1, h2⟩ | ⟨h1, h2⟩
      · exact Or.inl (List.mem_cons.mpr (Or.inl (by rw [← h1, ← h2])))
      · exact Or.inr (List.mem_cons.mpr (Or.inl (by rw [← h1, ← h2])))
    · rcases hm with h | h
      · exact Or.inl (List.mem_cons.mpr (Or.inr h))
      · exact Or.inr (List.mem_cons.mpr (Or.inr h))

theorem emem_append {es1 es2 : List (ℕ × ℕ)} {u v : ℕ} :
    EMem (es1 ++ es2) u v ↔ EMem es1 u v ∨ EMem es2 u v := by
  unfold EMem
  rw [List.mem_append, List.mem_append]
  tauto

theorem emem_of_samePair {G : List (ℕ × ℕ)} {e : ℕ × ℕ} {u v : ℕ}
    (hG : EMem G e.1 e.2) (hsp : samePair e u v) : EMem G u v := by
  unfold samePair at hsp
  rcases hsp with ⟨h1, h2⟩ | ⟨h1, h2⟩
  · rw [← h1, ← h2]
    exact hG
  · rw [← h1, ← h2]
    exact emem_symm hG

theorem emem_nxAddEdges {new : List (ℕ × ℕ)} :
    ∀ {G : List (ℕ × ℕ)} {u v : ℕ},
      EMem (nxAddEdges G new) u v ↔ EMem G u v ∨ EMem new u v := by
  induction new with
  | nil =>
    intro G u v
    show EMem G u v ↔ EMem G u v ∨ EMem [] u v
    constructor
    · exact Or.inl
    · rintro (h | h)
      · exact h
      · rcases h with h | h <;> exact absurd h (List.not_mem_nil _)
  | cons e rest ih =>
    intro G u v
    show EMem (nxAddEdges (if EMem G e.1 e.2 then G else G ++ [e]) rest) u v ↔ _
    rw [ih]
    by_cases hG : EMem G e.1 e.2
    · rw [if_pos hG]
      constructor
      · rintro (h | h)
        · exact Or.inl h
        · exact Or.inr (emem_cons.mpr (Or.inr h))
      · rintro (h | h)
        · exact Or.inl h
        · rcases emem_cons.mp h with hsp | ht
          · exact Or.inl (emem_of_samePair hG hsp)
          · exact Or.inr ht
    · rw [if_neg hG]
      rw [emem_append]
      constructor
      · rintro ((h | h) | h)
        · exact Or.inl h
        · rcases emem_cons.mp h with hsp | ht
          · exact Or.inr (emem_cons.mpr (Or.inl hsp))
          · rcases ht with ht | ht <;> exact absurd ht (List.not_mem_nil _)
        · exact Or.inr (emem_cons.mpr (Or.inr h))
      · rintro (h | h)
        · exact Or.inl (Or.inl h)
        · rcases emem_cons.mp h with hsp | ht
          · exact Or.inl (Or.inr (emem_cons.mpr (Or.inl hsp)))
          · exact Or.inr ht

theorem emem_dedupeU {es : List (ℕ × ℕ)} {u v : ℕ} :
    EMem (dedupeU es) u v ↔ EMem es u v := by
  unfold dedupeU
  rw [emem_nxAddEdges]
  constructor
  · rintro (h | h)
    · rcases h with h | h <;> exact absurd h (List.not_mem_nil _)
    · exact h
  · exact Or.inr

theorem usub_nxRemoveEdges (G rem : List (ℕ × ℕ)) : USub (nxRemoveEdges G rem) G := by
  intro u v h
  rcases h with h | h
  · exact Or.inl (List.mem_of_mem_filter h)
  · exact Or.inr (List.mem_of_mem_filter h)

/-! ### Acyclicity from the cycle-detector exit condition -/

theorem findCycleGo_nil_acyclic : ∀ {rest acc : List (ℕ × ℕ)},
    findCycleGo rest acc = [] → Acyclic acc → Acyclic (rest.reverse ++ acc) := by
  intro rest
  induction rest with
  | nil =>
    intro acc h hacc
    rw [List.reverse_nil, List.nil_append]
    exact hacc
  | cons e rest ih =>
    intro acc h hacc
    unfold findCycleGo at h
    by_cases h1 : e.1 = e.2
    · rw [if_pos h1] at h
      simp at h
    · rw [if_neg h1] at h
      by_cases h2 : connB acc e.1 e.2 = true
      · rw [if_pos h2] at h
        cases hbp : bfsPath acc e.1 e.2 with
        | none =>
          rw [hbp] at h
          simp at h
        | some p =>
          rw [hbp] at h
          simp at h
      · rw [if_neg h2] at h
        have hacc' : Acyclic (e :: acc) :=
          acyclic_cons hacc h1 (fun hc => h2 (connB_iff_conn.mpr hc))
        have hr := ih h hacc'
        rw [List.reverse_cons, List.append_assoc]
        exact hr

theorem acyclic_of_find_cycle_nil {es : List (ℕ × ℕ)} (h : find_cycle es = []) :
    Acyclic es := by
  unfold find_cycle at h
  have h0 : Acyclic ((dedupeU es).reverse ++ []) :=
    findCycleGo_nil_acyclic h (fun e he => absurd he (List.not_mem_nil e))
  rw [List.append_nil] at h0
  refine acyclic_usub (fun u v huv => ?_) h0
  have h2 : EMem (dedupeU es) u v := emem_dedupeU.mpr huv
  rcases h2 with h2 | h2
  · exact Or.inl (List.mem_reverse.mpr h2)
  · exact Or.inr (List.mem_reverse.mpr h2)

theorem loopIter_out {nodes : List Point} :
    ∀ {fuel : ℕ} {G es es' : List (ℕ × ℕ)},
      loopIter nodes fuel G es = some es' → find_cycle es' = [] := by
  intro fuel
  induction fuel with
  | zero =>
    intro G es es' h
    exact absurd h (by simp [loopIter])
  | succ fuel ih =>
    intro G es es' h
    simp only [loopIter] at h
    by_cases hc : find_cycle es = []
    · rw [if_pos hc, Option.some_inj] at h
      subst h
      exact hc
    · rw [if_neg hc] at h
      exact ih h

/-! ### Vertex bounds through loop removal -/

theorem getD_mem {l : List ℕ} {d : ℕ} (h : 0 < l.length) : l.getD 0 d ∈ l := by
  rw [List.getD_eq_getElem l d h]
  exact List.getElem_mem h

theorem argmaxL_getD_bound {α : Type} (P : α → Prop) (f : α → ℚ) (l : List α) (d : α)
    (hd : P d) (hl : ∀ x ∈ l, P x) : P ((argmaxL f l).getD d) := by
  cases l with
  | nil => exact hd
  | cons z zs => exact hl _ (argmaxL_mem rfl)

theorem argminL_getD_bound {α : Type} (P : α → Prop) (f : α → ℚ) (l : List α) (d : α)
    (hd : P d) (hl : ∀ x ∈ l, P x) : P ((argminL f l).getD d) := by
  cases l with
  | nil => exact hd
  | cons z zs => exact hl _ (argminL_mem rfl)

theorem mem_nbrs {G : List (ℕ × ℕ)} {v c : ℕ} (h : c ∈ nbrs G v) :
    c ∈ vertsOf G := by
  induction G with
  | nil => cases h
  | cons e tl ih =>
    unfold nbrs at h
    rw [List.foldr_cons] at h
    by_cases h1 : e.1 = v
    · rw [if_pos h1] at h
      rcases List.mem_cons.mp h with rfl | h'
      · exact mem_vertsOf.mpr ⟨e, List.mem_cons_self e tl, Or.inr rfl⟩
      · obtain ⟨e', he', hx⟩ := mem_vertsOf.mp (ih h')
        exact mem_vertsOf.mpr ⟨e', List.mem_cons_of_mem e he', hx⟩
    · rw [if_neg h1] at h
      by_cases h2 : e.2 = v
      · rw [if_pos h2] at h
        rcases List.mem_cons.mp h with rfl | h'
        · exact mem_vertsOf.mpr ⟨e, List.mem_cons_self e tl, Or.inl rfl⟩
        · obtain ⟨e', he', hx⟩ := mem_vertsOf.mp (ih h')
          exact mem_vertsOf.mpr ⟨e', List.mem_cons_of_mem e he', hx⟩
      · rw [if_neg h2] at h
        obtain ⟨e', he', hx⟩ := mem_vertsOf.mp (ih h)
        exact mem_vertsOf.mpr ⟨e', List.mem_cons_of_mem e he', hx⟩

theorem bfsGo_subset {G : List (ℕ × ℕ)} {tgt : ℕ} (T : ℕ → Prop)
    (hT : ∀ x ∈ vertsOf G, T x) :
    ∀ {fuel : ℕ} {queue : List (ℕ × List ℕ)} {visited : List ℕ} {p : List ℕ},
      (∀ vp ∈ queue, ∀ x ∈ vp.2, T x) →
      bfsGo G tgt fuel queue visited = some p → ∀ x ∈ p, T x := by
  intro fuel
  induction fuel with
  | zero =>
    intro queue visited p hq h
    exact absurd h (by simp [bfsGo])
  | succ fuel ih =>
    intro queue visited p hq h
    cases queue with
    | nil => exact absurd h (by simp [bfsGo])
    | cons vp queue =>
      rcases vp with ⟨v, path⟩
      simp only [bfsGo] at h
      by_cases hv : v = tgt
      · rw [if_pos hv, Option.some_inj] at h
        rw [← h]
        exact hq (v, path) (List.mem_cons_self _ _)
      · rw [if_neg hv] at h
        refine ih ?_ h
        intro wp hwp x hx
        rcases List.mem_append.mp hwp with h1 | h1
        · exact hq wp (List.mem_cons_of_mem _ h1) x hx
        · obtain ⟨c, hc, rfl⟩ := List.mem_map.mp h1
          rcases List.mem_append.mp hx with h2 | h2
          · exact hq (v, path) (List.mem_cons_self _ _) x h2
          · rcases List.mem_singleton.mp h2 with rfl
            have hcn : x ∈ nbrs G v := List.mem_dedup.mp (List.mem_of_mem_filter hc)
            exact hT x (mem_nbrs hcn)

theorem bfsPath_subset {G : List (ℕ × ℕ)} {src tgt : ℕ} {p : List ℕ}
    (h : bfsPath G src tgt = some p) :
    ∀ x ∈ p, x = src ∨ x ∈ vertsOf G := by
  unfold bfsPath at h
  refine bfsGo_subset (fun x => x = src ∨ x ∈ vertsOf G) (fun x hx => Or.inr hx) ?_ h
  intro vp hvp x hx
  rcases List.mem_singleton.mp hvp with rfl
  rcases List.mem_singleton.mp hx with rfl
  exact Or.inl rfl

theorem path2edge_verts {p : List ℕ} {x : ℕ} (h : x ∈ vertsOf (path2edge p)) :
    x ∈ p := by
  obtain ⟨e, he, hx⟩ := mem_vertsOf.mp h
  unfold path2edge at he
  have h1 := List.of_mem_zip he
  rcases hx with rfl | rfl
  · exact h1.1
  · exact List.mem_of_mem_tail h1.2

theorem vertsOf_map_sortPair {es : List (ℕ × ℕ)} {x : ℕ}
    (h : x ∈ vertsOf (es.map sortPair)) : x ∈ vertsOf es := by
  obtain ⟨e', he', hx⟩ := mem_vertsOf.mp h
  obtain ⟨e, he, rfl⟩ := List.mem_map.mp he'
  rcases e with ⟨a, b⟩
  by_cases h1 : a ≤ b
  · rw [sortPair_eq_of_le h1] at hx
    exact mem_vertsOf.mpr ⟨(a, b), he, hx⟩
  · rw [sortPair_eq_of_gt h1] at hx
    rcases hx with h2 | h2
    · exact mem_vertsOf.mpr ⟨(a, b), he, Or.inr h2⟩
    · exact mem_vertsOf.mpr ⟨(a, b), he, Or.inl h2⟩

theorem vertsOf_remove_row {es rows : List (ℕ × ℕ)} {x : ℕ}
    (h : x ∈ vertsOf (remove_row es rows)) : x ∈ vertsOf es := by
  unfold remove_row at h
  dsimp only at h
  obtain ⟨e, he, hx⟩ := mem_vertsOf.mp h
  exact vertsOf_map_sortPair (mem_vertsOf.mpr ⟨e, List.mem_of_mem_filter he, hx⟩)

theorem mem_nodesCycle_verts {cyc : List (ℕ × ℕ)} {x : ℕ}
    (h : x ∈ uniqueSorted (endpointsL (cyc.map sortPair))) : x ∈ vertsOf cyc := by
  rw [mem_uniqueSorted, mem_endpointsL] at h
  exact vertsOf_map_sortPair (mem_vertsOf.mpr h)

theorem mem_branchCycleOf_verts {edges cyc : List (ℕ × ℕ)} {x : ℕ}
    (h : x ∈ branchCycleOf edges cyc) : x ∈ vertsOf cyc := by
  unfold branchCycleOf at h
  exact mem_nodesCycle_verts (List.mem_of_mem_filter h)

theorem findCycleGo_subset (P : ℕ → Prop) :
    ∀ {rest acc : List (ℕ × ℕ)},
      (∀ x ∈ vertsOf rest, P x) → (∀ x ∈ vertsOf acc, P x) →
      ∀ x ∈ vertsOf (findCycleGo rest acc), P x := by
  intro rest
  induction rest with
  | nil =>
    intro acc _ _ x hx
    exact absurd hx (List.not_mem_nil x)
  | cons e rest ih =>
    intro acc hrest hacc x hx
    have he1 : P e.1 := hrest e.1 (mem_vertsOf.mpr ⟨e, List.mem_cons_self e rest, Or.inl rfl⟩)
    have he2 : P e.2 := hrest e.2 (mem_vertsOf.mpr ⟨e, List.mem_cons_self e rest, Or.inr rfl⟩)
    unfold findCycleGo at hx
    by_cases h1 : e.1 = e.2
    · rw [if_pos h1] at hx
      obtain ⟨e', he', hx'⟩ := mem_vertsOf.mp hx
      rcases List.mem_singleton.mp he' with rfl
      rcases hx' with rfl | rfl
      · exact he1
      · exact he2
    · rw [if_neg h1] at hx
      by_cases h2 : connB acc e.1 e.2 = true
      · rw [if_pos h2] at hx
        cases hbp : bfsPath acc e.1 e.2 with
        | none =>
          rw [hbp] at hx
          obtain ⟨e', he', hx'⟩ := mem_vertsOf.mp hx
          rcases List.mem_singleton.mp he' with rfl
          rcases hx' with rfl | rfl
          · exact he1
          · exact he2
        | some p =>
          rw [hbp] at hx
          obtain ⟨e', he', hx'⟩ := mem_vertsOf.mp hx
          rcases List.mem_append.mp he' with h3 | h3
          · have hxp : x ∈ p := path2edge_verts (mem_vertsOf.mpr ⟨e', h3, hx'⟩)
            rcases bfsPath_subset hbp x hxp with rfl | hmem
            · exact he1
            · exact hacc x hmem
          · rcases List.mem_singleton.mp h3 with rfl
            rcases hx' with rfl | rfl
            · exact he1
            · exact he2
      · rw [if_neg h2] at hx
        refine ih (fun y hy => ?_) (fun y hy => ?_) x hx
        · obtain ⟨e', he', hy'⟩ := mem_vertsOf.mp hy
          exact hrest y (mem_vertsOf.mpr ⟨e', List.mem_cons_of_mem e he', hy'⟩)
        · obtain ⟨e', he', hy'⟩ := mem_vertsOf.mp hy
          rcases List.mem_cons.mp he' with rfl | h4
          · rcases hy' with rfl | rfl
            · exact he1
            · exact he2
          · exact hacc y (mem_vertsOf.mpr ⟨e', h4, hy'⟩)

theorem find_cycle_subset {es : List (ℕ × ℕ)} {x : ℕ}
    (h : x ∈ vertsOf (find_cycle es)) : x ∈ vertsOf es := by
  unfold find_cycle at h
  refine findCycleGo_subset (fun y => y ∈ vertsOf es) (fun y hy => ?_) (fun y hy => ?_) x h
  · obtain ⟨e, he, hy'⟩ := mem_vertsOf.mp hy
    have hm : EMem es e.1 e.2 := emem_dedupeU.mp (Or.inl he)
    rcases hy' with rfl | rfl
    · exact (mem_vertsOf_of_emem hm).1
    · exact (mem_vertsOf_of_emem hm).2
  · exact absurd hy (List.not_mem_nil y)

theorem ebnd_of_usub {n : ℕ} {es es' : List (ℕ × ℕ)} (hu : USub es' es)
    (h : ∀ x ∈ vertsOf es, x < n) : ∀ x ∈ vertsOf es', x < n := by
  intro x hx
  obtain ⟨e, he, hx'⟩ := mem_vertsOf.mp hx
  have hm : EMem es e.1 e.2 := hu e.1 e.2 (Or.inl he)
  rcases hx' with rfl | rfl
  · exact h _ (mem_vertsOf_of_emem hm).1
  · exact h _ (mem_vertsOf_of_emem hm).2

theorem removeLoopStep_bnd {nodes : List Point} {G edges cyc : List (ℕ × ℕ)}
    (hpos : 0 < nodes.length) (hes : ∀ x ∈ vertsOf edges, x < nodes.length)
    (hcyc : ∀ x ∈ vertsOf cyc, x < nodes.length) :
    ∀ x ∈ vertsOf (removeLoopStep nodes G edges cyc).2, x < nodes.length := by
  have hrr : ∀ rows : List (ℕ × ℕ), ∀ x ∈ vertsOf (remove_row edges rows),
      x < nodes.length :=
    fun rows x hx => hes x (vertsOf_remove_row hx)
  have hnc : ∀ x ∈ uniqueSorted (endpointsL (cyc.map sortPair)), x < nodes.length :=
    fun x hx => hcyc x (mem_nodesCycle_verts hx)
  have hbc : ∀ x ∈ branchCycleOf edges cyc, x < nodes.length :=
    fun x hx => hcyc x (mem_branchCycleOf_verts hx)
  simp only [removeLoopStep]
  by_cases h1 : (branchCycleOf edges cyc).length = 1
  · rw [if_pos h1]
    intro x hx
    obtain ⟨e, he, hx'⟩ := mem_vertsOf.mp hx
    rcases List.mem_append.mp he with h2 | h2
    · exact hrr _ x (mem_vertsOf.mpr ⟨e, h2, hx'⟩)
    · rcases List.mem_singleton.mp h2 with rfl
      rcases hx' with h3 | h3
    -- x equals b or end_node
      · rw [h3]
        exact hbc _ (getD_mem (by omega))
      · rw [h3]
        exact argmaxL_getD_bound (fun w => w < nodes.length) _ _ _ hpos hnc
  · rw [if_neg h1]
    by_cases h2 : (branchCycleOf edges cyc).length = 2
    · rw [if_pos h2]
      exact hrr _
    · rw [if_neg h2]
      by_cases h3 : (branchCycleOf edges cyc).length = 0
      · rw [if_pos h3]
        exact hrr _
      · rw [if_neg h3]
        intro x hx
        obtain ⟨e, he, hx'⟩ := mem_vertsOf.mp hx
        rcases List.mem_append.mp he with h4 | h4
        · exact hrr _ x (mem_vertsOf.mpr ⟨e, h4, hx'⟩)
        · obtain ⟨b, hb, rfl⟩ := List.mem_map.mp h4
          rcases hx' with h5 | h5
          · rw [h5]
            exact hbc b (List.mem_of_mem_filter hb)
          · rw [h5]
            refine argminL_getD_bound (fun w => w < nodes.length) _ _ _ hpos ?_
            intro w hw
            exact List.mem_range.mp hw

theorem loopIter_bnd {nodes : List Point} (hpos : 0 < nodes.length) :
    ∀ {fuel : ℕ} {G es es' : List (ℕ × ℕ)},
      (∀ x ∈ vertsOf es, x < nodes.length) → loopIter nodes fuel G es = some es' →
      ∀ x ∈ vertsOf es', x < nodes.length := by
  intro fuel
  induction fuel with
  | zero =>
    intro G es es' _ h
    exact absurd h (by simp [loopIter])
  | succ fuel ih =>
    intro G es es' hes h
    simp only [loopIter] at h
    by_cases hc : find_cycle es = []
    · rw [if_pos hc, Option.some_inj] at h
      rw [← h]
      exact hes
    · rw [if_neg hc] at h
      exact ih (removeLoopStep_bnd hpos hes (fun x hx => hes x (find_cycle_subset hx))) h

/-! ### Acyclicity through merge, consolidate and component split -/

theorem wfE_app2 {a t : Skel} (ha : WfE a) (ht : WfE t) : WfE (app2 a t) := by
  intro e he
  rw [app2_edges] at he
  rw [app2_n]
  rcases List.mem_append.mp he with h1 | h1
  · have := ha e h1
    omega
  · obtain ⟨e0, he0, rfl⟩ := List.mem_map.mp h1
    have := ht e0 he0
    constructor
    · show e0.1 + a.n < a.n + t.n
      omega
    · show e0.2 + a.n < a.n + t.n
      omega

theorem acyclic_app2 {a t : Skel} (ha : WfE a) (hA : Acyclic a.edges)
    (htA : Acyclic t.edges) : Acyclic (app2 a t).edges := by
  rw [app2_edges]
  refine acyclic_append_disjoint ?_ hA
    (acyclic_mapEdges (fun x _ y _ hxy => by omega) htA)
  intro x hx hx2
  obtain ⟨e, he, hxe⟩ := mem_vertsOf.mp hx
  obtain ⟨e', he', hxe'⟩ := mem_vertsOf.mp hx2
  obtain ⟨e0, he0, rfl⟩ := List.mem_map.mp he'
  have h1 := ha e he
  rcases hxe with rfl | rfl <;> rcases hxe' with h2 | h2
  · have h3 : e.1 = e0.1 + a.n := h2
    omega
  · have h3 : e.1 = e0.2 + a.n := h2
    omega
  · have h3 : e.2 = e0.1 + a.n := h2
    omega
  · have h3 : e.2 = e0.2 + a.n := h2
    omega

theorem wfE_simple_merge {l : List Skel} (h : ∀ c ∈ l, WfE c) :
    WfE (simple_merge l) := by
  induction l with
  | nil => exact fun e he => absurd he (List.not_mem_nil e)
  | cons c tl ih =>
    rw [simple_merge_cons]
    exact wfE_app2 (h c (List.mem_cons_self c tl))
      (ih (fun d hd => h d (List.mem_cons_of_mem c hd)))

theorem acyclic_simple_merge {l : List Skel}
    (h : ∀ c ∈ l, WfE c ∧ Acyclic c.edges) : Acyclic (simple_merge l).edges := by
  induction l with
  | nil => exact fun e he => absurd he (List.not_mem_nil e)
  | cons c tl ih =>
    rw [simple_merge_cons]
    obtain ⟨hc, hcA⟩ := h c (List.mem_cons_self c tl)
    exact acyclic_app2 hc hcA (ih (fun d hd => h d (List.mem_cons_of_mem c hd)))

theorem consolidate_keep_mem {m : Skel} (hwf : WfE m) {x : ℕ}
    (hx : x ∈ vertsOf m.edges) :
    x ∈ (List.range m.n).filter (fun v => decide (0 < degOcc m.edges v)) := by
  rw [List.mem_filter, List.mem_range, decide_eq_true_eq]
  obtain ⟨e, he, hx'⟩ := mem_vertsOf.mp hx
  have hb := hwf e he
  refine ⟨?_, degOcc_pos_of_mem_vertsOf hx⟩
  rcases hx' with rfl | rfl
  · exact hb.1
  · exact hb.2

theorem acyclic_consolidate {m : Skel} (hwf : WfE m) (hA : Acyclic m.edges) :
    Acyclic (consolidate m).edges := by
  unfold consolidate
  dsimp only
  refine acyclic_mapEdges ?_ hA
  intro x hx y hy hxy
  exact (List.indexOf_inj (consolidate_keep_mem hwf hx)
    (consolidate_keep_mem hwf hy)).mp hxy

theorem wfE_consolidate {m : Skel} (hwf : WfE m) : WfE (consolidate m) := by
  intro e' he'
  unfold consolidate at he' ⊢
  dsimp only at he' ⊢
  obtain ⟨e, he, rfl⟩ := List.mem_map.mp he'
  have h1 : e.1 ∈ vertsOf m.edges := mem_vertsOf.mpr ⟨e, he, Or.inl rfl⟩
  have h2 : e.2 ∈ vertsOf m.edges := mem_vertsOf.mpr ⟨e, he, Or.inr rfl⟩
  unfold Skel.n
  rw [List.length_map]
  exact ⟨List.indexOf_lt_length.mpr (consolidate_keep_mem hwf h1),
    List.indexOf_lt_length.mpr (consolidate_keep_mem hwf h2)⟩

theorem acyclic_subSkel {s : Skel} {vs : List ℕ} (hA : Acyclic s.edges) :
    Acyclic (subSkel s vs).edges := by
  unfold subSkel
  dsimp only
  have hAf : Acyclic (s.edges.filter (fun e => decide (e.1 ∈ vs) && decide (e.2 ∈ vs))) := by
    refine acyclic_usub (fun u v h => ?_) hA
    rcases h with h | h
    · exact Or.inl (List.mem_of_mem_filter h)
    · exact Or.inr (List.mem_of_mem_filter h)
  show Acyclic (mapEdges (fun v => vs.indexOf v)
    (s.edges.filter (fun e => decide (e.1 ∈ vs) && decide (e.2 ∈ vs))))
  refine acyclic_mapEdges ?_ hAf
  intro x hx y hy hxy
  have hmemvs : ∀ z, z ∈ vertsOf (s.edges.filter
      (fun e => decide (e.1 ∈ vs) && decide (e.2 ∈ vs))) → z ∈ vs := by
    intro z hz
    obtain ⟨e, he, hz'⟩ := mem_vertsOf.mp hz
    have hcond := (List.mem_filter.mp he).2
    rw [Bool.and_eq_true, decide_eq_true_eq, decide_eq_true_eq] at hcond
    rcases hz' with rfl | rfl
    · exact hcond.1
    · exact hcond.2
  exact (List.indexOf_inj (hmemvs x hx) (hmemvs y hy)).mp hxy

theorem acyclic_components {s : Skel} (hA : Acyclic s.edges) :
    ∀ c ∈ components s, Acyclic c.edges := by
  intro c hc
  unfold components at hc
  obtain ⟨r, _, rfl⟩ := List.mem_map.mp hc
  exact acyclic_subSkel hA

theorem ebnd_of_wfE {s : Skel} (hwf : WfE s) : ∀ x ∈ vertsOf s.edges, x < s.n := by
  intro x hx
  obtain ⟨e, he, hx'⟩ := mem_vertsOf.mp hx
  have := hwf e he
  rcases hx' with rfl | rfl
  · omega
  · omega

theorem mapM_option_mem {α β : Type} {f : α → Option β} :
    ∀ {xs : List α} {ys : List β}, xs.mapM f = some ys →
      ∀ y ∈ ys, ∃ x ∈ xs, f x = some y := by
  intro xs
  induction xs with
  | nil =>
    intro ys h y hy
    rw [List.mapM_nil] at h
    rw [show (pure [] : Option (List β)) = some [] from rfl, Option.some_inj] at h
    rw [← h] at hy
    exact absurd hy (List.not_mem_nil y)
  | cons x xs ih =>
    intro ys h y hy
    rw [List.mapM_cons] at h
    cases hfx : f x with
    | none =>
      rw [hfx] at h
      simp at h
    | some b =>
      rw [hfx] at h
      cases hm : xs.mapM f with
      | none =>
        rw [hm] at h
        simp at h
      | some bs =>
        rw [hm] at h
        simp at h
        rw [← h] at hy
        rcases List.mem_cons.mp hy with rfl | hy'
        · exact ⟨x, List.mem_cons_self x xs, hfx⟩
        · obtain ⟨x', hx', hfx'⟩ := ih hm y hy'
          exact ⟨x', List.mem_cons_of_mem x hx', hfx'⟩

/-! ### Pass-level acyclicity -/

theorem removeLoopsSingle_out {fuel : ℕ} {c tc : Skel} (hG : GoodBlock c)
    (h : removeLoopsSingle fuel c = some tc) : WfE tc ∧ Acyclic tc.edges := by
  unfold removeLoopsSingle at h
  obtain ⟨es', hloop, rfl⟩ := Option.map_eq_some'.mp h
  obtain ⟨hwf, _, hpos, _⟩ := hG
  have hbnd := loopIter_bnd (show (0 : ℕ) < c.vertices.length from hpos)
    (ebnd_of_wfE hwf) hloop
  constructor
  · intro e he
    exact ⟨hbnd _ (mem_vertsOf.mpr ⟨e, he, Or.inl rfl⟩),
      hbnd _ (mem_vertsOf.mpr ⟨e, he, Or.inr rfl⟩)⟩
  · exact acyclic_of_find_cycle_nil (loopIter_out hloop)

theorem remove_loops_acyclic {fuel : ℕ} {s s2 : Skel} (hwf : WfE s)
    (h : remove_loops fuel s = some s2) : WfE s2 ∧ Acyclic s2.edges := by
  unfold remove_loops at h
  by_cases hemp : s.isEmptySkel
  · rw [if_pos hemp, Option.some_inj] at h
    rw [← h]
    have hn : s.n = 0 := by
      unfold Skel.n
      rw [hemp]
      rfl
    refine ⟨hwf, fun e he => ?_⟩
    have := hwf e he
    rw [hn] at this
    omega
  · rw [if_neg hemp] at h
    obtain ⟨l, hmapm, rfl⟩ := Option.map_eq_some'.mp h
    have hblocks : ∀ tc ∈ l, WfE tc ∧ Acyclic tc.edges := by
      intro tc htc
      obtain ⟨c, hc, hfc⟩ := mapM_option_mem hmapm tc htc
      exact removeLoopsSingle_out (components_goodBlock hwf c hc) hfc
    have hmwf := wfE_simple_merge (fun c hc => (hblocks c hc).1)
    exact ⟨wfE_consolidate hmwf,
      acyclic_consolidate hmwf (acyclic_simple_merge hblocks)⟩

theorem combination_pairs_lt {n : ℕ} {ij : ℕ × ℕ}
    (h : ij ∈ combination_pairs n) : ij.1 < ij.2 := by
  unfold combination_pairs at h
  rw [List.mem_flatten] at h
  obtain ⟨l, hl, hij⟩ := h
  obtain ⟨i, hi, rfl⟩ := List.mem_map.mp hl
  obtain ⟨j, hj, rfl⟩ := List.mem_map.mp hij
  show i < i + j + 1
  omega

theorem find_connected_pairwise {n : ℕ} {es : List (ℕ × ℕ)} {i j : ℕ}
    (hij : i < j) (hj : j < (find_connected n es).length) :
    ∃ ri rj : ℕ, ri < n ∧ rj < n ∧
      (find_connected n es).getD i [] = compMembers es n ri ∧
      (find_connected n es).getD j [] = compMembers es n rj ∧
      ¬ Conn es ri rj := by
  unfold find_connected at hj ⊢
  have hj' : j < ((List.range n).filter (fun v =>
      decide (v ∈ vertsOf es) && decide (∀ u < v, connB es u v = false))).length := by
    rw [List.length_map] at hj
    exact hj
  have hi' : i < ((List.range n).filter (fun v =>
      decide (v ∈ vertsOf es) && decide (∀ u < v, connB es u v = false))).length :=
    Nat.lt_trans hij hj'
  have himem := List.getElem_mem hi'
  have hjmem := List.getElem_mem hj'
  have hiran := List.mem_range.mp (List.mem_of_mem_filter himem)
  have hjran := List.mem_range.mp (List.mem_of_mem_filter hjmem)
  refine ⟨_, _, hiran, hjran, ?_, ?_, ?_⟩
  · rw [List.getD_eq_getElem _ _ (by rw [List.length_map]; exact Nat.lt_trans hij hj'),
      List.getElem_map]
  · rw [List.getD_eq_getElem _ _ (by rw [List.length_map]; exact hj'),
      List.getElem_map]
  · have hpw : List.Pairwise (· < ·) ((List.range n).filter (fun v =>
        decide (v ∈ vertsOf es) && decide (∀ u < v, connB es u v = false))) :=
      (List.pairwise_lt_range n).filter _
    have hlt := List.pairwise_iff_getElem.mp hpw i j hi' hj' hij
    have hcond := (List.mem_filter.mp hjmem).2
    rw [Bool.and_eq_true, decide_eq_true_eq, decide_eq_true_eq] at hcond
    intro hc
    have hfalse := hcond.2 _ hlt
    rw [Bool.eq_false_iff] at hfalse
    exact hfalse (connB_iff_conn.mpr hc)

theorem sweepPairs_not_conn {elen : Point → Point → ℚ} {s : Skel}
    {es : List (ℕ × ℕ)} {e : ℕ × ℕ} (h : sweepPairs elen s es = some e) :
    ¬ Conn es e.1 e.2 ∧ e.1 < s.n ∧ e.2 < s.n := by
  unfold sweepPairs at h
  obtain ⟨ij, hij, htry⟩ := List.exists_of_findSome?_eq_some h
  obtain ⟨_, hj⟩ := combination_pairs_mem hij
  have hlt := combination_pairs_lt hij
  obtain ⟨ri, rj, hrin, hrjn, hPi, hPj, hnc⟩ := find_connected_pairwise hlt hj
  rw [hPi, hPj] at htry
  have hQne : compMembers es s.n rj ≠ [] := by
    intro hnil
    have : rj ∈ compMembers es s.n rj := mem_compMembers.mpr ⟨hrjn, Conn.refl⟩
    rw [hnil] at this
    exact List.not_mem_nil rj this
  unfold tryPair at htry
  cases hmin : argminL (fun p => elen (s.vert p)
      (s.vert (nearestIn elen s (compMembers es s.n rj) p))) (compMembers es s.n ri) with
  | none =>
    rw [hmin] at htry
    exact absurd htry (by simp)
  | some pStar =>
    rw [hmin] at htry
    dsimp only at htry
    by_cases hgate : qadd (s.rad pStar)
        (s.rad (nearestIn elen s (compMembers es s.n rj) pStar)) ≥
        elen (s.vert pStar) (s.vert (nearestIn elen s (compMembers es s.n rj) pStar))
    · rw [if_pos hgate, Option.some_inj] at htry
      rw [← htry]
      have hpmem : pStar ∈ compMembers es s.n ri := argminL_mem hmin
      have hqmem : nearestIn elen s (compMembers es s.n rj) pStar ∈
          compMembers es s.n rj := nearestIn_mem hQne pStar
      obtain ⟨hp1, hp2⟩ := mem_compMembers.mp hpmem
      obtain ⟨hq1, hq2⟩ := mem_compMembers.mp hqmem
      refine ⟨?_, hp1, hq1⟩
      intro hc
      exact hnc ((hp2.trans hc).trans hq2.symm)
    · rw [if_neg hgate] at htry
      exact absurd htry (by simp)

theorem connectLoop_acyclic {elen : Point → Point → ℚ} {s : Skel} :
    ∀ {fuel : ℕ} {es es' : List (ℕ × ℕ)},
      Acyclic es → (∀ x ∈ vertsOf es, x < s.n) →
      connectLoop elen s fuel es = some es' →
      Acyclic es' ∧ (∀ x ∈ vertsOf es', x < s.n) := by
  intro fuel
  induction fuel with
  | zero =>
    intro es es' _ _ h
    exact absurd h (by simp [connectLoop])
  | succ fuel ih =>
    intro es es' hA hB h
    simp only [connectLoop] at h
    cases hsw : sweepPairs elen s es with
    | none =>
      rw [hsw, Option.some_inj] at h
      rw [← h]
      exact ⟨hA, hB⟩
    | some e =>
      rw [hsw] at h
      obtain ⟨hnc, he1, he2⟩ := sweepPairs_not_conn hsw
      have hne : e.1 ≠ e.2 := by
        intro hc
        exact hnc (hc ▸ Conn.refl)
      have hA' : Acyclic (es ++ [(e.1, e.2)]) := by
        refine acyclic_usub (fun u v huv => ?_) (acyclic_cons hA hne hnc)
        rcases emem_append.mp huv with h1 | h1
        · exact emem_cons.mpr (Or.inr h1)
        · rcases emem_cons.mp h1 with hsp | h2
          · exact emem_cons.mpr (Or.inl hsp)
          · rcases h2 with h2 | h2 <;> exact absurd h2 (List.not_mem_nil _)
      have hB' : ∀ x ∈ vertsOf (es ++ [(e.1, e.2)]), x < s.n := by
        intro x hx
        obtain ⟨e0, he0, hx'⟩ := mem_vertsOf.mp hx
        rcases List.mem_append.mp he0 with h1 | h1
        · exact hB x (mem_vertsOf.mpr ⟨e0, h1, hx'⟩)
        · rcases List.mem_singleton.mp h1 with rfl
          rcases hx' with rfl | rfl
          · exact he1
          · exact he2
      exact ih hA' hB' h

theorem connect_pieces_acyclic {elen : Point → Point → ℚ} {fuel : ℕ} {s s3 : Skel}
    (hwf : WfE s) (hA : Acyclic s.edges)
    (h : connect_pieces elen fuel s = some s3) : WfE s3 ∧ Acyclic s3.edges := by
  unfold connect_pieces at h
  by_cases hemp : s.isEmptySkel
  · rw [if_pos hemp, Option.some_inj] at h
    rw [← h]
    exact ⟨hwf, hA⟩
  · rw [if_neg hemp] at h
    obtain ⟨es', hloop, rfl⟩ := Option.map_eq_some'.mp h
    obtain ⟨hA', hB'⟩ := connectLoop_acyclic hA (ebnd_of_wfE hwf) hloop
    have hmidwf : WfE ⟨s.vertices, es', s.radii⟩ := by
      intro e he
      exact ⟨hB' _ (mem_vertsOf.mpr ⟨e, he, Or.inl rfl⟩),
        hB' _ (mem_vertsOf.mpr ⟨e, he, Or.inr rfl⟩)⟩
    exact ⟨wfE_consolidate hmidwf, acyclic_consolidate hmidwf hA'⟩

theorem ticksLoop_usub {terminal : List ℕ} {threshold : ℚ} :
    ∀ {fuel : ℕ} {dg : List ((ℕ × ℕ) × ℚ)} {G G' : List (ℕ × ℕ)} {bc : ℕ → ℤ},
      ticksLoop terminal threshold fuel dg G bc = some G' → USub G' G := by
  intro fuel
  induction fuel with
  | zero =>
    intro dg G G' bc h
    exact absurd h (by simp [ticksLoop])
  | succ fuel ih =>
    intro dg G G' bc h
    simp only [ticksLoop] at h
    by_cases h1 : dg.length ≤ 1
    · rw [if_pos h1, Option.some_inj] at h
      rw [← h]
      exact fun u v hv => hv
    · rw [if_neg h1] at h
      cases hm : argminL (fun kv => kv.2) (dg.filter (fun kv =>
          decide (kv.1.1 ∈ terminal ∨ kv.1.2 ∈ terminal))) with
      | none =>
        rw [hm] at h
        simp at h
      | some kv =>
        rw [hm] at h
        dsimp only at h
        by_cases h2 : bc kv.1.1 = 1 ∧ bc kv.1.2 = 1
        · rw [if_pos h2, Option.some_inj] at h
          rw [← h]
          exact fun u v hv => hv
        · rw [if_neg h2] at h
          by_cases h3 : kv.2 ≥ threshold
          · rw [if_pos h3, Option.some_inj] at h
            rw [← h]
            exact fun u v hv => hv
          · rw [if_neg h3] at h
            cases hbp : bfsPath G kv.1.1 kv.1.2 with
            | none =>
              rw [hbp] at h
              simp at h
            | some p =>
              rw [hbp] at h
              dsimp only at h
              have hrec := ih h
              exact fun u v hv =>
                usub_nxRemoveEdges G (path2edge p) u v (hrec u v hv)

theorem removeTicksSingle_out {elen : Point → Point → ℚ} {fuel : ℕ} {c tc : Skel}
    {θ : ℚ} (hwf : WfE c) (hA : Acyclic c.edges)
    (h : removeTicksSingle elen fuel c θ = some tc) : WfE tc ∧ Acyclic tc.edges := by
  unfold removeTicksSingle at h
  by_cases hemp : c.isEmptySkel
  · rw [if_pos hemp, Option.some_inj] at h
    rw [← h]
    exact ⟨hwf, hA⟩
  · rw [if_neg hemp] at h
    cases hdg : _create_distance_graph elen fuel c with
    | none =>
      rw [hdg] at h
      simp at h
    | some dg =>
      rw [hdg] at h
      dsimp only at h
      cases hloop : ticksLoop ((uniqueSorted (endpointsL c.edges)).filter
          (fun v => decide (degOcc c.edges v = 1))) θ fuel dg
          (nxAddEdges [] c.edges) (initBranchCounts c.edges) with
      | none =>
        rw [hloop] at h
        simp at h
      | some G =>
        rw [hloop, Option.some_inj] at h
        rw [← h]
        have husub : USub G c.edges := by
          intro u v hv
          exact emem_dedupeU.mp (ticksLoop_usub hloop u v hv)
        have hGA : Acyclic G := acyclic_usub husub hA
        have hGB : ∀ x ∈ vertsOf G, x < c.n :=
          ebnd_of_usub husub (ebnd_of_wfE hwf)
        have hmidwf : WfE ⟨c.vertices, G, c.radii⟩ := by
          intro e he
          exact ⟨hGB _ (mem_vertsOf.mpr ⟨e, he, Or.inl rfl⟩),
            hGB _ (mem_vertsOf.mpr ⟨e, he, Or.inr rfl⟩)⟩
        exact ⟨wfE_consolidate hmidwf, acyclic_consolidate hmidwf hGA⟩

theorem remove_ticks_acyclic {elen : Point → Point → ℚ} {fuel : ℕ} {s T : Skel}
    {θ : ℚ} (hwf : WfE s) (hA : Acyclic s.edges)
    (h : remove_ticks elen fuel s θ = some T) : WfE T ∧ Acyclic T.edges := by
  unfold remove_ticks at h
  by_cases hemp : s.isEmptySkel
  · rw [if_pos hemp, Option.some_inj] at h
    rw [← h]
    exact ⟨hwf, hA⟩
  · rw [if_neg hemp] at h
    obtain ⟨l, hmapm, rfl⟩ := Option.map_eq_some'.mp h
    have hblocks : ∀ tc ∈ l, WfE tc ∧ Acyclic tc.edges := by
      intro tc htc
      obtain ⟨c, hc, hfc⟩ := mapM_option_mem hmapm tc htc
      exact removeTicksSingle_out (components_goodBlock hwf c hc).1
        (acyclic_components hA c hc) hfc
    have hmwf := wfE_simple_merge (fun c hc => (hblocks c hc).1)
    exact ⟨wfE_consolidate hmwf,
      acyclic_consolidate hmwf (acyclic_simple_merge hblocks)⟩

theorem wfE_remove_dust {elen : Point → Point → ℚ} {s : Skel} {θ : ℚ}
    (hwf : WfE s) : WfE (remove_dust elen s θ) := by
  unfold remove_dust
  by_cases hemp : s.isEmptySkel
  · rw [if_pos hemp]
    exact hwf
  · rw [if_neg hemp]
    exact wfE_consolidate (wfE_simple_merge (fun c hc =>
      (components_goodBlock hwf c (List.mem_filter.mp hc).1).1))

/-- C4.  On input with well-formed (index-bounded) edges, whenever the
pipeline returns a skeleton its graph is acyclic: the loop-removal pass
exits only when the cycle detector reports no cycle, piece connection only
bridges vertices of distinct connected components, tick removal only
deletes edges, and the intervening merges and consolidations concatenate
support-disjoint blocks or relabel vertices injectively. -/
theorem C4_theorem (elen : Point → Point → ℚ) (fuel : ℕ) (s T : Skel)
    (d t : ℚ) (hwf : WfE s)
    (hT : trim_skeleton elen fuel s d t = some T) : Acyclic T.edges := by
  unfold trim_skeleton at hT
  dsimp only at hT
  cases h2 : remove_loops fuel (remove_dust elen s d) with
  | none =>
    rw [h2] at hT
    simp at hT
  | some s2 =>
    rw [h2] at hT
    simp only [Option.bind_eq_bind, Option.some_bind] at hT
    obtain ⟨h2wf, h2A⟩ := remove_loops_acyclic (wfE_remove_dust hwf) h2
    cases h3 : connect_pieces elen fuel s2 with
    | none =>
      rw [h3] at hT
      simp at hT
    | some s3 =>
      rw [h3] at hT
      simp only [Option.bind_eq_bind, Option.some_bind] at hT
      obtain ⟨h3wf, h3A⟩ := connect_pieces_acyclic h2wf h2A h3
      exact (remove_ticks_acyclic h3wf h3A hT).2

/-- C4 witness: the pipeline on the Y skeleton returns the pruned two-arm
path, whose edge array the theorem certifies acyclic. -/
theorem C4_witness :
    WfE Ysk ∧ trim_skeleton qlen 20 Ysk 4000 6000 = some YskTrimmed ∧
    Acyclic YskTrimmed.edges :=
  ⟨by decide, by decide,
    C4_theorem qlen 20 Ysk YskTrimmed 4000 6000 (by decide) (by decide)⟩

end Igneous
